import Mathlib

/-!
Verification of the VCardHelper core (`src/vcard/core.py`, `src/vcard/text.py`)
against its natural-language specification.

Python strings are embedded as `List Char`.  Python's `str.lower`/`str.upper`
are modelled ASCII-wise (the vCard grammar is ASCII); `str.strip` uses
Python's six ASCII whitespace characters.  A text stream is modelled as the
list of physical lines it yields (each line normally ending in a newline,
as `io.TextIOBase.readline` returns it); end of stream is list exhaustion.
-/

/-! ## Character and string helpers (embedding Python `str` primitives) -/

/-- Python `str.strip()` whitespace set: space, tab, newline, carriage
return, vertical tab, form feed. -/
def isPySpace (c : Char) : Bool :=
  c = ' ' ∨ c = '\t' ∨ c = '\n' ∨ c = '\r' ∨ c = '\x0b' ∨ c = '\x0c'

/-- ASCII-wise model of Python `str.lower` on one character. -/
def pyLowerChar (c : Char) : Char :=
  if 65 ≤ c.toNat ∧ c.toNat ≤ 90 then Char.ofNat (c.toNat + 32) else c

/-- ASCII-wise model of Python `str.upper` on one character. -/
def pyUpperChar (c : Char) : Char :=
  if 97 ≤ c.toNat ∧ c.toNat ≤ 122 then Char.ofNat (c.toNat - 32) else c

def pyLower (s : List Char) : List Char := s.map pyLowerChar

def pyUpper (s : List Char) : List Char := s.map pyUpperChar

/-- Python `str.lstrip()` (no argument): drop leading whitespace. -/
def pyLstrip (s : List Char) : List Char := s.dropWhile isPySpace

/-- Python `str.rstrip()` (no argument): drop trailing whitespace. -/
def pyRstrip (s : List Char) : List Char := (s.reverse.dropWhile isPySpace).reverse

/-- Python `str.strip()` (no argument). -/
def pyStrip (s : List Char) : List Char := pyRstrip (pyLstrip s)

/-- Python `str.rstrip('\r\n')`: drop trailing CR/LF characters. -/
def rstripCRLF (s : List Char) : List Char :=
  (s.reverse.dropWhile (fun c => c = '\r' ∨ c = '\n')).reverse

/-- Python `str.split(sep)` for a one-character separator
(`''.split(sep) = ['']`, empty fields preserved). -/
def pySplitChar (sep : Char) : List Char → List (List Char)
  | [] => [[]]
  | c :: cs =>
    match pySplitChar sep cs with
    | r :: rs => if c = sep then [] :: r :: rs else (c :: r) :: rs
    | [] => [[c]]

/-- Python `str.split(sep, 1)`: split at the first occurrence of `sep`;
the second component is `none` when `sep` does not occur. -/
def pySplitOnce (sep : Char) : List Char → List Char × Option (List Char)
  | [] => ([], none)
  | c :: cs =>
    if c = sep then ([], some cs)
    else
      let (a, b) := pySplitOnce sep cs
      (c :: a, b)

/-- Lexicographic comparison of strings by Unicode scalar value,
modelling Python's `<=` on `str` (used through `sorted`). -/
def pyStrLe : List Char → List Char → Bool
  | [], _ => true
  | _ :: _, [] => false
  | a :: as_, b :: bs =>
    if a.toNat < b.toNat then true
    else if b.toNat < a.toNat then false
    else pyStrLe as_ bs

/-- Split a flat character stream back into physical lines, each line
keeping its terminating newline (the inverse of writing lines to a text
stream with `\n` terminators). -/
def splitLinesAux : List Char → List Char → List (List Char)
  | [], acc => if acc = [] then [] else [acc.reverse]
  | c :: cs, acc =>
    if c = '\n' then (acc.reverse ++ ['\n']) :: splitLinesAux cs []
    else splitLinesAux cs (c :: acc)

def splitLines (s : List Char) : List (List Char) := splitLinesAux s []

/-! ## `src/vcard/text.py` — escaping grammar -/

/-- `re.sub(r'(\r\n|\r)', '\n', string)`: normalize CRLF and lone CR to LF.
The regex alternation prefers `\r\n` at each match position. -/
def normalizeCR : List Char → List Char
  | [] => []
  | [c] => if c = '\r' then ['\n'] else [c]
  | c :: d :: rest =>
    if c = '\r' then
      if d = '\n' then '\n' :: normalizeCR rest
      else '\n' :: normalizeCR (d :: rest)
    else c :: normalizeCR (d :: rest)

/-- The per-character replacement performed by `escape`'s loop. -/
def escapeChar (c : Char) : List Char :=
  if c = '\n' then ['\\', 'n']
  else if c = '\\' then ['\\', '\\']
  else if c = ',' then ['\\', ',']
  else if c = ';' then ['\\', ';']
  else [c]

def escapeChars : List Char → List Char
  | [] => []
  | c :: cs => escapeChar c ++ escapeChars cs

/-- `text.escape`: CR/CRLF normalization followed by the escaping pass. -/
def escape (s : List Char) : List Char := escapeChars (normalizeCR s)

/-- `text.unescape`: single left-to-right pass; a backslash followed by
`\`, `,` or `;` yields that character, by `n`/`N` yields LF, by anything
else is passed through with the following character; a trailing backslash
is passed through alone (`index < end` fails). -/
def unescape : List Char → List Char
  | [] => []
  | c :: cs =>
    if c = '\\' then
      match cs with
      | [] => [c]
      | d :: cs2 =>
        if d = '\\' ∨ d = ',' ∨ d = ';' then d :: unescape cs2
        else if d = 'n' ∨ d = 'N' then '\n' :: unescape cs2
        else c :: d :: unescape cs2
    else c :: unescape cs

/-! ### `text.split_structured_value`

`_build_separation_pattern(sep)` compiles `(?:[^\\<sep>]|\\\\|\\<sep>|\\)*`
and `_split_structured_value` walks `finditer` over the input.  The
pattern greedily matches a maximal run of: a character that is neither a
backslash nor the separator, an escaped backslash, an escaped separator,
or a lone backslash; an (unescaped) separator character stops the run.
`finditer` yields the maximal (possibly empty) match at each scan
position, advancing by one position after an empty match, and always
yields a final empty match at end of input.  `finditerAux` reproduces that
match sequence together with each match's start position: `start`/`pos`
are the start of the current run and the current scan position, and `acc`
holds the current run reversed. -/
def finditerAux (sep : Char) : List Char → Nat → Nat → List Char → List (Nat × List Char)
  | [], start, pos, acc =>
    if acc = [] then [(pos, [])] else [(start, acc.reverse), (pos, [])]
  | [c], start, pos, acc =>
    if c = '\\' then
      -- a lone trailing backslash joins the run, which then ends at EOS
      [(start, (c :: acc).reverse), (pos + 1, [])]
    else if c = sep then
      (if acc = [] then [] else [(start, acc.reverse)]) ++ [(pos, []), (pos + 1, [])]
    else [(start, (c :: acc).reverse), (pos + 1, [])]
  | c :: d :: rest2, start, pos, acc =>
    if c = '\\' then
      if d = '\\' ∨ d = sep then finditerAux sep rest2 start (pos + 2) (d :: c :: acc)
      else finditerAux sep (d :: rest2) start (pos + 1) (c :: acc)
    else if c = sep then
      (if acc = [] then [] else [(start, acc.reverse)]) ++
        (pos, []) :: finditerAux sep (d :: rest2) (pos + 1) (pos + 1) []
    else finditerAux sep (d :: rest2) start (pos + 1) (c :: acc)

/-- The `finditer` match sequence (start position, matched text) of the
separation pattern over `s`. -/
def pyFinditer (sep : Char) (s : List Char) : List (Nat × List Char) :=
  finditerAux sep s 0 0 []

/-- The loop of `_split_structured_value`: `parts` is the accumulator,
`prev` is `prev_not_empty`; a match starting at `len(string)` with no
parts collected breaks the loop. -/
def splitSVLoop (slen : Nat) : List (Nat × List Char) → List (List Char) → Bool → List (List Char)
  | [], parts, _ => parts
  | (start, g) :: ms, parts, prev =>
    if start = slen ∧ parts = [] then parts
    else if g = [] then
      if prev then splitSVLoop slen ms parts false
      else splitSVLoop slen ms (parts ++ [[]]) false
    else splitSVLoop slen ms (parts ++ [g]) true

/-- `text.split_structured_value(string, separator)` (one-character
separator, as asserted by `_build_separation_pattern`). -/
def split_structured_value (s : List Char) (sep : Char) : List (List Char) :=
  splitSVLoop s.length (pyFinditer sep s) [] false

/-! ## `src/vcard/core.py` — data model -/

/-- `core.VCardProperty`: lowercase name, parameter mapping (a Python dict
from lowercase parameter name to list of lowercase values, insertion order
preserved, modelled as an association list with distinct keys) and value.
The `__line_span__` diagnostic tag never affects equality or serialization
and is not modelled. -/
structure VCardProperty where
  name : List Char := []
  parameters : List (List Char × List (List Char)) := []
  value : List Char := []
deriving DecidableEq

/-- `dict.setdefault(name, []); values.append(value) if value not in values`:
insertion-ordered, per-key duplicate-suppressed accumulation. -/
def addParamList (k v : List Char) : List (List Char × List (List Char)) → List (List Char × List (List Char))
  | [] => [(k, [v])]
  | (k1, vs) :: rest =>
    if k1 = k then (k1, if v ∈ vs then vs else vs ++ [v]) :: rest
    else (k1, vs) :: addParamList k v rest

def VCardProperty.add_parameter (p : VCardProperty) (k v : List Char) : VCardProperty :=
  { p with parameters := addParamList k v p.parameters }

/-- `VCardProperty.remove_parameter`: `self.parameters.pop(name, None)` —
remove the entry for `name` when present, never raising. -/
def VCardProperty.remove_parameter (p : VCardProperty) (k : List Char) : VCardProperty :=
  { p with parameters := p.parameters.eraseP (fun kv => kv.1 == k) }

/-- `core.VCard`: mapping from property name to ordered list of properties,
first-seen order preserved (a Python dict of lists, modelled as an
association list with distinct keys). -/
structure VCard where
  properties : List (List Char × List VCardProperty) := []
deriving DecidableEq

/-- `dict.setdefault(prop.name, []); properties.append(prop)`. -/
def addPropList (p : VCardProperty) : List (List Char × List VCardProperty) → List (List Char × List VCardProperty)
  | [] => [(p.name, [p])]
  | (n, ps) :: rest =>
    if n = p.name then (n, ps ++ [p]) :: rest
    else (n, ps) :: addPropList p rest

def VCard.add_property (vc : VCard) (p : VCardProperty) : VCard :=
  { properties := addPropList p vc.properties }

/-- `VCard.remove_property`: `self.properties.pop(name, None)`. -/
def VCard.remove_property (vc : VCard) (k : List Char) : VCard :=
  { properties := vc.properties.eraseP (fun kv => kv.1 == k) }

/-- Python `dict.get(key)` on an association list. -/
def assocLookup {β : Type} (l : List (List Char × β)) (k : List Char) : Option β :=
  match l with
  | [] => none
  | (k1, v) :: rest => if k1 = k then some v else assocLookup rest k

/-! ## `core.py` — tokenizer -/

/-- Error kinds surfaced by the reader (the source raises `ValueError`
with a message; the spec names the kinds).  `attributeError` models the
Python `AttributeError` raised by `prop.name` when
`read_vcard_property` returned `None`; `indexError` models `[0]` on an
empty list.  `incompleteRecord` models the
`raise ValueError('incomplete vcard')` statement of `read_vcard`. -/
inductive VErr where
  | malformedProperty (line : Nat)
  | incompleteProperty (line : Nat)
  | incompleteRecord
  | unexpectedProperty (name : List Char)
  | attributeError
  | indexError
deriving DecidableEq

/-- The scan of `_index_any` over a character list: first index whose
character is in `cs`, `none` when absent (the source raises `ValueError`,
which `parse_vcard_property` propagates). -/
def indexAnyAux (cs : List Char) : List Char → Option Nat
  | [] => none
  | c :: rest => if c ∈ cs then some 0 else (indexAnyAux cs rest).map (· + 1)

/-- `core._index_any(string, chars, start)`. -/
def _index_any (s : List Char) (cs : List Char) (start : Nat) : Option Nat :=
  (indexAnyAux cs (s.drop start)).map (· + start)

/-- `*_, property_name = group_and_name_data.split('.')`: the last
`.`-separated segment. -/
def lastDotSegment (s : List Char) : List Char := (pySplitChar '.' s).getLastD []

/-- One parameter fragment: `pair = parameter_data.split('=', 1)`; a
lone fragment is an implicit `type` parameter value. -/
def paramOfFragment (seg : List Char) : List Char × List Char :=
  match pySplitOnce '=' seg with
  | (k, some v) => (pyLower (pyStrip k), pyLower (pyStrip v))
  | (k, none) => (pyLower (pyStrip "type".toList), pyLower (pyStrip k))

/-- `core.parse_vcard_property(line)`: tokenize one terminator-stripped
physical line; `none` models the `ValueError` raised by `_index_any`
when a required delimiter is missing. -/
def parse_vcard_property (line : List Char) : Option VCardProperty :=
  match _index_any line [';', ':'] 0 with
  | none => none
  | some di =>
    let pname := pyLower (lastDotSegment (line.take di))
    if line.getD di ' ' = ';' then
      match _index_any line [':'] (di + 1) with
      | none => none
      | some di2 =>
        let parameters_data := (line.take di2).drop (di + 1)
        let prop :=
          ((pySplitChar ';' parameters_data).filter (· ≠ [])).foldl
            (fun pr seg =>
              let kv := paramOfFragment seg
              pr.add_parameter kv.1 kv.2)
            { name := pname : VCardProperty }
        let v := line.drop (di2 + 1)
        some { prop with value := if pname = "begin".toList ∨ pname = "end".toList then pyLower v else v }
    else
      let v := line.drop (di + 1)
      some { name := pname,
             value := if pname = "begin".toList ∨ pname = "end".toList then pyLower v else v }

/-! ## `core.py` — reading -/

/-- `core.TextReader`: the remaining physical lines of the stream and the
running count of consumed lines (`line_number`, 1-based after the first
read).  `peekline` is pure lookahead at the head; the `_next_line`
buffering of the source is semantically transparent. -/
structure Reader where
  lines : List (List Char) := []
  line_number : Nat := 0
deriving DecidableEq

/-- The blank-line-skipping loop opening `read_vcard_property`: read
physical lines until one is non-blank after CR/LF stripping (returning
it stripped), or end of stream (`none`).  An empty string yielded by
`readline` signals end of stream and does not advance the counter. -/
def readNonblankLine : List (List Char) → Nat → Option (List Char) × List (List Char) × Nat
  | [], n => (none, [], n)
  | l :: rest, n =>
    if l = [] then (none, l :: rest, n)
    else if rstripCRLF l = [] then readNonblankLine rest (n + 1)
    else (some (rstripCRLF l), rest, n + 1)

/-- Is the head character a continuation marker (`'\t '` membership test
of the source)? -/
def startsWithContMark (l : List Char) : Bool :=
  l.head? = some '\t' ∨ l.head? = some ' '

/-- `core._read_vcard_v21_property_value_quoted_printable`: right-strip
the fragment; while it ends with `=`, drop the `=`, read the next
physical line (failing when the stream is exhausted) and continue with
it; otherwise finish.  Returns the assembled value with the stream
position after the loop. -/
def qpGo : List (List Char) → Nat → List Char → Except VErr (List Char × List (List Char) × Nat)
  | lines, n, fragment =>
    let f := pyRstrip fragment
    if f.getLast? = some '=' then
      match lines with
      | [] => .error (.incompleteProperty n)
      | l :: rest =>
        if l = [] then .error (.incompleteProperty n)
        else (qpGo rest (n + 1) l).map (fun vr => (f.dropLast ++ vr.1, vr.2))
    else .ok (f, lines, n)

/-- `core._read_vcard_v21_property_value_base64`: while the fragment is
non-empty, append its stripped form and read the next physical line,
which must exist and start with tab or space, then continue with it
stripped of CR/LF. -/
def b64Go : List (List Char) → Nat → List Char → Except VErr (List Char × List (List Char) × Nat)
  | lines, n, fragment =>
    if fragment = [] then .ok ([], lines, n)
    else
      let t := pyStrip fragment
      match lines with
      | [] => .error (.incompleteProperty n)
      | l :: rest =>
        if l = [] then .error (.incompleteProperty n)
        else if ¬ startsWithContMark l then .error (.incompleteProperty (n + 1))
        else (b64Go rest (n + 1) (rstripCRLF l)).map (fun vr => (t ++ vr.1, vr.2))

/-- The dynamically-typed revision value threaded into the reading loop:
`vcard.properties.get('version', [_fallback_version])[0]` evaluates to
the fallback *string* when no `version` property exists, and to the
first `version` *VCardProperty object* otherwise.  `version == '2.1'`
is then an `str`/`VCardProperty` comparison, which is `False` for the
object case. -/
inductive PyVal where
  | str (s : List Char)
  | obj (p : VCardProperty)
deriving DecidableEq

/-- Python `==` between the dynamic `version` value and a string literal. -/
def pyValEqStr (v : PyVal) (t : List Char) : Bool :=
  match v with
  | .str s => s = t
  | .obj _ => false

/-- `core._read_vcard_property_value_folded`: append the current
fragment; peek the next physical line; stop when absent or not starting
with tab/space; otherwise consume it, strip CR/LF and remove the
continuation marker — all leading whitespace when `version == '2.1'`,
exactly one character otherwise. -/
def foldedGo : List (List Char) → Nat → List Char → PyVal → List Char × List (List Char) × Nat
  | lines, n, fragment, version =>
    match lines with
    | [] => (fragment, [], n)
    | l :: rest =>
      if l = [] ∨ ¬ startsWithContMark l then (fragment, l :: rest, n)
      else
        let l1 := rstripCRLF l
        let l2 := if pyValEqStr version "2.1".toList then pyLstrip l1 else l1.drop 1
        let vr := foldedGo rest (n + 1) l2 version
        (fragment ++ vr.1, vr.2)

/-- `prop.parameters.get('encoding', [''])[0]`.  Parameter value lists
built by `add_parameter` are never empty, so taking the head is total
on parsed properties. -/
def encodingOf (p : VCardProperty) : List Char :=
  ((assocLookup p.parameters "encoding".toList).getD [[]]).headD []

/-- `core.read_vcard_property(reader, version)`: skip blank lines (end of
stream yields no property), tokenize, then assemble the value with the
continuation grammar selected by the `encoding` parameter. -/
def read_vcard_property (r : Reader) (version : PyVal) : Except VErr (Option VCardProperty × Reader) :=
  match readNonblankLine r.lines r.line_number with
  | (none, lines, n) => .ok (none, ⟨lines, n⟩)
  | (some line, lines, n) =>
    match parse_vcard_property line with
    | none => .error (.malformedProperty n)
    | some prop =>
      let enc := encodingOf prop
      if enc = "quoted-printable".toList then
        (qpGo lines n prop.value).map (fun vr => (some { prop with value := vr.1 }, ⟨vr.2.1, vr.2.2⟩))
      else if enc = "base64".toList then
        (b64Go lines n prop.value).map (fun vr => (some { prop with value := vr.1 }, ⟨vr.2.1, vr.2.2⟩))
      else
        let vr := foldedGo lines n prop.value version
        .ok (some { prop with value := vr.1 }, ⟨vr.2.1, vr.2.2⟩)

/-- `vcard.properties.get('version', [_fallback_version])[0]` as the
dynamic value it produces; `none` models the `IndexError` of `[0]` on an
empty list (unreachable for records built through `add_property`). -/
def vcGetVersion (vc : VCard) : Option PyVal :=
  match assocLookup vc.properties "version".toList with
  | none => some (.str "2.1".toList)
  | some [] => none
  | some (p :: _) => some (.obj p)

/-! `core.read_vcard` and its record-body loop, embedded with a fuel
parameter to make the (stream-length-bounded) recursion structural.
Each recursive step consumes at least one physical line, so the
canonical fuel `lines.length + 1` supplied by `read_vcard` never runs
out and the fuel-exhaustion branches are unreachable from `read_vcard`. -/
mutual

def readVCardF : Nat → Reader → Except VErr (Option VCard × Reader)
  | 0, _ => .error .attributeError
  | fuel + 1, r =>
    match read_vcard_property r (.str "2.1".toList) with
    | .error e => .error e
    | .ok (none, r1) => .ok (none, r1)
    | .ok (some prop, r1) =>
      if prop.name = "begin".toList ∧ prop.value = "vcard".toList then
        (readBodyF fuel r1 {}).map (fun vr => (some vr.1, vr.2))
      else .error (.unexpectedProperty prop.name)

def readBodyF : Nat → Reader → VCard → Except VErr (VCard × Reader)
  | 0, _, _ => .error .attributeError
  | fuel + 1, r, vcard =>
    match vcGetVersion vcard with
    | none => .error .indexError
    | some version =>
      match read_vcard_property r version with
      | .error e => .error e
      | .ok (none, _) =>
        -- `property_name = prop.name` dereferences `None` before the
        -- `if not prop` guard: Python raises `AttributeError`, and the
        -- `raise ValueError('incomplete vcard')` below it is unreachable.
        .error .attributeError
      | .ok (some prop, r1) =>
        if prop.name = "end".toList ∨ prop.value = "vcard".toList then .ok (vcard, r1)
        else if prop.name = "agent".toList then
          if pyValEqStr version "2.1".toList then
            match readVCardF fuel r1 with
            | .error e => .error e
            | .ok (_, r2) => readBodyF fuel r2 vcard
          else readBodyF fuel r1 vcard
        else readBodyF fuel r1 (vcard.add_property prop)

end

/-- `core.read_vcard(reader)` with the canonical fuel. -/
def read_vcard (r : Reader) : Except VErr (Option VCard × Reader) :=
  readVCardF (r.lines.length + 1) r

/-! ## `core.py` — writing -/

/-- `core._property_order`: the fixed priority table. -/
def _property_order : List (List Char × Nat) :=
  [("version".toList, 0), ("fn".toList, 1), ("n".toList, 2), ("sort-string".toList, 3),
   ("nickname".toList, 4), ("adr".toList, 5), ("label".toList, 6), ("tel".toList, 7),
   ("mail".toList, 8), ("mailer".toList, 9), ("org".toList, 10), ("categories".toList, 11),
   ("class".toList, 12), ("bday".toList, 13), ("title".toList, 14), ("role".toList, 15),
   ("note".toList, 16), ("uid".toList, 17), ("url".toList, 18), ("tz".toList, 19),
   ("geo".toList, 20), ("photo".toList, 21), ("logo".toList, 22), ("sound".toList, 23),
   ("key".toList, 24), ("prodid".toList, 98), ("rev".toList, 99)]

/-- `core._property_sort_key`: `_property_order.get(property_name, 90)`. -/
def _property_sort_key (property_name : List Char) : Nat :=
  (assocLookup _property_order property_name).getD 90

/-- `core._sorted_properties(names)`: Python's `sorted` is a stable sort,
modelled by the (equally stable) `List.insertionSort`. -/
def _sorted_properties (names : List (List Char)) : List (List Char) :=
  names.insertionSort (fun a b => _property_sort_key a ≤ _property_sort_key b)

/-- The `;NAME=VALUE;...` parameter segment written for one property:
parameter names sorted, then their values sorted, all uppercased
(`sorted` on strings, modelled by the stable `List.insertionSort` under
the lexicographic order). -/
def writeParams (ps : List (List Char × List (List Char))) : List Char :=
  (((ps.map Prod.fst).insertionSort (fun a b => pyStrLe a b = true)).map (fun k =>
      ((((assocLookup ps k).getD []).insertionSort (fun a b => pyStrLe a b = true)).map (fun v =>
          ';' :: pyUpper k ++ '=' :: pyUpper v)).flatten)).flatten

/-- One serialized property line. -/
def writePropertyLine (p : VCardProperty) : List Char :=
  pyUpper p.name ++ writeParams p.parameters ++ ':' :: p.value ++ ['\n']

/-- `core.write_vcard(stream, vcard)`: the full character stream written —
opening bracket line, property groups in priority order (insertion order
within a group), closing bracket line. -/
def write_vcard (vc : VCard) : List Char :=
  "BEGIN:VCARD\n".toList ++
    ((_sorted_properties (vc.properties.map Prod.fst)).map (fun n =>
        (((assocLookup vc.properties n).getD []).map writePropertyLine).flatten)).flatten ++
    "END:VCARD\n".toList

deriving instance DecidableEq for Except

/-- The fresh reader over a list of physical lines. -/
def mkReader (lines : List (List Char)) : Reader := ⟨lines, 0⟩

/-! ### C9 — structured-value splitting -/

/-- Proof helper: the processing loop of `_split_structured_value`
without the (unreachable once `parts` is non-empty) break condition. -/
def splitSVNoBreak : List (Nat × List Char) → Bool → List (List Char)
  | [], _ => []
  | (_, g) :: ms, prev =>
    if g = [] then
      if prev then splitSVNoBreak ms false
      else [] :: splitSVNoBreak ms false
    else g :: splitSVNoBreak ms true

/-! ### C1 infrastructure: invariants of parsed properties and records -/

/-- Characters that may never occur in a parsed name / parameter. -/
def NoDelim (s : List Char) : Prop := ';' ∉ s ∧ ':' ∉ s ∧ '\n' ∉ s ∧ '\r' ∉ s

def GoodName (s : List Char) : Prop := pyLower s = s ∧ NoDelim s ∧ '.' ∉ s

def GoodKey (k : List Char) : Prop := pyLower k = k ∧ pyStrip k = k ∧ NoDelim k ∧ '=' ∉ k

def GoodVal (v : List Char) : Prop := pyLower v = v ∧ pyStrip v = v ∧ NoDelim v

def GoodParams (ps : List (List Char × List (List Char))) : Prop :=
  (ps.map Prod.fst).Nodup ∧
  ∀ e ∈ ps, GoodKey e.1 ∧ e.2 ≠ [] ∧ e.2.Nodup ∧ ∀ v ∈ e.2, GoodVal v

/-- Shape invariant of every property built by the tokenizer from a
CR/LF-free line (the assembled value may later append folded
continuations, which preserve CR/LF-freeness). -/
def GoodProp (p : VCardProperty) : Prop :=
  GoodName p.name ∧ GoodParams p.parameters ∧ '\n' ∉ p.value ∧ '\r' ∉ p.value

/-- Shape invariant of every record assembled by `read_vcard`. -/
def GoodVC (vc : VCard) : Prop :=
  (vc.properties.map Prod.fst).Nodup ∧
  ∀ e ∈ vc.properties, e.1 ≠ "end".toList ∧ e.1 ≠ "agent".toList ∧ e.2 ≠ [] ∧
    ∀ p ∈ e.2, p.name = e.1 ∧ p.value ≠ "vcard".toList ∧ GoodProp p

/-- A well-formed physical line: carriage-return free and terminated by
exactly one newline (text-mode reading of a newline-terminated file). -/
def WfLine (l : List Char) : Prop := '\r' ∉ l ∧ ∃ u, l = u ++ ['\n'] ∧ '\n' ∉ u

def WfLines (ls : List (List Char)) : Prop := ∀ l ∈ ls, WfLine l

/-! The canonical form a property assumes after one write/re-read cycle:
same name and value, parameter names sorted, each value list sorted. -/

def sortedParams (ps : List (List Char × List (List Char))) :
    List (List Char × List (List Char)) :=
  ((ps.map Prod.fst).insertionSort (fun a b => pyStrLe a b = true)).map
    (fun k => (k, ((assocLookup ps k).getD []).insertionSort (fun a b => pyStrLe a b = true)))

def roundProp (p : VCardProperty) : VCardProperty :=
  { name := p.name, parameters := sortedParams p.parameters, value := p.value }

/-- Conditions on one abstract property under which its serialized line
reads back as `roundProp` and is appended by the record-body loop. -/
def RoundtrippableProp (q : VCardProperty) : Prop :=
  GoodProp q ∧ q.name ≠ "end".toList ∧ q.name ≠ "agent".toList ∧
  q.value ≠ "vcard".toList ∧ ¬ startsWithContMark q.name ∧
  (q.name = "begin".toList ∨ q.name = "end".toList → pyLower q.value = q.value) ∧
  (∀ v ∈ (assocLookup q.parameters "encoding".toList).getD [],
    v ≠ "quoted-printable".toList ∧ v ≠ "base64".toList)

/-- The properties of a record in the order the writer serializes them:
priority-sorted name groups, insertion order within each group. -/
def writtenProps (vc : VCard) : List VCardProperty :=
  ((_sorted_properties (vc.properties.map Prod.fst)).map
    (fun nm => (assocLookup vc.properties nm).getD [])).flatten

/-- Content equality of two properties in the sense of the specification:
same name, same value, and the same parameter-name-to-value-set mapping
(value lists compared as multisets, ignoring order). -/
def propContentEq (a b : VCardProperty) : Prop :=
  a.name = b.name ∧ a.value = b.value ∧
  ∀ k, ((assocLookup a.parameters k).getD []).Perm ((assocLookup b.parameters k).getD [])

def c1WitnessNProp : VCardProperty :=
  { name := "n".toList,
    parameters := [("charset".toList, ["utf-8".toList])],
    value := "Smith;John".toList }

def c1WitnessVC : VCard :=
  { properties :=
      [("version".toList, [{ name := "version".toList, value := "2.1".toList }]),
       ("n".toList, [c1WitnessNProp])] }

-- sanity checks against the Python behaviour
example : split_structured_value [] ';' = [] := by decide
example : split_structured_value (";;".toList) ';' = [[], [], []] := by decide
example : split_structured_value ("a;;b".toList) ';' = ["a".toList, [], "b".toList] := by decide
example : split_structured_value ("a\\;b;c".toList) ';' = ["a\\;b".toList, "c".toList] := by decide
example : split_structured_value ("a;".toList) ';' = ["a".toList, []] := by decide
example : unescape (escape ("a,b;c\\d\ne".toList)) = "a,b;c\\d\ne".toList := by decide
example : unescape (escape ("a\r\nb\rc".toList)) = "a\nb\nc".toList := by decide

-- tokenizer sanity checks
example : parse_vcard_property "FOO bar".toList = none := by decide
example : (parse_vcard_property "item1.TEL;HOME;TYPE=Cell:+123".toList).map
    (fun p => (p.name, p.parameters, p.value)) =
    some ("tel".toList, [("type".toList, ["home".toList, "cell".toList])], "+123".toList) := by decide
example : (parse_vcard_property "BEGIN:VCARD".toList).map (fun p => (p.name, p.value)) =
    some ("begin".toList, "vcard".toList) := by decide

-- reading sanity checks
example :
    (read_vcard (mkReader ["BEGIN:VCARD\n".toList, "FN:John Smith\n".toList, "END:VCARD\n".toList])).map
      (fun vr => vr.1.map (fun vc => vc.properties.map (fun e => (e.1, e.2.map VCardProperty.value)))) =
    .ok (some [("fn".toList, ["John Smith".toList])]) := by decide

example :
    read_vcard (mkReader []) = .ok (none, mkReader []) := by decide

/-! ## Claim theorems -/

/-! ### C2 — end of stream inside an open record -/

/-- C2: the claim says `read_vcard` fails with the `IncompleteRecord`
error when the stream ends after a valid `begin` property, and that no
other kind of exception escapes.  The code instead evaluates
`prop.name` *before* the `if not prop` guard, so Python raises
`AttributeError` and the `raise ValueError('incomplete vcard')`
statement is unreachable: on the input `BEGIN:VCARD\n` followed by end
of stream the reader fails with the attribute error, which is not the
incomplete-record error. -/
theorem c2_eof_mid_record_raises_attribute_error :
    read_vcard (mkReader ["BEGIN:VCARD\n".toList]) = .error .attributeError ∧
    VErr.attributeError ≠ VErr.incompleteRecord := by
  constructor
  · decide
  · decide

/-! ### C3 — base64 continuation grammar -/

/-- C3: the base64 continuation loop of
`_read_vcard_v21_property_value_base64`: an empty fragment ends the
loop returning the concatenation assembled so far; a non-empty fragment
appends its trimmed form and reads the next physical line, failing with
`IncompleteProperty` when that line is absent, empty, or does not start
with a tab or space, and otherwise continuing with the line stripped of
its CR/LF. -/
theorem c3_base64_continuation_grammar (lines rest : List (List Char)) (n : Nat)
    (f l : List Char) :
    (b64Go lines n [] = .ok ([], lines, n)) ∧
    (f ≠ [] → b64Go [] n f = .error (.incompleteProperty n)) ∧
    (f ≠ [] → l = [] → b64Go (l :: rest) n f = .error (.incompleteProperty n)) ∧
    (f ≠ [] → l ≠ [] → ¬ startsWithContMark l →
      b64Go (l :: rest) n f = .error (.incompleteProperty (n + 1))) ∧
    (f ≠ [] → startsWithContMark l →
      b64Go (l :: rest) n f =
        (b64Go rest (n + 1) (rstripCRLF l)).map (fun vr => (pyStrip f ++ vr.1, vr.2))) := by
  refine ⟨?_, ?_, ?_, ?_, ?_⟩
  · rw [b64Go.eq_def]; simp
  · intro hf; rw [b64Go.eq_def]; simp [hf]
  · intro hf hl; subst hl; rw [b64Go.eq_def]; simp [hf]
  · intro hf hl hm; rw [b64Go.eq_def]; simp [hf, hl, hm]
  · intro hf hm
    have hl : l ≠ [] := by
      intro h; subst h; simp [startsWithContMark] at hm
    rw [b64Go.eq_def]; simp [hf, hl, hm]

/-- Witness for C3 at concrete inputs: the continuation equation and the
error case evaluated on an example stream. -/
theorem c3_base64_continuation_grammar_witness :
    b64Go [" QUJD\n".toList] 7 "Zm9v".toList =
      (b64Go [] 8 " QUJD".toList).map
        (fun vr => (pyStrip "Zm9v".toList ++ vr.1, vr.2)) ∧
    b64Go [] 8 " QUJD".toList = .error (.incompleteProperty 8) := by
  constructor
  · exact (c3_base64_continuation_grammar [" QUJD\n".toList] [] 7 "Zm9v".toList " QUJD\n".toList).2.2.2.2
      (by decide) (by decide)
  · exact (c3_base64_continuation_grammar [] [] 8 " QUJD".toList []).2.1 (by decide)

/-! ### C4 — the `agent` special case in the record body -/

/-- C4 counterexample: the claim says an `agent` property read under a
non-legacy revision is appended like any other property.  In the code
the `continue` statement sits outside the `if version == '2.1'` guard,
so an `agent` property is *never* appended: with `VERSION:3.0` declared,
the record produced for the input below has no `agent` key at all. -/
theorem c4_counterexample_agent_not_appended :
    (read_vcard (mkReader ["BEGIN:VCARD\n".toList, "VERSION:3.0\n".toList,
        "AGENT:smith\n".toList, "END:VCARD\n".toList])).map
      (fun vr => vr.1.map (fun vc => (vc.properties.map Prod.fst,
        assocLookup vc.properties "agent".toList))) =
    .ok (some (["version".toList], none)) := by
  decide

/-- C4 (amended): while reading a record body, every property that does
not close the record (name `end` or value `vcard`) is appended to the
record under its property name, except that an `agent` property is
*never* appended; when the version value compares equal to the legacy
revision `'2.1'` (which happens exactly when it is the fallback string,
no `version` property being present) exactly one nested record is
recursively read and discarded first, and under any other version value
nothing else is consumed — the `agent` property is discarded either
way. -/
theorem c4_amended_record_body_step (fuel : Nat) (r r1 : Reader) (vc : VCard)
    (version : PyVal) (p : VCardProperty)
    (hv : vcGetVersion vc = some version)
    (hp : read_vcard_property r version = .ok (some p, r1))
    (hne : p.name ≠ "end".toList) (hnv : p.value ≠ "vcard".toList) :
    (p.name ≠ "agent".toList →
      readBodyF (fuel + 1) r vc = readBodyF fuel r1 (vc.add_property p)) ∧
    (p.name = "agent".toList → pyValEqStr version "2.1".toList = false →
      readBodyF (fuel + 1) r vc = readBodyF fuel r1 vc) ∧
    (p.name = "agent".toList → pyValEqStr version "2.1".toList = true →
      readBodyF (fuel + 1) r vc =
        match readVCardF fuel r1 with
        | .error e => .error e
        | .ok (_, r2) => readBodyF fuel r2 vc) := by
  have hclose : ¬ (p.name = "end".toList ∨ p.value = "vcard".toList) :=
    not_or.mpr ⟨hne, hnv⟩
  refine ⟨?_, ?_, ?_⟩
  · intro hna
    rw [readBodyF.eq_def]
    simp only [hv, hp]
    rw [if_neg hclose, if_neg hna]
  · intro ha hleg
    rw [readBodyF.eq_def]
    simp only [hv, hp]
    rw [if_neg hclose, if_pos ha, if_neg (by simp only [Bool.not_eq_true]; exact hleg)]
  · intro ha hleg
    rw [readBodyF.eq_def]
    simp only [hv, hp]
    rw [if_neg hclose, if_pos ha, if_pos hleg]

/-- Witness for C4's amended theorem: one non-legacy `agent` step and
one ordinary step, evaluated concretely. -/
theorem c4_amended_record_body_step_witness :
    readBodyF 3 (mkReader ["AGENT:smith\n".toList, "END:VCARD\n".toList])
        (VCard.add_property {} { name := "version".toList, value := "3.0".toList }) =
      readBodyF 2 ⟨["END:VCARD\n".toList], 1⟩
        (VCard.add_property {} { name := "version".toList, value := "3.0".toList }) ∧
    readBodyF 3 (mkReader ["TEL:5\n".toList, "END:VCARD\n".toList]) {} =
      readBodyF 2 ⟨["END:VCARD\n".toList], 1⟩
        (VCard.add_property {} { name := "tel".toList, value := "5".toList }) := by
  constructor
  · exact (c4_amended_record_body_step 2 (mkReader ["AGENT:smith\n".toList, "END:VCARD\n".toList])
      ⟨["END:VCARD\n".toList], 1⟩
      (VCard.add_property {} { name := "version".toList, value := "3.0".toList })
      (.obj { name := "version".toList, value := "3.0".toList })
      { name := "agent".toList, value := "smith".toList }
      (by decide) (by decide) (by decide) (by decide)).2.1 (by decide) (by decide)
  · exact (c4_amended_record_body_step 2 (mkReader ["TEL:5\n".toList, "END:VCARD\n".toList])
      ⟨["END:VCARD\n".toList], 1⟩ {}
      (.str "2.1".toList)
      { name := "tel".toList, value := "5".toList }
      (by decide) (by decide) (by decide) (by decide)).1 (by decide)

/-! ### C5 — plain folded continuation grammar -/

/-- C5 counterexample: the claim's concrete scenario expects the value
`long line continued text`.  Under the legacy revision the continuation
marker and *all* further leading whitespace of ` continued text` are
trimmed away before the fragment is appended, and no separator is
inserted, so the assembled value is `long linecontinued text`. -/
theorem c5_counterexample_folded_scenario :
    (read_vcard_property (mkReader ["NOTE:long line\n".toList, " continued text\n".toList])
        (.str "2.1".toList)).map
      (fun pr => pr.1.map (fun p => (p.name, p.value))) =
    .ok (some ("note".toList, "long linecontinued text".toList)) ∧
    "long linecontinued text".toList ≠ "long line continued text".toList := by
  constructor
  · decide
  · decide

/-- C5 (amended): for the plain folded grammar, when the peeked next
physical line starts with tab or space it is consumed, its trailing
CR/LF stripped, and its continuation marker removed before being
appended: under the legacy revision (`version == '2.1'`) all leading
whitespace is trimmed away entirely, under any other version value
exactly one leading character is removed.  In particular the input
`NOTE:long line` followed by ` continued text` under the legacy
revision yields the property `note` with value
`long linecontinued text`. -/
theorem c5_amended_folded_continuation (rest : List (List Char)) (n : Nat)
    (f l : List Char) (v : PyVal) (hc : startsWithContMark l) :
    (foldedGo (l :: rest) n f v =
      (f ++ (foldedGo rest (n + 1)
          (if pyValEqStr v "2.1".toList then pyLstrip (rstripCRLF l)
           else (rstripCRLF l).drop 1) v).1,
       (foldedGo rest (n + 1)
          (if pyValEqStr v "2.1".toList then pyLstrip (rstripCRLF l)
           else (rstripCRLF l).drop 1) v).2)) ∧
    (read_vcard_property (mkReader ["NOTE:long line\n".toList, " continued text\n".toList])
        (.str "2.1".toList)).map
      (fun pr => pr.1.map (fun p => (p.name, p.value))) =
    .ok (some ("note".toList, "long linecontinued text".toList)) := by
  constructor
  · have hl : l ≠ [] := by
      intro h; subst h; simp [startsWithContMark] at hc
    rw [foldedGo.eq_def]
    simp only []
    rw [if_neg (by rw [not_or]; exact ⟨hl, not_not_intro hc⟩)]
  · decide

/-- Witness for C5's amended theorem: the continuation equation at a
concrete legacy-revision input. -/
theorem c5_amended_folded_continuation_witness :
    foldedGo [" continued text\n".toList] 1 "long line".toList (.str "2.1".toList) =
      ("long line".toList ++
        (foldedGo [] 2 "continued text".toList (.str "2.1".toList)).1,
       (foldedGo [] 2 "continued text".toList (.str "2.1".toList)).2) := by
  have h := (c5_amended_folded_continuation [] 1 "long line".toList
    " continued text\n".toList (.str "2.1".toList) (by decide)).1
  simpa using h

/-! ### C10 — removing absent parameters and properties -/

/-- C10: `VCardProperty.remove_parameter` with an absent parameter name
and `VCard.remove_property` with an absent property name never raise
(`dict.pop(name, None)`) and leave the property, respectively the
record, entirely unchanged — every entry, its value list and the
ordering included. -/
theorem c10_remove_absent_is_noop (p : VCardProperty) (vc : VCard) (k n : List Char)
    (hk : k ∉ p.parameters.map Prod.fst) (hn : n ∉ vc.properties.map Prod.fst) :
    p.remove_parameter k = p ∧ vc.remove_property n = vc := by
  constructor
  · have : p.parameters.eraseP (fun kv => kv.1 == k) = p.parameters := by
      apply List.eraseP_of_forall_not
      intro a ha
      simp only [beq_iff_eq]
      intro h
      exact hk (h ▸ List.mem_map_of_mem Prod.fst ha)
    calc p.remove_parameter k
        = { p with parameters := p.parameters.eraseP (fun kv => kv.1 == k) } := rfl
      _ = p := by rw [this]
  · have : vc.properties.eraseP (fun kv => kv.1 == n) = vc.properties := by
      apply List.eraseP_of_forall_not
      intro a ha
      simp only [beq_iff_eq]
      intro h
      exact hn (h ▸ List.mem_map_of_mem Prod.fst ha)
    calc vc.remove_property n
        = { properties := vc.properties.eraseP (fun kv => kv.1 == n) } := rfl
      _ = vc := by rw [this]

/-- Witness for C10 at a concrete property and record. -/
theorem c10_remove_absent_is_noop_witness :
    VCardProperty.remove_parameter
        { name := "tel".toList,
          parameters := [("type".toList, ["home".toList])] }
        "charset".toList =
      { name := "tel".toList,
        parameters := [("type".toList, ["home".toList])] } ∧
    VCard.remove_property
        (VCard.add_property {} { name := "tel".toList, value := "5".toList })
        "note".toList =
      VCard.add_property {} { name := "tel".toList, value := "5".toList } := by
  have h := c10_remove_absent_is_noop
    { name := "tel".toList, parameters := [("type".toList, ["home".toList])] }
    (VCard.add_property {} { name := "tel".toList, value := "5".toList })
    "charset".toList "note".toList (by decide) (by decide)
  exact h

/-! ### C7 — serialization priority order -/

theorem assocLookup_eq_none {β : Type} (l : List (List Char × β)) (k : List Char)
    (h : k ∉ l.map Prod.fst) : assocLookup l k = none := by
  induction l with
  | nil => rfl
  | cons e rest ih =>
    rw [List.map_cons, List.mem_cons, not_or] at h
    obtain ⟨h1, h2⟩ := h
    simp only [assocLookup]
    rw [if_neg (fun he => h1 he.symm)]
    exact ih h2

theorem assocLookup_mem {β : Type} (l : List (List Char × β)) (k : List Char) (v : β)
    (h : assocLookup l k = some v) : (k, v) ∈ l := by
  induction l with
  | nil => exact absurd h (by simp [assocLookup])
  | cons e rest ih =>
    by_cases he : e.1 = k
    · simp only [assocLookup, if_pos he] at h
      obtain rfl := Option.some.inj h
      have hpair : (k, e.2) = e := by rw [← he]
      rw [hpair]
      exact List.mem_cons_self _ _
    · simp only [assocLookup, if_neg he] at h
      exact List.mem_cons_of_mem _ (ih h)

/-- C7: `write_vcard` emits property-name groups in the order produced
by `_sorted_properties`, which sorts by the fixed priority table
`_property_order`: the emitted group names are sorted by
`_property_sort_key`; `version` has the unique rank 0, so it sorts
first; a name absent from the table receives the default rank 90, which
is strictly greater than every well-known rank (all at most 24) and
strictly less than the reserved trailing ranks of `prodid` (98) and
`rev` (99), which therefore always sort last in that relative order. -/
theorem c7_write_priority_order (vc : VCard) (n : List Char)
    (habs : n ∉ _property_order.map Prod.fst) :
    (write_vcard vc = "BEGIN:VCARD\n".toList ++
      ((_sorted_properties (vc.properties.map Prod.fst)).map (fun g =>
          (((assocLookup vc.properties g).getD []).map writePropertyLine).flatten)).flatten ++
      "END:VCARD\n".toList) ∧
    List.Sorted (fun a b => _property_sort_key a ≤ _property_sort_key b)
      (_sorted_properties (vc.properties.map Prod.fst)) ∧
    _property_sort_key "version".toList = 0 ∧
    (∀ m, m ≠ "version".toList → 0 < _property_sort_key m) ∧
    _property_sort_key n = 90 ∧
    (∀ e ∈ _property_order, e.1 ≠ "prodid".toList → e.1 ≠ "rev".toList → e.2 < 90) ∧
    _property_sort_key "prodid".toList = 98 ∧
    _property_sort_key "rev".toList = 99 ∧
    (90 : Nat) < 98 ∧ (98 : Nat) < 99 := by
  have hdefault : _property_sort_key n = 90 := by
    unfold _property_sort_key
    rw [assocLookup_eq_none _ _ habs]
    rfl
  have hpos : ∀ m, m ≠ "version".toList → 0 < _property_sort_key m := by
    intro m hm
    unfold _property_sort_key
    cases hl : assocLookup _property_order m with
    | none => decide
    | some v =>
      have hmem := assocLookup_mem _ _ _ hl
      simp only [Option.getD_some]
      fin_cases hmem <;> first | decide | exact absurd rfl hm
  refine ⟨rfl, ?_, by decide, hpos, hdefault, by decide, by decide,
    by decide, by decide, by decide⟩
  unfold _sorted_properties
  haveI : IsTotal (List Char) (fun a b => _property_sort_key a ≤ _property_sort_key b) :=
    ⟨fun a b => Nat.le_total _ _⟩
  haveI : IsTrans (List Char) (fun a b => _property_sort_key a ≤ _property_sort_key b) :=
    ⟨fun a b c hab hbc => Nat.le_trans hab hbc⟩
  exact List.sorted_insertionSort _ _

/-- Witness for C7 at a concrete record and a concrete unlisted name. -/
theorem c7_write_priority_order_witness :
    List.Sorted (fun a b => _property_sort_key a ≤ _property_sort_key b)
      (_sorted_properties ((VCard.add_property {}
        { name := "x-custom".toList, value := "1".toList }).properties.map Prod.fst)) ∧
    _property_sort_key "x-custom".toList = 90 := by
  have h := c7_write_priority_order
    (VCard.add_property {} { name := "x-custom".toList, value := "1".toList })
    "x-custom".toList (by decide)
  exact ⟨h.2.1, h.2.2.2.2.1⟩

/-! ### C8 — escaping round trip -/

theorem unescape_escapeChars : ∀ s : List Char, unescape (escapeChars s) = s
  | [] => rfl
  | c :: cs => by
    have ih := unescape_escapeChars cs
    by_cases h1 : c = '\n'
    · subst h1
      simp [escapeChars, escapeChar, unescape, ih]
    · by_cases h2 : c = '\\'
      · subst h2
        simp [escapeChars, escapeChar, unescape, ih]
      · by_cases h3 : c = ','
        · subst h3
          simp [escapeChars, escapeChar, unescape, ih]
        · by_cases h4 : c = ';'
          · subst h4
            simp [escapeChars, escapeChar, unescape, ih]
          · rw [show escapeChars (c :: cs) = escapeChar c ++ escapeChars cs from rfl]
            rw [show escapeChar c = [c] by simp [escapeChar, h1, h2, h3, h4]]
            rw [List.singleton_append, unescape.eq_def]
            simp [h2, ih]

theorem normalizeCR_of_no_cr : ∀ s : List Char, '\r' ∉ s → normalizeCR s = s
  | [], _ => rfl
  | [c], h => by
    have hc : c ≠ '\r' := fun hc => h (by simp [hc])
    simp [normalizeCR, hc]
  | c :: d :: rest, h => by
    have hc : c ≠ '\r' := fun hc => h (by simp [hc])
    have hd : '\r' ∉ d :: rest := fun hm => h (List.mem_cons_of_mem _ hm)
    simp [normalizeCR, hc, normalizeCR_of_no_cr (d :: rest) hd]

/-- C8: for every string `x`, `unescape (escape x)` equals `x` after
normalization of CR and CRLF to LF; in particular, for every `x`
containing no carriage-return character, `unescape (escape x) = x`. -/
theorem c8_escape_unescape_roundtrip (s : List Char) :
    unescape (escape s) = normalizeCR s ∧ ('\r' ∉ s → unescape (escape s) = s) := by
  have h : unescape (escape s) = normalizeCR s := unescape_escapeChars (normalizeCR s)
  refine ⟨h, fun hcr => ?_⟩
  rw [h, normalizeCR_of_no_cr s hcr]

/-- Witness for C8 at a concrete CR-free string. -/
theorem c8_escape_unescape_roundtrip_witness :
    unescape (escape "a,b;c\\d\ne".toList) = "a,b;c\\d\ne".toList :=
  (c8_escape_unescape_roundtrip "a,b;c\\d\ne".toList).2 (by decide)

/-! ### C6 — malformed property lines -/

theorem indexAnyAux_eq_none (cs : List Char) :
    ∀ s : List Char, (∀ c ∈ s, c ∉ cs) → indexAnyAux cs s = none
  | [], _ => rfl
  | c :: rest, h => by
    have hc : c ∉ cs := h c (List.mem_cons_self _ _)
    have hrest := indexAnyAux_eq_none cs rest (fun d hd => h d (List.mem_cons_of_mem _ hd))
    simp [indexAnyAux, hc, hrest]

theorem indexAnyAux_isSome (cs : List Char) :
    ∀ (s : List Char) (c : Char), c ∈ s → c ∈ cs → (indexAnyAux cs s).isSome
  | [], c, hc, _ => absurd hc (List.not_mem_nil c)
  | a :: rest, c, hc, hcs => by
    by_cases ha : a ∈ cs
    · simp [indexAnyAux, ha]
    · have hc2 : c ∈ rest := by
        rcases List.mem_cons.mp hc with rfl | h
        · exact absurd hcs ha
        · exact h
      have hs := indexAnyAux_isSome cs rest c hc2 hcs
      obtain ⟨i, hi⟩ := Option.isSome_iff_exists.mp hs
      simp [indexAnyAux, ha, hi]

theorem indexAnyAux_some_spec (cs : List Char) :
    ∀ (s : List Char) (i : Nat), indexAnyAux cs s = some i →
      i < s.length ∧ s.getD i ' ' ∈ cs ∧ ∀ j, j < i → s.getD j ' ' ∉ cs
  | [], i, h => by simp [indexAnyAux] at h
  | a :: rest, i, h => by
    by_cases ha : a ∈ cs
    · simp only [indexAnyAux, if_pos ha] at h
      obtain rfl := Option.some.inj h
      exact ⟨Nat.succ_pos _, ha, fun j hj => absurd hj (Nat.not_lt_zero j)⟩
    · simp only [indexAnyAux, if_neg ha, Option.map_eq_some'] at h
      obtain ⟨i0, hi0, rfl⟩ := h
      obtain ⟨hlen, hmem, hmin⟩ := indexAnyAux_some_spec cs rest i0 hi0
      refine ⟨Nat.succ_lt_succ hlen, hmem, ?_⟩
      intro j hj
      cases j with
      | zero => simpa using ha
      | succ j0 => simpa using hmin j0 (Nat.lt_of_succ_lt_succ hj)

theorem mem_drop_of_getElem :
    ∀ (l : List Char) (i j : Nat) (hj : j < l.length), i ≤ j → l[j] ∈ l.drop i
  | l, 0, j, hj, _ => by simp only [List.drop_zero]; exact List.getElem_mem hj
  | [], _ + 1, j, hj, _ => by simp at hj
  | c :: rest, i + 1, j, hj, hij => by
    obtain ⟨j0, rfl⟩ : ∃ j0, j = j0 + 1 := ⟨j - 1, by omega⟩
    simp only [List.drop_succ_cons]
    have hm := mem_drop_of_getElem rest i j0 (by simp at hj; omega) (by omega)
    simpa using hm

theorem parse_vcard_property_eq_none (l : List Char) (h : ':' ∉ l) :
    parse_vcard_property l = none := by
  cases hidx : indexAnyAux [';', ':'] l with
  | none =>
    have h0 : _index_any l [';', ':'] 0 = none := by
      simp [_index_any, hidx]
    unfold parse_vcard_property
    rw [h0]
  | some di =>
    have h0 : _index_any l [';', ':'] 0 = some di := by
      simp [_index_any, hidx]
    obtain ⟨hlen, hmem, _⟩ := indexAnyAux_some_spec _ _ _ hidx
    have hsemi : l.getD di ' ' = ';' := by
      rcases List.mem_pair.mp hmem with h1 | h1
      · exact h1
      · rw [List.getD_eq_getElem l ' ' hlen] at h1
        exact absurd (h1 ▸ List.getElem_mem hlen) h
    have h2 : _index_any l [':'] (di + 1) = none := by
      have hdrop : indexAnyAux [':'] (l.drop (di + 1)) = none := by
        apply indexAnyAux_eq_none
        intro c hc hcs
        rw [show c = ':' from by simpa using hcs] at hc
        exact h (List.mem_of_mem_drop hc)
      simp [_index_any, hdrop]
    unfold parse_vcard_property
    rw [h0]
    simp only []
    rw [if_pos hsemi, h2]

theorem parse_vcard_property_isSome (l : List Char) (h : ':' ∈ l) :
    (parse_vcard_property l).isSome := by
  have hsome := indexAnyAux_isSome [';', ':'] l ':' h (by decide)
  obtain ⟨di, hdi⟩ := Option.isSome_iff_exists.mp hsome
  have h0 : _index_any l [';', ':'] 0 = some di := by
    simp [_index_any, hdi]
  obtain ⟨hlen, hmem, hmin⟩ := indexAnyAux_some_spec _ _ _ hdi
  by_cases hsemi : l.getD di ' ' = ';'
  · -- the first delimiter is a semicolon; the colon occurs strictly later
    obtain ⟨j, hjlen, hj⟩ := List.mem_iff_getElem.mp h
    have hjgt : di < j := by
      rcases Nat.lt_trichotomy j di with hlt | heq | hgt
      · exact absurd (by rw [List.getD_eq_getElem l ' ' hjlen, hj]; decide) (hmin j hlt)
      · subst heq
        rw [List.getD_eq_getElem l ' ' hjlen, hj] at hsemi
        exact absurd hsemi (by decide)
      · exact hgt
    have hdropmem : ':' ∈ l.drop (di + 1) := by
      rw [← hj]
      exact mem_drop_of_getElem l (di + 1) j hjlen (by omega)
    have hsome2 := indexAnyAux_isSome [':'] (l.drop (di + 1)) ':' hdropmem (by decide)
    obtain ⟨di2, hdi2⟩ := Option.isSome_iff_exists.mp hsome2
    have h3 : _index_any l [':'] (di + 1) = some (di2 + (di + 1)) := by
      simp [_index_any, hdi2]
    unfold parse_vcard_property
    rw [h0]
    simp only []
    rw [if_pos hsemi, h3]
    rfl
  · unfold parse_vcard_property
    rw [h0]
    simp only []
    rw [if_neg hsemi]
    rfl

/-- C6: tokenizing a physical line with no `;` and no `:`, or whose
first delimiter is `;` with no `:` anywhere after it, fails with the
`MalformedProperty` error carrying the 1-based number of the offending
line (the reader's consumed-line count after reading it); a line
containing a required delimiter at every scan does not fail
tokenization. -/
theorem c6_malformed_property (r : Reader) (l : List Char) (rest : List (List Char))
    (v : PyVal) (hl : r.lines = l :: rest) (hnb : rstripCRLF l ≠ []) :
    ((';' ∉ rstripCRLF l ∧ ':' ∉ rstripCRLF l) →
      read_vcard_property r v = .error (.malformedProperty (r.line_number + 1))) ∧
    ((∃ di, _index_any (rstripCRLF l) [';', ':'] 0 = some di ∧
        (rstripCRLF l).getD di ' ' = ';' ∧ ':' ∉ (rstripCRLF l).drop (di + 1)) →
      read_vcard_property r v = .error (.malformedProperty (r.line_number + 1))) ∧
    (':' ∈ rstripCRLF l → ∃ p, parse_vcard_property (rstripCRLF l) = some p) := by
  have hlne : l ≠ [] := by
    intro he
    exact hnb (by rw [he]; rfl)
  have hread : readNonblankLine r.lines r.line_number =
      (some (rstripCRLF l), rest, r.line_number + 1) := by
    rw [hl]
    rw [readNonblankLine.eq_def]
    simp [hlne, hnb]
  refine ⟨?_, ?_, fun hc => Option.isSome_iff_exists.mp (parse_vcard_property_isSome _ hc)⟩
  · intro hno
    have hparse := parse_vcard_property_eq_none (rstripCRLF l) hno.2
    unfold read_vcard_property
    rw [hread]
    simp only []
    rw [hparse]
  · intro hcase
    obtain ⟨di, hdi, hsemi, hcol⟩ := hcase
    have hparse : parse_vcard_property (rstripCRLF l) = none := by
      have hdrop : _index_any (rstripCRLF l) [':'] (di + 1) = none := by
        have hnone : indexAnyAux [':'] ((rstripCRLF l).drop (di + 1)) = none := by
          apply indexAnyAux_eq_none
          intro c hc hcs
          rw [show c = ':' from by simpa using hcs] at hc
          exact hcol hc
        simp [_index_any, hnone]
      unfold parse_vcard_property
      rw [hdi]
      simp only []
      rw [if_pos hsemi, hdrop]
    unfold read_vcard_property
    rw [hread]
    simp only []
    rw [hparse]

/-- Witness for C6 at the spec's own scenario `FOO bar` (and the
well-formed line `FN:X`). -/
theorem c6_malformed_property_witness :
    read_vcard_property (mkReader ["FOO bar\n".toList]) (.str "2.1".toList) =
      .error (.malformedProperty 1) ∧
    ∃ p, parse_vcard_property (rstripCRLF "FN:X\n".toList) = some p := by
  constructor
  · exact (c6_malformed_property (mkReader ["FOO bar\n".toList]) "FOO bar\n".toList []
      (.str "2.1".toList) rfl (by decide)).1 (by decide)
  · exact (c6_malformed_property (mkReader ["FN:X\n".toList]) "FN:X\n".toList []
      (.str "2.1".toList) rfl (by decide)).2.2 (by decide)

theorem splitSVLoop_append (slen : Nat) :
    ∀ (ms : List (Nat × List Char)) (parts : List (List Char)) (prev : Bool),
      parts ≠ [] → splitSVLoop slen ms parts prev = parts ++ splitSVNoBreak ms prev
  | [], parts, prev, _ => by simp [splitSVLoop, splitSVNoBreak]
  | (st, g) :: ms, parts, prev, hne => by
    have hcond : ¬ (st = slen ∧ parts = []) := fun hand => hne hand.2
    rw [splitSVLoop.eq_def, splitSVNoBreak.eq_def]
    simp only [if_neg hcond]
    by_cases hg : g = []
    · rw [if_pos hg, if_pos hg]
      by_cases hprev : prev
      · rw [if_pos hprev, if_pos hprev]
        exact splitSVLoop_append slen ms parts false hne
      · rw [if_neg hprev, if_neg hprev]
        rw [splitSVLoop_append slen ms (parts ++ [[]]) false (by simp)]
        simp
    · rw [if_neg hg, if_neg hg]
      rw [splitSVLoop_append slen ms (parts ++ [g]) true (by simp)]
      simp

theorem splitSVLoop_of_first (slen start : Nat) (g : List Char)
    (ms : List (Nat × List Char)) (h : start ≠ slen) :
    splitSVLoop slen ((start, g) :: ms) [] false =
      splitSVNoBreak ((start, g) :: ms) false := by
  by_cases hg : g = []
  · simp [splitSVLoop, splitSVNoBreak, hg, h,
      splitSVLoop_append slen ms [[]] false (by simp)]
  · simp [splitSVLoop, splitSVNoBreak, hg, h,
      splitSVLoop_append slen ms [g] true (by simp)]

theorem finditerAux_head_start (sep : Char) :
    ∀ (s : List Char) (start pos : Nat) (acc : List Char), acc ≠ [] →
      ∃ ms2 g, finditerAux sep s start pos acc = (start, g) :: ms2
  | [], start, pos, acc, hne => by
    simp only [finditerAux, if_neg hne]
    exact ⟨_, _, rfl⟩
  | [c], start, pos, acc, hne => by
    simp only [finditerAux]
    by_cases hb : c = '\\'
    · simp only [if_pos hb]
      exact ⟨_, _, rfl⟩
    · simp only [if_neg hb]
      by_cases hsep2 : c = sep
      · simp only [if_pos hsep2, if_neg hne]
        exact ⟨_, _, rfl⟩
      · simp only [if_neg hsep2]
        exact ⟨_, _, rfl⟩
  | c :: d :: rest2, start, pos, acc, hne => by
    simp only [finditerAux]
    by_cases hb : c = '\\'
    · simp only [if_pos hb]
      by_cases hd : d = '\\' ∨ d = sep
      · simp only [if_pos hd]
        exact finditerAux_head_start sep rest2 start (pos + 2) _ (by simp)
      · simp only [if_neg hd]
        exact finditerAux_head_start sep (d :: rest2) start (pos + 1) _ (by simp)
    · simp only [if_neg hb]
      by_cases hsep2 : c = sep
      · simp only [if_pos hsep2, if_neg hne]
        exact ⟨_, _, rfl⟩
      · simp only [if_neg hsep2]
        exact finditerAux_head_start sep (d :: rest2) start (pos + 1) _ (by simp)

theorem pyFinditer_head_zero (sep : Char) :
    ∀ s : List Char, ∃ ms2 g, pyFinditer sep s = (0, g) :: ms2
  | [] => ⟨_, _, rfl⟩
  | [c] => by
    unfold pyFinditer
    simp only [finditerAux]
    by_cases hb : c = '\\'
    · simp only [if_pos hb]
      exact ⟨_, _, rfl⟩
    · simp only [if_neg hb]
      by_cases hsep2 : c = sep
      · simp only [if_pos hsep2, if_pos rfl]
        exact ⟨_, _, rfl⟩
      · simp only [if_neg hsep2]
        exact ⟨_, _, rfl⟩
  | c :: d :: rest2 => by
    unfold pyFinditer
    simp only [finditerAux]
    by_cases hb : c = '\\'
    · simp only [if_pos hb]
      by_cases hd : d = '\\' ∨ d = sep
      · simp only [if_pos hd]
        exact finditerAux_head_start sep rest2 0 2 _ (by simp)
      · simp only [if_neg hd]
        exact finditerAux_head_start sep (d :: rest2) 0 1 _ (by simp)
    · simp only [if_neg hb]
      by_cases hsep2 : c = sep
      · simp only [if_pos hsep2, if_pos rfl]
        exact ⟨_, _, rfl⟩
      · simp only [if_neg hsep2]
        exact finditerAux_head_start sep (d :: rest2) 0 1 _ (by simp)

theorem finditerAux_clean_front (sep : Char) :
    ∀ (comp : List Char), (∀ c ∈ comp, c ≠ '\\' ∧ c ≠ sep) →
      ∀ (s2 : List Char) (start pos : Nat) (acc : List Char),
      finditerAux sep (comp ++ s2) start pos acc =
        finditerAux sep s2 start (pos + comp.length) (comp.reverse ++ acc)
  | [], _, s2, start, pos, acc => by simp
  | c :: comp2, h, s2, start, pos, acc => by
    have hc := h c (List.mem_cons_self _ _)
    have hrest : ∀ x ∈ comp2, x ≠ '\\' ∧ x ≠ sep := fun x hx => h x (List.mem_cons_of_mem _ hx)
    have ih := finditerAux_clean_front sep comp2 hrest s2 start (pos + 1) (c :: acc)
    cases htail : comp2 ++ s2 with
    | nil =>
      obtain ⟨hc2, hs2⟩ := List.append_eq_nil.mp htail
      subst hc2
      subst hs2
      simp only [List.append_nil, List.nil_append]
      simp only [finditerAux, if_neg hc.1, if_neg hc.2]
      simp [List.reverse_cons]
    | cons d rest =>
      have hshape : (c :: comp2) ++ s2 = c :: d :: rest := by
        rw [List.cons_append, htail]
      rw [hshape]
      simp only [finditerAux, if_neg hc.1, if_neg hc.2]
      rw [← htail, ih]
      have harith : pos + 1 + comp2.length = pos + (comp2.length + 1) := by omega
      rw [harith]
      simp [List.reverse_cons]

theorem finditerAux_sep_head (sep : Char) (hsep : sep ≠ '\\') :
    ∀ (s2 : List Char) (start pos : Nat) (acc : List Char),
      finditerAux sep (sep :: s2) start pos acc =
        (if acc = [] then [] else [(start, acc.reverse)]) ++
          (pos, []) :: finditerAux sep s2 (pos + 1) (pos + 1) []
  | [], start, pos, acc => by
    simp only [finditerAux, if_neg hsep]
    simp [finditerAux]
  | d :: rest, start, pos, acc => by
    simp only [finditerAux, if_neg hsep]
    simp

theorem intercalate_sep_cons_cons (sep : Char) (a b : List Char) (l : List (List Char)) :
    List.intercalate [sep] (a :: b :: l) = a ++ sep :: List.intercalate [sep] (b :: l) := by
  simp [List.intercalate, List.intersperse]

theorem intercalate_sep_singleton (sep : Char) (a : List Char) :
    List.intercalate [sep] [a] = a := by
  simp [List.intercalate, List.intersperse]

theorem splitSVNoBreak_blocks (sep : Char) (hsep : sep ≠ '\\') :
    ∀ (cs : List (List Char)), cs ≠ [] →
      (∀ comp ∈ cs, ∀ c ∈ comp, c ≠ '\\' ∧ c ≠ sep) →
      ∀ (start pos : Nat),
        splitSVNoBreak (finditerAux sep (List.intercalate [sep] cs) start pos []) false = cs
  | [], hne, _, _, _ => absurd rfl hne
  | [c1], _, hclean, start, pos => by
    have hc1 : ∀ c ∈ c1, c ≠ '\\' ∧ c ≠ sep := hclean c1 (List.mem_cons_self _ _)
    rw [intercalate_sep_singleton]
    rw [show c1 = c1 ++ [] from (List.append_nil c1).symm]
    rw [finditerAux_clean_front sep c1 hc1 [] start pos []]
    by_cases hc1e : c1 = []
    · subst hc1e
      simp [finditerAux, splitSVNoBreak]
    · have hrev : c1.reverse ++ [] ≠ [] := by simp [hc1e]
      simp only [finditerAux, if_neg hrev]
      simp [splitSVNoBreak, hc1e]
  | c1 :: c2 :: rest, _, hclean, start, pos => by
    have hc1 : ∀ c ∈ c1, c ≠ '\\' ∧ c ≠ sep := hclean c1 (List.mem_cons_self _ _)
    have hrest : ∀ comp ∈ c2 :: rest, ∀ c ∈ comp, c ≠ '\\' ∧ c ≠ sep :=
      fun comp hcomp => hclean comp (List.mem_cons_of_mem _ hcomp)
    have ih := splitSVNoBreak_blocks sep hsep (c2 :: rest) (by simp) hrest
      (pos + c1.length + 1) (pos + c1.length + 1)
    rw [intercalate_sep_cons_cons]
    rw [finditerAux_clean_front sep c1 hc1 (sep :: List.intercalate [sep] (c2 :: rest)) start pos []]
    rw [finditerAux_sep_head sep hsep]
    by_cases hc1e : c1 = []
    · subst hc1e
      simp only [List.reverse_nil, List.nil_append, if_pos rfl, List.length_nil, Nat.add_zero]
      simp only [List.length_nil, Nat.add_zero] at ih
      simp [splitSVNoBreak, ih]
    · have hrev : c1.reverse ++ [] ≠ [] := by simp [hc1e]
      rw [if_neg hrev]
      simp only [List.append_nil, List.reverse_reverse, List.singleton_append]
      simp [splitSVNoBreak, hc1e, ih]

/-- C9: `split_structured_value("", ";")` is the empty sequence and
`split_structured_value(";;", ";")` is three empty components; more
generally, splitting the `sep`-join of any component sequence (each
component free of the separator and of backslashes) returns exactly
those components — zero-length fields between split points and at
either end included — with the sole exception of the wholly empty
input (the join of `[[]]`), which yields the empty sequence. -/
theorem c9_split_structured_value (cs : List (List Char)) (sep : Char)
    (hsep : sep ≠ '\\')
    (hclean : ∀ comp ∈ cs, ∀ c ∈ comp, c ≠ '\\' ∧ c ≠ sep)
    (hne : cs ≠ [[]]) :
    split_structured_value [] ';' = [] ∧
    split_structured_value ";;".toList ';' = [[], [], []] ∧
    split_structured_value (List.intercalate [sep] cs) sep = cs := by
  refine ⟨by decide, by decide, ?_⟩
  cases cs with
  | nil =>
    show split_structured_value (List.intercalate [sep] []) sep = []
    simp [List.intercalate, split_structured_value, pyFinditer, finditerAux, splitSVLoop]
  | cons c1 rest =>
    have hs : List.intercalate [sep] (c1 :: rest) ≠ [] := by
      cases rest with
      | nil =>
        rw [intercalate_sep_singleton]
        intro h0
        exact hne (by rw [h0])
      | cons c2 r2 =>
        rw [intercalate_sep_cons_cons]
        intro h0
        exact absurd (List.append_eq_nil.mp h0).2 (by simp)
    obtain ⟨ms2, g, hm⟩ := pyFinditer_head_zero sep (List.intercalate [sep] (c1 :: rest))
    unfold split_structured_value
    rw [hm]
    rw [splitSVLoop_of_first _ _ _ _ (by
      intro h0
      exact hs (List.length_eq_zero.mp h0.symm))]
    rw [← hm]
    exact splitSVNoBreak_blocks sep hsep (c1 :: rest) (by simp) hclean 0 0

/-- Witness for C9: re-splitting the join `a;;b` recovers the three
components, the middle one empty. -/
theorem c9_split_structured_value_witness :
    split_structured_value "a;;b".toList ';' = ["a".toList, [], "b".toList] := by
  have h := (c9_split_structured_value ["a".toList, [], "b".toList] ';'
    (by decide) (by decide) (by decide)).2.2
  rw [show List.intercalate [';'] ["a".toList, [], "b".toList] = "a;;b".toList from by decide] at h
  exact h

/-! ### C1 — write/read round trip -/

/-- C1 counterexample: the claim quantifies over every Record produced
by `read_vcard` from well-formed input.  The input below is well-formed
and produces a record whose `note` property (quoted-printable encoded)
has the assembled value `ab=`.  Writing that record emits the line
`NOTE;ENCODING=QUOTED-PRINTABLE:ab=`, and on re-reading the
quoted-printable grammar treats the trailing `=` as a soft break and
consumes the following `END:VCARD` line into the value; the stream then
ends and re-reading fails altogether (with the attribute error of the
`None`-dereference), so the written record does not re-read to an equal
record. -/
theorem c1_counterexample_qp_roundtrip :
    (read_vcard (mkReader ["BEGIN:VCARD\n".toList,
        "NOTE;ENCODING=QUOTED-PRINTABLE:ab==\n".toList, "\n".toList,
        "END:VCARD\n".toList])).map
      (fun vr => vr.1.map (fun vc => vc.properties.map (fun e => (e.1, e.2.map VCardProperty.value)))) =
    .ok (some [("note".toList, ["ab=".toList])]) ∧
    (read_vcard (mkReader ["BEGIN:VCARD\n".toList,
        "NOTE;ENCODING=QUOTED-PRINTABLE:ab==\n".toList, "\n".toList,
        "END:VCARD\n".toList])).map
      (fun vr => vr.1.map (fun vc => splitLines (write_vcard vc))) =
    .ok (some ["BEGIN:VCARD\n".toList, "NOTE;ENCODING=QUOTED-PRINTABLE:ab=\n".toList,
       "END:VCARD\n".toList]) ∧
    read_vcard (mkReader ["BEGIN:VCARD\n".toList,
      "NOTE;ENCODING=QUOTED-PRINTABLE:ab=\n".toList, "END:VCARD\n".toList]) =
    .error .attributeError := by
  refine ⟨?_, ?_, ?_⟩
  · decide
  · decide
  · decide

/-! ### C1 infrastructure: ASCII case-mapping lemmas -/

theorem toNat_ofNat_small (n : Nat) (h : n < 55296) : (Char.ofNat n).toNat = n := by
  have hv : n.isValidChar := Or.inl h
  unfold Char.ofNat
  rw [dif_pos hv]
  unfold Char.ofNatAux Char.toNat
  simp [BitVec.toNat_ofNatLt, UInt32.toNat]

theorem charEq_of_toNat_eq {c d : Char} (h : c.toNat = d.toNat) : c = d := by
  apply Char.eq_of_val_eq
  apply UInt32.eq_of_toBitVec_eq
  exact BitVec.toNat_injective h

theorem char_toNat_lt (c : Char) : c.toNat < 1114112 := by
  rcases c.valid with h | ⟨_, h2⟩
  · exact Nat.lt_trans h (by decide)
  · exact h2

theorem pyLowerChar_toNat (c : Char) :
    (pyLowerChar c).toNat = if 65 ≤ c.toNat ∧ c.toNat ≤ 90 then c.toNat + 32 else c.toNat := by
  unfold pyLowerChar
  by_cases h : 65 ≤ c.toNat ∧ c.toNat ≤ 90
  · rw [if_pos h, if_pos h]
    exact toNat_ofNat_small _ (by omega)
  · rw [if_neg h, if_neg h]

theorem pyUpperChar_toNat (c : Char) :
    (pyUpperChar c).toNat = if 97 ≤ c.toNat ∧ c.toNat ≤ 122 then c.toNat - 32 else c.toNat := by
  unfold pyUpperChar
  by_cases h : 97 ≤ c.toNat ∧ c.toNat ≤ 122
  · rw [if_pos h, if_pos h]
    exact toNat_ofNat_small _ (by omega)
  · rw [if_neg h, if_neg h]

/-- `lower (upper c) = c` for a character already fixed by `lower`. -/
theorem pyLowerChar_pyUpperChar (c : Char) (h : pyLowerChar c = c) :
    pyLowerChar (pyUpperChar c) = c := by
  apply charEq_of_toNat_eq
  have h1 := pyLowerChar_toNat c
  rw [h] at h1
  have h2 := pyUpperChar_toNat c
  have h3 := pyLowerChar_toNat (pyUpperChar c)
  rw [h3, h2]
  by_cases hc : 97 ≤ c.toNat ∧ c.toNat ≤ 122
  · rw [if_pos hc]
    rw [if_pos (by omega)]
    omega
  · rw [if_neg hc]
    by_cases hb : 65 ≤ c.toNat ∧ c.toNat ≤ 90
    · rw [if_pos hb] at h1
      omega
    · rw [if_neg (by omega)]

theorem pyLowerChar_idem (c : Char) : pyLowerChar (pyLowerChar c) = pyLowerChar c := by
  apply charEq_of_toNat_eq
  have h1 := pyLowerChar_toNat c
  have h2 := pyLowerChar_toNat (pyLowerChar c)
  by_cases h : 65 ≤ c.toNat ∧ c.toNat ≤ 90
  · rw [if_pos h] at h1
    rw [h2, h1]
    rw [if_neg (by omega)]
  · rw [if_neg h] at h1
    rw [h2, h1, if_neg h]

/-- Characters outside both ASCII letter ranges are fixed and reflected
by the case maps. -/
theorem pyUpperChar_eq_nonletter {c s : Char}
    (hA : ¬ (65 ≤ s.toNat ∧ s.toNat ≤ 90)) (hB : ¬ (97 ≤ s.toNat ∧ s.toNat ≤ 122)) :
    (pyUpperChar c = s ↔ c = s) := by
  rw [not_and_or] at hA hB
  constructor
  · intro he
    apply charEq_of_toNat_eq
    have h2 := pyUpperChar_toNat c
    rw [he] at h2
    by_cases hc : 97 ≤ c.toNat ∧ c.toNat ≤ 122
    · rw [if_pos hc] at h2
      rcases hA with h | h <;> omega
    · rw [if_neg hc] at h2
      omega
  · intro he
    subst he
    apply charEq_of_toNat_eq
    rw [pyUpperChar_toNat]
    rw [if_neg (by rcases hB with h | h <;> omega)]

theorem pyLowerChar_eq_nonletter {c s : Char}
    (hA : ¬ (65 ≤ s.toNat ∧ s.toNat ≤ 90)) (hB : ¬ (97 ≤ s.toNat ∧ s.toNat ≤ 122)) :
    (pyLowerChar c = s ↔ c = s) := by
  rw [not_and_or] at hA hB
  constructor
  · intro he
    apply charEq_of_toNat_eq
    have h3 := pyLowerChar_toNat c
    rw [he] at h3
    by_cases hc : 65 ≤ c.toNat ∧ c.toNat ≤ 90
    · rw [if_pos hc] at h3
      rcases hB with h | h <;> omega
    · rw [if_neg hc] at h3
      omega
  · intro he
    subst he
    apply charEq_of_toNat_eq
    rw [pyLowerChar_toNat]
    rw [if_neg (by rcases hA with h | h <;> omega)]

/-- The case maps preserve Python-whitespace-ness. -/
theorem isPySpace_pyUpperChar (c : Char) : isPySpace (pyUpperChar c) = isPySpace c := by
  unfold isPySpace
  rw [decide_eq_decide]
  exact or_congr (pyUpperChar_eq_nonletter (by decide) (by decide))
    (or_congr (pyUpperChar_eq_nonletter (by decide) (by decide))
      (or_congr (pyUpperChar_eq_nonletter (by decide) (by decide))
        (or_congr (pyUpperChar_eq_nonletter (by decide) (by decide))
          (or_congr (pyUpperChar_eq_nonletter (by decide) (by decide))
            (pyUpperChar_eq_nonletter (by decide) (by decide))))))

theorem isPySpace_pyLowerChar (c : Char) : isPySpace (pyLowerChar c) = isPySpace c := by
  unfold isPySpace
  rw [decide_eq_decide]
  exact or_congr (pyLowerChar_eq_nonletter (by decide) (by decide))
    (or_congr (pyLowerChar_eq_nonletter (by decide) (by decide))
      (or_congr (pyLowerChar_eq_nonletter (by decide) (by decide))
        (or_congr (pyLowerChar_eq_nonletter (by decide) (by decide))
          (or_congr (pyLowerChar_eq_nonletter (by decide) (by decide))
            (pyLowerChar_eq_nonletter (by decide) (by decide))))))

/-! ### C1 infrastructure: string-level lemmas -/

theorem pyLower_idem (s : List Char) : pyLower (pyLower s) = pyLower s := by
  unfold pyLower
  rw [List.map_map]
  exact List.map_congr_left (fun c _ => pyLowerChar_idem c)

theorem pyLower_pyUpper (s : List Char) (h : pyLower s = s) : pyLower (pyUpper s) = s := by
  unfold pyLower pyUpper
  rw [List.map_map]
  calc List.map (pyLowerChar ∘ pyUpperChar) s
      = List.map (pyLowerChar ∘ pyUpperChar) (pyLower s) := by rw [h]
    _ = pyLower s := by
        unfold pyLower
        rw [List.map_map]
        exact List.map_congr_left (fun c _ =>
          pyLowerChar_pyUpperChar (pyLowerChar c) (pyLowerChar_idem c))
    _ = s := h

theorem mem_pyUpper_nonletter {s : List Char} {x : Char}
    (hA : ¬ (65 ≤ x.toNat ∧ x.toNat ≤ 90)) (hB : ¬ (97 ≤ x.toNat ∧ x.toNat ≤ 122)) :
    x ∈ pyUpper s ↔ x ∈ s := by
  unfold pyUpper
  rw [List.mem_map]
  constructor
  · intro hm
    obtain ⟨c, hc, he⟩ := hm
    rw [(pyUpperChar_eq_nonletter hA hB).mp he] at hc
    exact hc
  · intro hm
    exact ⟨x, hm, (pyUpperChar_eq_nonletter hA hB).mpr rfl⟩

theorem mem_pyLower_nonletter {s : List Char} {x : Char}
    (hA : ¬ (65 ≤ x.toNat ∧ x.toNat ≤ 90)) (hB : ¬ (97 ≤ x.toNat ∧ x.toNat ≤ 122)) :
    x ∈ pyLower s ↔ x ∈ s := by
  unfold pyLower
  rw [List.mem_map]
  constructor
  · intro hm
    obtain ⟨c, hc, he⟩ := hm
    rw [(pyLowerChar_eq_nonletter hA hB).mp he] at hc
    exact hc
  · intro hm
    exact ⟨x, hm, (pyLowerChar_eq_nonletter hA hB).mpr rfl⟩

theorem mem_pyLstrip {s : List Char} {c : Char} (h : c ∈ pyLstrip s) : c ∈ s :=
  (List.dropWhile_suffix isPySpace).mem h

theorem mem_pyRstrip {s : List Char} {c : Char} (h : c ∈ pyRstrip s) : c ∈ s := by
  unfold pyRstrip at h
  rw [List.mem_reverse] at h
  have := (List.dropWhile_suffix isPySpace).mem h
  rw [List.mem_reverse] at this
  exact this

theorem mem_pyStrip {s : List Char} {c : Char} (h : c ∈ pyStrip s) : c ∈ s :=
  mem_pyLstrip (mem_pyRstrip h)

theorem mem_rstripCRLF {s : List Char} {c : Char} (h : c ∈ rstripCRLF s) : c ∈ s := by
  unfold rstripCRLF at h
  rw [List.mem_reverse] at h
  have := (List.dropWhile_suffix _).mem h
  rw [List.mem_reverse] at this
  exact this

theorem dropWhile_eq_self_of_forall {p : Char → Bool} {l : List Char}
    (h : ∀ c ∈ l, p c = false) : List.dropWhile p l = l := by
  cases l with
  | nil => rfl
  | cons c t =>
    rw [List.dropWhile_cons]
    rw [h c (List.mem_cons_self _ _)]
    simp

theorem rstripCRLF_of_free {u : List Char} (hn : '\n' ∉ u) (hr : '\r' ∉ u) :
    rstripCRLF u = u := by
  unfold rstripCRLF
  rw [dropWhile_eq_self_of_forall, List.reverse_reverse]
  intro c hc
  rw [List.mem_reverse] at hc
  simp only [decide_eq_false_iff_not]
  intro hor
  rcases hor with h | h
  · subst h; exact hr hc
  · subst h; exact hn hc

theorem rstripCRLF_terminated {u : List Char} (hn : '\n' ∉ u) (hr : '\r' ∉ u) :
    rstripCRLF (u ++ ['\n']) = u := by
  unfold rstripCRLF
  rw [List.reverse_append]
  simp only [List.reverse_singleton, List.singleton_append, List.dropWhile_cons]
  rw [if_pos (by decide)]
  rw [dropWhile_eq_self_of_forall, List.reverse_reverse]
  intro c hc
  rw [List.mem_reverse] at hc
  simp only [decide_eq_false_iff_not]
  intro hor
  rcases hor with h | h
  · subst h; exact hr hc
  · subst h; exact hn hc

theorem dropWhile_dropWhile (p : Char → Bool) :
    ∀ l : List Char, List.dropWhile p (List.dropWhile p l) = List.dropWhile p l
  | [] => rfl
  | c :: t => by
    rw [List.dropWhile_cons]
    by_cases h : p c = true
    · rw [if_pos h]
      exact dropWhile_dropWhile p t
    · rw [if_neg h]
      rw [List.dropWhile_cons]
      rw [if_neg h]

theorem dropWhile_eq_self_of_head {p : Char → Bool} {l : List Char}
    (h : ∀ c, l.head? = some c → p c = false) : List.dropWhile p l = l := by
  cases l with
  | nil => rfl
  | cons c t =>
    rw [List.dropWhile_cons, h c rfl]
    simp

theorem pyRstrip_head (x : List Char) :
    pyRstrip x = [] ∨ (pyRstrip x).head? = x.head? := by
  unfold pyRstrip
  obtain ⟨w, hw⟩ := List.dropWhile_suffix (l := x.reverse) isPySpace
  cases hres : List.dropWhile isPySpace x.reverse with
  | nil => left; simp
  | cons d t =>
    right
    rw [List.head?_reverse]
    rw [hres] at hw
    have h1 : (w ++ d :: t).getLast? = (d :: t).getLast? := by
      rw [List.getLast?_append]
      cases hgl : (d :: t).getLast? with
      | none => rw [List.getLast?_eq_none_iff] at hgl; exact absurd hgl (by simp)
      | some a => simp
    rw [← h1, hw, List.getLast?_reverse]

theorem pyRstrip_idem (x : List Char) : pyRstrip (pyRstrip x) = pyRstrip x := by
  unfold pyRstrip
  rw [List.reverse_reverse]
  rw [dropWhile_dropWhile]

theorem pyLstrip_head_not (s : List Char) :
    ∀ c, (pyLstrip s).head? = some c → isPySpace c = false := by
  intro c hc
  have h := List.head?_dropWhile_not isPySpace s
  unfold pyLstrip at hc
  rw [hc] at h
  exact h

theorem pyStrip_idem (s : List Char) : pyStrip (pyStrip s) = pyStrip s := by
  unfold pyStrip
  have hL : pyLstrip (pyRstrip (pyLstrip s)) = pyRstrip (pyLstrip s) := by
    apply dropWhile_eq_self_of_head
    intro c hc
    rcases pyRstrip_head (pyLstrip s) with h | h
    · rw [h] at hc
      exact absurd hc (by simp)
    · rw [h] at hc
      exact pyLstrip_head_not s c hc
  rw [hL, pyRstrip_idem]

theorem pyLstrip_pyLower (s : List Char) : pyLstrip (pyLower s) = pyLower (pyLstrip s) := by
  unfold pyLstrip pyLower
  rw [List.dropWhile_map]
  have hfn : (isPySpace ∘ pyLowerChar) = isPySpace := by
    funext c
    exact isPySpace_pyLowerChar c
  rw [hfn]

theorem pyRstrip_pyLower (s : List Char) : pyRstrip (pyLower s) = pyLower (pyRstrip s) := by
  unfold pyRstrip pyLower
  rw [← List.map_reverse, List.dropWhile_map]
  have hfn : (isPySpace ∘ pyLowerChar) = isPySpace := by
    funext c
    exact isPySpace_pyLowerChar c
  rw [hfn, List.map_reverse]

theorem pyStrip_pyLower (s : List Char) : pyStrip (pyLower s) = pyLower (pyStrip s) := by
  unfold pyStrip
  rw [pyLstrip_pyLower, pyRstrip_pyLower]

theorem pyLstrip_pyUpper (s : List Char) : pyLstrip (pyUpper s) = pyUpper (pyLstrip s) := by
  unfold pyLstrip pyUpper
  rw [List.dropWhile_map]
  have hfn : (isPySpace ∘ pyUpperChar) = isPySpace := by
    funext c
    exact isPySpace_pyUpperChar c
  rw [hfn]

theorem pyRstrip_pyUpper (s : List Char) : pyRstrip (pyUpper s) = pyUpper (pyRstrip s) := by
  unfold pyRstrip pyUpper
  rw [← List.map_reverse, List.dropWhile_map]
  have hfn : (isPySpace ∘ pyUpperChar) = isPySpace := by
    funext c
    exact isPySpace_pyUpperChar c
  rw [hfn, List.map_reverse]

theorem pyStrip_pyUpper (s : List Char) : pyStrip (pyUpper s) = pyUpper (pyStrip s) := by
  unfold pyStrip
  rw [pyLstrip_pyUpper, pyRstrip_pyUpper]

theorem pySplitChar_ne_nil (sep : Char) : ∀ s : List Char, pySplitChar sep s ≠ []
  | [] => by simp [pySplitChar]
  | c :: cs => by
    have h := pySplitChar_ne_nil sep cs
    cases hs : pySplitChar sep cs with
    | nil => exact absurd hs h
    | cons r rs =>
      by_cases hc : c = sep <;> simp [pySplitChar, hs, hc]

theorem pySplitChar_cons_sep (sep : Char) (cs : List Char) (r : List Char)
    (rs : List (List Char)) (hs : pySplitChar sep cs = r :: rs) :
    pySplitChar sep (sep :: cs) = [] :: r :: rs := by
  simp [pySplitChar, hs]

theorem pySplitChar_cons_ne (sep c : Char) (cs : List Char) (r : List Char)
    (rs : List (List Char)) (hs : pySplitChar sep cs = r :: rs) (hc : c ≠ sep) :
    pySplitChar sep (c :: cs) = (c :: r) :: rs := by
  simp [pySplitChar, hs, hc]

theorem pySplitChar_sep_not_mem (sep : Char) :
    ∀ (s : List Char), ∀ comp ∈ pySplitChar sep s, sep ∉ comp
  | [], comp, hm => by
    simp [pySplitChar] at hm
    rw [hm]
    exact List.not_mem_nil sep
  | c :: cs, comp, hm => by
    have ih := pySplitChar_sep_not_mem sep cs
    cases hs : pySplitChar sep cs with
    | nil => exact absurd hs (pySplitChar_ne_nil sep cs)
    | cons r rs =>
      by_cases hc : c = sep
      · subst hc
        rw [pySplitChar_cons_sep c cs r rs hs] at hm
        rcases List.mem_cons.mp hm with rfl | hm2
        · exact List.not_mem_nil c
        · exact ih comp (hs ▸ hm2)
      · rw [pySplitChar_cons_ne sep c cs r rs hs hc] at hm
        rcases List.mem_cons.mp hm with rfl | hm2
        · intro hmem
          rcases List.mem_cons.mp hmem with he | hmem2
          · exact hc he.symm
          · exact ih r (hs ▸ List.mem_cons_self _ _) hmem2
        · exact ih comp (hs ▸ List.mem_cons_of_mem _ hm2)

theorem pySplitChar_mem_subset (sep : Char) :
    ∀ (s : List Char), ∀ comp ∈ pySplitChar sep s, ∀ c ∈ comp, c ∈ s
  | [], comp, hm, c, hc => by
    simp [pySplitChar] at hm
    rw [hm] at hc
    exact absurd hc (List.not_mem_nil c)
  | a :: cs, comp, hm, c, hc => by
    have ih := pySplitChar_mem_subset sep cs
    cases hs : pySplitChar sep cs with
    | nil => exact absurd hs (pySplitChar_ne_nil sep cs)
    | cons r rs =>
      by_cases ha : a = sep
      · subst ha
        rw [pySplitChar_cons_sep a cs r rs hs] at hm
        rcases List.mem_cons.mp hm with rfl | hm2
        · exact absurd hc (List.not_mem_nil c)
        · exact List.mem_cons_of_mem _ (ih comp (hs ▸ hm2) c hc)
      · rw [pySplitChar_cons_ne sep a cs r rs hs ha] at hm
        rcases List.mem_cons.mp hm with rfl | hm2
        · rcases List.mem_cons.mp hc with rfl | hc2
          · exact List.mem_cons_self _ _
          · exact List.mem_cons_of_mem _ (ih r (hs ▸ List.mem_cons_self _ _) c hc2)
        · exact List.mem_cons_of_mem _ (ih comp (hs ▸ List.mem_cons_of_mem _ hm2) c hc)

theorem lastDotSegment_mem (s : List Char) :
    lastDotSegment s ∈ pySplitChar '.' s := by
  unfold lastDotSegment
  cases hs : pySplitChar '.' s with
  | nil => exact absurd hs (pySplitChar_ne_nil '.' s)
  | cons r rs =>
    rw [List.getLastD_eq_getLast?]
    rw [List.getLast?_eq_getLast (r :: rs) (by simp)]
    simp only [Option.getD_some]
    exact List.getLast_mem _

theorem pySplitOnce_fst_spec (sep : Char) :
    ∀ s : List Char, sep ∉ (pySplitOnce sep s).1 ∧ (∀ c ∈ (pySplitOnce sep s).1, c ∈ s) ∧
      (∀ b, (pySplitOnce sep s).2 = some b → ∀ c ∈ b, c ∈ s)
  | [] => by
    refine ⟨by simp [pySplitOnce], by simp [pySplitOnce], ?_⟩
    intro b hb
    simp [pySplitOnce] at hb
  | c :: cs => by
    obtain ⟨ih1, ih2, ih3⟩ := pySplitOnce_fst_spec sep cs
    by_cases hc : c = sep
    · refine ⟨by simp [pySplitOnce, hc], by simp [pySplitOnce, hc], ?_⟩
      intro b hb d hd
      simp only [pySplitOnce, if_pos hc] at hb
      obtain rfl := Option.some.inj hb
      exact List.mem_cons_of_mem _ hd
    · have hunf : pySplitOnce sep (c :: cs) =
          (c :: (pySplitOnce sep cs).1, (pySplitOnce sep cs).2) := by
        simp [pySplitOnce, hc]
      refine ⟨?_, ?_, ?_⟩
      · rw [hunf]
        intro hmem
        rcases List.mem_cons.mp hmem with he | hm
        · exact hc he.symm
        · exact ih1 hm
      · rw [hunf]
        intro d hd
        rcases List.mem_cons.mp hd with rfl | hm
        · exact List.mem_cons_self _ _
        · exact List.mem_cons_of_mem _ (ih2 d hm)
      · rw [hunf]
        intro b hb d hd
        exact List.mem_cons_of_mem _ (ih3 b hb d hd)

theorem addParamList_keys (k v : List Char) :
    ∀ ps : List (List Char × List (List Char)),
      (addParamList k v ps).map Prod.fst =
        if k ∈ ps.map Prod.fst then ps.map Prod.fst else ps.map Prod.fst ++ [k]
  | [] => by simp [addParamList]
  | (k1, vs) :: rest => by
    have ih := addParamList_keys k v rest
    by_cases hk : k1 = k
    · subst hk
      simp [addParamList]
    · rw [show addParamList k v ((k1, vs) :: rest) = (k1, vs) :: addParamList k v rest from by
        simp [addParamList, hk]]
      rw [List.map_cons, List.map_cons, ih]
      have hiff : (k ∈ k1 :: rest.map Prod.fst) ↔ k ∈ rest.map Prod.fst := by
        constructor
        · intro hm
          rcases List.mem_cons.mp hm with he | hm2
          · exact absurd he.symm hk
          · exact hm2
        · exact List.mem_cons_of_mem _
      by_cases hmem : k ∈ rest.map Prod.fst
      · rw [if_pos hmem, if_pos (hiff.mpr hmem)]
      · rw [if_neg hmem, if_neg (fun hm => hmem (hiff.mp hm))]
        simp

theorem addParamList_good (k v : List Char) (hk : GoodKey k) (hv : GoodVal v) :
    ∀ ps, GoodParams ps → GoodParams (addParamList k v ps)
  | [], _ => by
    constructor
    · simp [addParamList]
    · intro e he
      rw [show addParamList k v [] = [(k, [v])] from rfl] at he
      rcases List.mem_cons.mp he with rfl | he2
      · refine ⟨hk, by simp, by simp, ?_⟩
        intro x hx
        rcases List.mem_cons.mp hx with rfl | hx2
        · exact hv
        · exact absurd hx2 (List.not_mem_nil x)
      · exact absurd he2 (List.not_mem_nil e)
  | (k1, vs) :: rest, hps => by
    obtain ⟨hnd, hall⟩ := hps
    by_cases hkk : k1 = k
    · subst hkk
      rw [show addParamList k1 v ((k1, vs) :: rest) =
          (k1, if v ∈ vs then vs else vs ++ [v]) :: rest from by simp [addParamList]]
      obtain ⟨hgk, hne, hndv, hgv⟩ := hall (k1, vs) (List.mem_cons_self _ _)
      constructor
      · simpa using hnd
      · intro e he
        rcases List.mem_cons.mp he with rfl | he2
        · by_cases hvin : v ∈ vs
          · rw [if_pos hvin]
            exact ⟨hgk, hne, hndv, hgv⟩
          · rw [if_neg hvin]
            refine ⟨hgk, by simp, ?_, ?_⟩
            · simp [List.nodup_append, hndv, hvin]
            · intro x hx
              rcases List.mem_append.mp hx with hx2 | hx2
              · exact hgv x hx2
              · rcases List.mem_cons.mp hx2 with rfl | hx3
                · exact hv
                · exact absurd hx3 (List.not_mem_nil x)
        · exact hall e (List.mem_cons_of_mem _ he2)
    · rw [show addParamList k v ((k1, vs) :: rest) = (k1, vs) :: addParamList k v rest from by
        simp [addParamList, hkk]]
      have htail : GoodParams (addParamList k v rest) :=
        addParamList_good k v hk hv rest ⟨(List.nodup_cons.mp (by simpa using hnd)).2,
          fun e he => hall e (List.mem_cons_of_mem _ he)⟩
      constructor
      · rw [List.map_cons, List.nodup_cons]
        refine ⟨?_, htail.1⟩
        rw [addParamList_keys]
        have hk1 : k1 ∉ rest.map Prod.fst := (List.nodup_cons.mp (by simpa using hnd)).1
        by_cases hmem : k ∈ rest.map Prod.fst
        · rw [if_pos hmem]
          exact hk1
        · rw [if_neg hmem]
          intro hm
          rcases List.mem_append.mp hm with hm2 | hm2
          · exact hk1 hm2
          · rcases List.mem_cons.mp hm2 with he | he
            · exact hkk he
            · exact absurd he (List.not_mem_nil k1)
      · intro e he
        rcases List.mem_cons.mp he with rfl | he2
        · exact hall (k1, vs) (List.mem_cons_self _ _)
        · exact htail.2 e he2

theorem goodVal_lower_strip (a : List Char) (h1 : ';' ∉ a) (h2 : ':' ∉ a)
    (h3 : '\n' ∉ a) (h4 : '\r' ∉ a) :
    GoodVal (pyLower (pyStrip a)) := by
  refine ⟨pyLower_idem _, ?_, ?_, ?_, ?_, ?_⟩
  · rw [pyStrip_pyLower, pyStrip_idem]
  · intro hm
    exact h1 (mem_pyStrip ((mem_pyLower_nonletter (by decide) (by decide)).mp hm))
  · intro hm
    exact h2 (mem_pyStrip ((mem_pyLower_nonletter (by decide) (by decide)).mp hm))
  · intro hm
    exact h3 (mem_pyStrip ((mem_pyLower_nonletter (by decide) (by decide)).mp hm))
  · intro hm
    exact h4 (mem_pyStrip ((mem_pyLower_nonletter (by decide) (by decide)).mp hm))

theorem paramOfFragment_good (seg : List Char) (hsemi : ';' ∉ seg) (hcolon : ':' ∉ seg)
    (hn : '\n' ∉ seg) (hr : '\r' ∉ seg) :
    GoodKey (paramOfFragment seg).1 ∧ GoodVal (paramOfFragment seg).2 := by
  obtain ⟨hfst, hsub1, hsub2⟩ := pySplitOnce_fst_spec '=' seg
  unfold paramOfFragment
  cases hsp : pySplitOnce '=' seg with
  | mk a b =>
    rw [hsp] at hfst hsub1 hsub2
    have hgva : GoodVal (pyLower (pyStrip a)) :=
      goodVal_lower_strip a (fun hm => hsemi (hsub1 _ hm)) (fun hm => hcolon (hsub1 _ hm))
        (fun hm => hn (hsub1 _ hm)) (fun hm => hr (hsub1 _ hm))
    cases b with
    | some bb =>
      simp only []
      constructor
      · refine ⟨hgva.1, hgva.2.1, hgva.2.2, ?_⟩
        intro hm
        exact hfst (mem_pyStrip ((mem_pyLower_nonletter (by decide) (by decide)).mp hm))
      · exact goodVal_lower_strip bb (fun hm => hsemi (hsub2 bb rfl _ hm))
          (fun hm => hcolon (hsub2 bb rfl _ hm)) (fun hm => hn (hsub2 bb rfl _ hm))
          (fun hm => hr (hsub2 bb rfl _ hm))
    | none =>
      simp only []
      constructor
      · show GoodKey (pyLower (pyStrip "type".toList))
        exact ⟨by decide, by decide, ⟨by decide, by decide, by decide, by decide⟩, by decide⟩
      · exact hgva

theorem mem_take_exists {l : List Char} {k : Nat} {c : Char} (h : c ∈ l.take k) :
    ∃ j, j < k ∧ j < l.length ∧ l.getD j ' ' = c := by
  obtain ⟨j, hjlen, hjc⟩ := List.mem_iff_getElem.mp h
  have hjk : j < k := by
    have := hjlen
    rw [List.length_take] at this
    omega
  have hjl : j < l.length := by
    have := hjlen
    rw [List.length_take] at this
    omega
  refine ⟨j, hjk, hjl, ?_⟩
  rw [List.getD_eq_getElem l ' ' hjl, ← hjc, List.getElem_take]

theorem mem_drop_take_exists {l : List Char} {s t : Nat} {c : Char}
    (h : c ∈ (l.take t).drop s) :
    ∃ j, s ≤ j ∧ j < t ∧ j < l.length ∧ l.getD j ' ' = c := by
  obtain ⟨i, hilen, hic⟩ := List.mem_iff_getElem.mp h
  have hlen := hilen
  rw [List.length_drop, List.length_take] at hlen
  have hst : s + i < t ∧ s + i < l.length := by omega
  refine ⟨s + i, by omega, hst.1, hst.2, ?_⟩
  rw [List.getD_eq_getElem l ' ' hst.2, ← hic]
  rw [List.getElem_drop]
  rw [List.getElem_take]

theorem foldl_addparam_spec :
    ∀ (segs : List (List Char)) (pr : VCardProperty),
      (List.foldl (fun pr seg =>
        pr.add_parameter (paramOfFragment seg).1 (paramOfFragment seg).2) pr segs).name = pr.name ∧
      (List.foldl (fun pr seg =>
        pr.add_parameter (paramOfFragment seg).1 (paramOfFragment seg).2) pr segs).value = pr.value ∧
      (GoodParams pr.parameters →
        (∀ seg ∈ segs, GoodKey (paramOfFragment seg).1 ∧ GoodVal (paramOfFragment seg).2) →
        GoodParams (List.foldl (fun pr seg =>
          pr.add_parameter (paramOfFragment seg).1 (paramOfFragment seg).2) pr segs).parameters)
  | [], pr => ⟨rfl, rfl, fun h _ => h⟩
  | seg :: segs, pr => by
    have ih := foldl_addparam_spec segs
      (pr.add_parameter (paramOfFragment seg).1 (paramOfFragment seg).2)
    refine ⟨ih.1, ih.2.1, ?_⟩
    intro hgood hsegs
    exact ih.2.2
      (addParamList_good _ _ (hsegs seg (List.mem_cons_self _ _)).1
        (hsegs seg (List.mem_cons_self _ _)).2 _ hgood)
      (fun s hs => hsegs s (List.mem_cons_of_mem _ hs))

theorem goodName_of_take (l : List Char) (di : Nat)
    (hn : '\n' ∉ l) (hr : '\r' ∉ l)
    (hmin : ∀ j, j < di → l.getD j ' ' ∉ [';', ':']) :
    GoodName (pyLower (lastDotSegment (l.take di))) := by
  have hsub : ∀ c ∈ lastDotSegment (l.take di), c ∈ l.take di :=
    pySplitChar_mem_subset '.' _ _ (lastDotSegment_mem _)
  have hnotdelim : ∀ c ∈ lastDotSegment (l.take di), c ≠ ';' ∧ c ≠ ':' := by
    intro c hc
    obtain ⟨j, hjk, hjl, hjc⟩ := mem_take_exists (hsub c hc)
    have hj := hmin j hjk
    rw [hjc] at hj
    constructor
    · intro he
      exact hj (by rw [he]; exact List.mem_cons_self _ _)
    · intro he
      exact hj (by rw [he]; exact List.mem_cons_of_mem _ (List.mem_cons_self _ _))
  refine ⟨pyLower_idem _, ⟨?_, ?_, ?_, ?_⟩, ?_⟩
  · intro hm
    have hm2 := (mem_pyLower_nonletter (by decide) (by decide)).mp hm
    exact (hnotdelim _ hm2).1 rfl
  · intro hm
    have hm2 := (mem_pyLower_nonletter (by decide) (by decide)).mp hm
    exact (hnotdelim _ hm2).2 rfl
  · intro hm
    have hm2 := (mem_pyLower_nonletter (by decide) (by decide)).mp hm
    exact hn (List.take_subset _ _ (hsub _ hm2))
  · intro hm
    have hm2 := (mem_pyLower_nonletter (by decide) (by decide)).mp hm
    exact hr (List.take_subset _ _ (hsub _ hm2))
  · intro hm
    have hm2 := (mem_pyLower_nonletter (by decide) (by decide)).mp hm
    exact pySplitChar_sep_not_mem '.' _ _ (lastDotSegment_mem _) hm2

theorem parse_vcard_property_good (l : List Char) (p : VCardProperty)
    (hn : '\n' ∉ l) (hr : '\r' ∉ l)
    (h : parse_vcard_property l = some p) : GoodProp p := by
  unfold parse_vcard_property at h
  cases hidx : _index_any l [';', ':'] 0 with
  | none =>
    rw [hidx] at h
    exact absurd h (by simp)
  | some di =>
    rw [hidx] at h
    simp only [] at h
    have hidx0 : indexAnyAux [';', ':'] l = some di := by
      unfold _index_any at hidx
      rw [List.drop_zero] at hidx
      cases hx : indexAnyAux [';', ':'] l with
      | none =>
        rw [hx] at hidx
        exact absurd hidx (by simp)
      | some m =>
        rw [hx] at hidx
        simp only [Option.map_some'] at hidx
        have heq : m + 0 = di := Option.some.inj hidx
        exact congrArg some (by omega)
    obtain ⟨hlen, hmem, hmin⟩ := indexAnyAux_some_spec _ _ _ hidx0
    have hgname := goodName_of_take l di hn hr hmin
    by_cases hsemi : l.getD di ' ' = ';'
    · rw [if_pos hsemi] at h
      cases hidx2 : _index_any l [':'] (di + 1) with
      | none =>
        rw [hidx2] at h
        exact absurd h (by simp)
      | some di2 =>
        rw [hidx2] at h
        simp only [] at h
        obtain rfl := (Option.some.inj h).symm
        -- spec of the second scan over the dropped list
        have hidx20 : ∃ m, indexAnyAux [':'] (l.drop (di + 1)) = some m ∧ di2 = m + (di + 1) := by
          unfold _index_any at hidx2
          cases hx : indexAnyAux [':'] (l.drop (di + 1)) with
          | none =>
            rw [hx] at hidx2
            exact absurd hidx2 (by simp)
          | some m =>
            rw [hx] at hidx2
            simp only [Option.map_some'] at hidx2
            exact ⟨m, rfl, (Option.some.inj hidx2).symm⟩
        obtain ⟨m, hm0, rfl⟩ := hidx20
        obtain ⟨hlen2, _, hmin2⟩ := indexAnyAux_some_spec _ _ _ hm0
        -- the parameter slice contains no colon and sits inside `l`
        have hpd_spec : ∀ c ∈ (l.take (m + (di + 1))).drop (di + 1), c ≠ ':' ∧ c ∈ l := by
          intro c hc
          obtain ⟨j, hjs, hjt, hjl, hjc⟩ := mem_drop_take_exists hc
          constructor
          · intro he
            have hdj : (l.drop (di + 1)).getD (j - (di + 1)) ' ' = c := by
              have hjd : j - (di + 1) < (l.drop (di + 1)).length := by
                rw [List.length_drop]
                omega
              rw [List.getD_eq_getElem _ ' ' hjd, List.getElem_drop]
              rw [List.getD_eq_getElem l ' ' hjl] at hjc
              rw [← hjc]
              congr 1
              omega
            have := hmin2 (j - (di + 1)) (by omega)
            rw [hdj, he] at this
            exact this (List.mem_cons_self _ _)
          · rw [← hjc]
            rw [List.getD_eq_getElem l ' ' hjl]
            exact List.getElem_mem hjl
        have hsegs : ∀ seg ∈ (pySplitChar ';'
            ((l.take (m + (di + 1))).drop (di + 1))).filter (· ≠ []),
            GoodKey (paramOfFragment seg).1 ∧ GoodVal (paramOfFragment seg).2 := by
          intro seg hseg
          have hseg2 := List.mem_of_mem_filter hseg
          have hsub := pySplitChar_mem_subset ';' _ _ hseg2
          refine paramOfFragment_good seg (pySplitChar_sep_not_mem ';' _ _ hseg2) ?_ ?_ ?_
          · intro hm2
            exact (hpd_spec _ (hsub _ hm2)).1 rfl
          · intro hm2
            exact hn (hpd_spec _ (hsub _ hm2)).2
          · intro hm2
            exact hr (hpd_spec _ (hsub _ hm2)).2
        have hfold := foldl_addparam_spec
          ((pySplitChar ';' ((l.take (m + (di + 1))).drop (di + 1))).filter (· ≠ []))
          { name := pyLower (lastDotSegment (l.take di)) }
        have hvsub : ∀ c ∈ l.drop (m + (di + 1) + 1), c ∈ l := fun c hc => List.drop_subset _ _ hc
        refine ⟨?_, ?_, ?_, ?_⟩
        · show GoodName _
          rw [hfold.1]
          exact hgname
        · exact hfold.2.2 ⟨by simp, by simp⟩ hsegs
        · show '\n' ∉ _
          by_cases hbe : pyLower (lastDotSegment (l.take di)) = "begin".toList ∨
              pyLower (lastDotSegment (l.take di)) = "end".toList
          · rw [if_pos hbe]
            intro hm2
            exact hn (hvsub _ ((mem_pyLower_nonletter (by decide) (by decide)).mp hm2))
          · rw [if_neg hbe]
            intro hm2
            exact hn (hvsub _ hm2)
        · show '\r' ∉ _
          by_cases hbe : pyLower (lastDotSegment (l.take di)) = "begin".toList ∨
              pyLower (lastDotSegment (l.take di)) = "end".toList
          · rw [if_pos hbe]
            intro hm2
            exact hr (hvsub _ ((mem_pyLower_nonletter (by decide) (by decide)).mp hm2))
          · rw [if_neg hbe]
            intro hm2
            exact hr (hvsub _ hm2)
    · rw [if_neg hsemi] at h
      obtain rfl := (Option.some.inj h).symm
      have hvsub : ∀ c ∈ l.drop (di + 1), c ∈ l := fun c hc => List.drop_subset _ _ hc
      refine ⟨hgname, ⟨by simp, by simp⟩, ?_, ?_⟩
      · show '\n' ∉ _
        by_cases hbe : pyLower (lastDotSegment (l.take di)) = "begin".toList ∨
            pyLower (lastDotSegment (l.take di)) = "end".toList
        · rw [if_pos hbe]
          intro hm2
          exact hn (hvsub _ ((mem_pyLower_nonletter (by decide) (by decide)).mp hm2))
        · rw [if_neg hbe]
          intro hm2
          exact hn (hvsub _ hm2)
      · show '\r' ∉ _
        by_cases hbe : pyLower (lastDotSegment (l.take di)) = "begin".toList ∨
            pyLower (lastDotSegment (l.take di)) = "end".toList
        · rw [if_pos hbe]
          intro hm2
          exact hr (hvsub _ ((mem_pyLower_nonletter (by decide) (by decide)).mp hm2))
        · rw [if_neg hbe]
          intro hm2
          exact hr (hvsub _ hm2)

theorem wfLine_rstripCRLF {l : List Char} (h : WfLine l) :
    '\n' ∉ rstripCRLF l ∧ '\r' ∉ rstripCRLF l := by
  obtain ⟨hr, u, rfl, hn⟩ := h
  rw [rstripCRLF_terminated hn (fun hm => hr (List.mem_append_left _ hm))]
  exact ⟨hn, fun hm => hr (List.mem_append_left _ hm)⟩

theorem pyRstrip_append_newline (u : List Char) :
    pyRstrip (u ++ ['\n']) = pyRstrip u := by
  unfold pyRstrip
  rw [List.reverse_append]
  simp only [List.reverse_singleton, List.singleton_append, List.dropWhile_cons]
  rw [if_pos (by decide)]

theorem wfLine_pyRstrip {l : List Char} (h : WfLine l) :
    '\n' ∉ pyRstrip l ∧ '\r' ∉ pyRstrip l := by
  obtain ⟨hr, u, rfl, hn⟩ := h
  rw [pyRstrip_append_newline]
  exact ⟨fun hm => hn (mem_pyRstrip hm),
    fun hm => hr (List.mem_append_left _ (mem_pyRstrip hm))⟩

theorem readNonblankLine_wf : ∀ (lines : List (List Char)) (n : Nat), WfLines lines →
    (∀ l1 lines2 n2, readNonblankLine lines n = (some l1, lines2, n2) →
      ('\n' ∉ l1 ∧ '\r' ∉ l1) ∧ WfLines lines2) ∧
    (∀ lines2 n2, readNonblankLine lines n = (none, lines2, n2) → WfLines lines2)
  | [], n, hwf => by
    constructor
    · intro l1 lines2 n2 h
      exact absurd h (by simp [readNonblankLine])
    · intro lines2 n2 h
      simp only [readNonblankLine, Prod.mk.injEq] at h
      rw [← h.2.1]
      intro l hl
      exact absurd hl (List.not_mem_nil l)
  | l :: rest, n, hwf => by
    have hwfr : WfLines rest := fun x hx => hwf x (List.mem_cons_of_mem _ hx)
    have ih := readNonblankLine_wf rest (n + 1) hwfr
    constructor
    · intro l1 lines2 n2 h
      simp only [readNonblankLine] at h
      by_cases hl : l = []
      · rw [if_pos hl] at h
        exact absurd (congrArg Prod.fst h) (by simp)
      · rw [if_neg hl] at h
        by_cases hl1 : rstripCRLF l = []
        · rw [if_pos hl1] at h
          exact ih.1 l1 lines2 n2 h
        · rw [if_neg hl1] at h
          have h1 : some (rstripCRLF l) = some l1 := congrArg Prod.fst h
          have h2 : rest = lines2 := congrArg (fun x => x.2.1) h
          obtain rfl := Option.some.inj h1
          rw [← h2]
          exact ⟨wfLine_rstripCRLF (hwf l (List.mem_cons_self _ _)), hwfr⟩
    · intro lines2 n2 h
      simp only [readNonblankLine] at h
      by_cases hl : l = []
      · rw [if_pos hl] at h
        have h2 : l :: rest = lines2 := congrArg (fun x => x.2.1) h
        rw [← h2]
        exact hwf
      · rw [if_neg hl] at h
        by_cases hl1 : rstripCRLF l = []
        · rw [if_pos hl1] at h
          exact ih.2 lines2 n2 h
        · rw [if_neg hl1] at h
          exact absurd (congrArg Prod.fst h) (by simp)

/-! Step equations for the blank-line skipper and the three value-assembly
loops, in the form used by the roundtrip simulation. -/

theorem readNonblankLine_take (l : List Char) (rest : List (List Char)) (n : Nat)
    (hl : l ≠ []) (hs : rstripCRLF l ≠ []) :
    readNonblankLine (l :: rest) n = (some (rstripCRLF l), rest, n + 1) := by
  simp only [readNonblankLine]
  rw [if_neg hl, if_neg hs]

theorem readNonblankLine_eos (lines : List (List Char)) (n : Nat)
    (h : lines = [] ∨ ∃ rest, lines = [] :: rest) :
    readNonblankLine lines n = (none, lines, n) := by
  rcases h with rfl | ⟨rest, rfl⟩
  · simp [readNonblankLine]
  · simp [readNonblankLine]

theorem qpGo_stop (lines : List (List Char)) (n : Nat) (f : List Char)
    (h : ¬ (pyRstrip f).getLast? = some '=') :
    qpGo lines n f = .ok (pyRstrip f, lines, n) := by
  rw [qpGo.eq_def]
  simp [h]

theorem qpGo_empty (n : Nat) (f : List Char)
    (h : (pyRstrip f).getLast? = some '=') :
    qpGo [] n f = .error (.incompleteProperty n) := by
  rw [qpGo.eq_def]
  simp [h]

theorem qpGo_blank (rest : List (List Char)) (n : Nat) (f : List Char)
    (h : (pyRstrip f).getLast? = some '=') :
    qpGo ([] :: rest) n f = .error (.incompleteProperty n) := by
  rw [qpGo.eq_def]
  simp [h]

theorem qpGo_cont (l : List Char) (rest : List (List Char)) (n : Nat) (f : List Char)
    (h : (pyRstrip f).getLast? = some '=') (hl : l ≠ []) :
    qpGo (l :: rest) n f =
      (qpGo rest (n + 1) l).map (fun vr => ((pyRstrip f).dropLast ++ vr.1, vr.2)) := by
  rw [qpGo.eq_def]
  simp [h, hl]

theorem b64Go_nilfrag (lines : List (List Char)) (n : Nat) :
    b64Go lines n [] = .ok ([], lines, n) := by
  rw [b64Go.eq_def]
  simp

theorem b64Go_cont (l : List Char) (rest : List (List Char)) (n : Nat) (f : List Char)
    (hf : f ≠ []) (hm : startsWithContMark l) :
    b64Go (l :: rest) n f =
      (b64Go rest (n + 1) (rstripCRLF l)).map (fun vr => (pyStrip f ++ vr.1, vr.2)) := by
  have hl : l ≠ [] := by
    intro h
    subst h
    simp [startsWithContMark] at hm
  rw [b64Go.eq_def]
  simp [hf, hl, hm]

theorem foldedGo_nil (n : Nat) (f : List Char) (v : PyVal) :
    foldedGo [] n f v = (f, [], n) := by
  rw [foldedGo.eq_def]

theorem foldedGo_stop (l : List Char) (rest : List (List Char)) (n : Nat)
    (f : List Char) (v : PyVal) (h : l = [] ∨ ¬ startsWithContMark l) :
    foldedGo (l :: rest) n f v = (f, l :: rest, n) := by
  rw [foldedGo.eq_def]
  simp [h]
  intro hl hm
  rcases h with h | h
  · exact absurd h hl
  · exact absurd hm h

theorem foldedGo_cont (l : List Char) (rest : List (List Char)) (n : Nat)
    (f : List Char) (v : PyVal) (hl : l ≠ []) (hm : startsWithContMark l) :
    foldedGo (l :: rest) n f v =
      ((f ++ (foldedGo rest (n + 1)
          (if pyValEqStr v "2.1".toList then pyLstrip (rstripCRLF l)
           else (rstripCRLF l).drop 1) v).1,
        (foldedGo rest (n + 1)
          (if pyValEqStr v "2.1".toList then pyLstrip (rstripCRLF l)
           else (rstripCRLF l).drop 1) v).2)) := by
  rw [foldedGo.eq_def]
  simp [hl, hm]

/-! Well-formedness of the three value-assembly loops: on a well-formed
stream the assembled value stays CR/LF-free and the remaining stream
stays well-formed. -/

theorem foldedGo_wf : ∀ (lines : List (List Char)) (n : Nat) (f : List Char) (v : PyVal),
    WfLines lines → '\n' ∉ f → '\r' ∉ f →
    ('\n' ∉ (foldedGo lines n f v).1 ∧ '\r' ∉ (foldedGo lines n f v).1) ∧
    WfLines (foldedGo lines n f v).2.1
  | [], n, f, v, hwf, hn, hr => by
    rw [foldedGo_nil]
    exact ⟨⟨hn, hr⟩, hwf⟩
  | l :: rest, n, f, v, hwf, hn, hr => by
    have hwfr : WfLines rest := fun x hx => hwf x (List.mem_cons_of_mem _ hx)
    by_cases hc : l = [] ∨ ¬ startsWithContMark l
    · rw [foldedGo_stop _ _ _ _ _ hc]
      exact ⟨⟨hn, hr⟩, hwf⟩
    · rw [not_or, not_not] at hc
      have hwl := wfLine_rstripCRLF (hwf l (List.mem_cons_self _ _))
      have hl2n : '\n' ∉ (if pyValEqStr v "2.1".toList then pyLstrip (rstripCRLF l)
          else (rstripCRLF l).drop 1) := by
        split
        · exact fun hm => hwl.1 (mem_pyLstrip hm)
        · exact fun hm => hwl.1 (List.drop_subset _ _ hm)
      have hl2r : '\r' ∉ (if pyValEqStr v "2.1".toList then pyLstrip (rstripCRLF l)
          else (rstripCRLF l).drop 1) := by
        split
        · exact fun hm => hwl.2 (mem_pyLstrip hm)
        · exact fun hm => hwl.2 (List.drop_subset _ _ hm)
      have ih := foldedGo_wf rest (n + 1)
        (if pyValEqStr v "2.1".toList then pyLstrip (rstripCRLF l)
         else (rstripCRLF l).drop 1) v hwfr hl2n hl2r
      rw [foldedGo_cont _ _ _ _ _ hc.1 hc.2]
      refine ⟨⟨?_, ?_⟩, ih.2⟩
      · intro hm
        rcases List.mem_append.mp hm with hm | hm
        · exact hn hm
        · exact ih.1.1 hm
      · intro hm
        rcases List.mem_append.mp hm with hm | hm
        · exact hr hm
        · exact ih.1.2 hm

theorem qpGo_wf : ∀ (lines : List (List Char)) (n : Nat) (f : List Char),
    WfLines lines → '\n' ∉ pyRstrip f → '\r' ∉ pyRstrip f →
    ∀ val lines2 n2, qpGo lines n f = .ok (val, lines2, n2) →
      ('\n' ∉ val ∧ '\r' ∉ val) ∧ WfLines lines2
  | lines, n, f, hwf, hn, hr, val, lines2, n2, h => by
    by_cases hend : (pyRstrip f).getLast? = some '='
    · match lines, hwf with
      | [], hwf =>
        rw [qpGo_empty n f hend] at h
        exact absurd h (by simp)
      | l :: rest, hwf =>
        by_cases hl : l = []
        · subst hl
          rw [qpGo_blank rest n f hend] at h
          exact absurd h (by simp)
        · rw [qpGo_cont l rest n f hend hl] at h
          have hwfr : WfLines rest := fun x hx => hwf x (List.mem_cons_of_mem _ hx)
          have hwl := wfLine_pyRstrip (hwf l (List.mem_cons_self _ _))
          cases hx : qpGo rest (n + 1) l with
          | error e =>
            rw [hx] at h
            exact absurd h (by simp [Except.map])
          | ok vr =>
            obtain ⟨w1, w2, w3⟩ := vr
            rw [hx] at h
            simp only [Except.map, Except.ok.injEq, Prod.mk.injEq] at h
            have ih := qpGo_wf rest (n + 1) l hwfr hwl.1 hwl.2 w1 w2 w3 hx
            obtain ⟨h1, h2, h3⟩ := h
            rw [← h1, ← h2]
            refine ⟨⟨?_, ?_⟩, ih.2⟩
            · intro hm
              rcases List.mem_append.mp hm with hm | hm
              · exact hn (List.dropLast_subset _ hm)
              · exact ih.1.1 hm
            · intro hm
              rcases List.mem_append.mp hm with hm | hm
              · exact hr (List.dropLast_subset _ hm)
              · exact ih.1.2 hm
    · rw [qpGo_stop lines n f hend] at h
      simp only [Except.ok.injEq, Prod.mk.injEq] at h
      obtain ⟨h1, h2, h3⟩ := h
      rw [← h1, ← h2]
      exact ⟨⟨hn, hr⟩, hwf⟩

theorem b64Go_wf : ∀ (lines : List (List Char)) (n : Nat) (f : List Char),
    WfLines lines → '\n' ∉ pyStrip f → '\r' ∉ pyStrip f →
    ∀ val lines2 n2, b64Go lines n f = .ok (val, lines2, n2) →
      ('\n' ∉ val ∧ '\r' ∉ val) ∧ WfLines lines2
  | lines, n, f, hwf, hn, hr, val, lines2, n2, h => by
    by_cases hf : f = []
    · subst hf
      rw [b64Go_nilfrag] at h
      simp only [Except.ok.injEq, Prod.mk.injEq] at h
      obtain ⟨h1, h2, h3⟩ := h
      rw [← h1, ← h2]
      exact ⟨⟨by simp, by simp⟩, hwf⟩
    · match lines, hwf with
      | [], hwf =>
        rw [b64Go.eq_def] at h
        simp [hf] at h
      | l :: rest, hwf =>
        by_cases hm : startsWithContMark l
        · rw [b64Go_cont l rest n f hf hm] at h
          have hwfr : WfLines rest := fun x hx => hwf x (List.mem_cons_of_mem _ hx)
          have hwl := wfLine_rstripCRLF (hwf l (List.mem_cons_self _ _))
          cases hx : b64Go rest (n + 1) (rstripCRLF l) with
          | error e =>
            rw [hx] at h
            exact absurd h (by simp [Except.map])
          | ok vr =>
            obtain ⟨w1, w2, w3⟩ := vr
            rw [hx] at h
            simp only [Except.map, Except.ok.injEq, Prod.mk.injEq] at h
            have ih := b64Go_wf rest (n + 1) (rstripCRLF l) hwfr
              (fun hq => hwl.1 (mem_pyStrip hq)) (fun hq => hwl.2 (mem_pyStrip hq))
              w1 w2 w3 hx
            obtain ⟨h1, h2, h3⟩ := h
            rw [← h1, ← h2]
            refine ⟨⟨?_, ?_⟩, ih.2⟩
            · intro hq
              rcases List.mem_append.mp hq with hq | hq
              · exact hn hq
              · exact ih.1.1 hq
            · intro hq
              rcases List.mem_append.mp hq with hq | hq
              · exact hr hq
              · exact ih.1.2 hq
        · rw [b64Go.eq_def] at h
          by_cases hl : l = []
          · subst hl
            simp [hf] at h
          · simp [hf, hl, hm] at h

theorem read_vcard_property_wf (r : Reader) (version : PyVal) (hwf : WfLines r.lines) :
    ∀ op r2, read_vcard_property r version = .ok (op, r2) →
      WfLines r2.lines ∧ ∀ p, op = some p → GoodProp p := by
  intro op r2 h
  have hrnb := readNonblankLine_wf r.lines r.line_number hwf
  rcases hq : readNonblankLine r.lines r.line_number with ⟨o, lines1, n1⟩
  cases o with
  | none =>
    simp only [read_vcard_property, Except.ok.injEq, Prod.mk.injEq, hq] at h
    obtain ⟨h1, h2⟩ := h
    refine ⟨?_, ?_⟩
    · rw [← h2]
      exact hrnb.2 lines1 n1 hq
    · intro p hp
      rw [← h1] at hp
      exact absurd hp (by simp)
  | some line =>
    obtain ⟨hline, hwf1⟩ := hrnb.1 line lines1 n1 hq
    simp only [read_vcard_property, hq] at h
    cases hp : parse_vcard_property line with
    | none =>
      rw [hp] at h
      exact absurd h (by simp)
    | some prop =>
      simp only [hp] at h
      have hgood := parse_vcard_property_good line prop hline.1 hline.2 hp
      by_cases he1 : encodingOf prop = "quoted-printable".toList
      · rw [if_pos he1] at h
        cases hx : qpGo lines1 n1 prop.value with
        | error e =>
          rw [hx] at h
          exact absurd h (by simp [Except.map])
        | ok vr =>
          obtain ⟨w1, w2, w3⟩ := vr
          rw [hx] at h
          simp only [Except.map, Except.ok.injEq, Prod.mk.injEq] at h
          obtain ⟨h1, h2⟩ := h
          have hqwf := qpGo_wf lines1 n1 prop.value hwf1
            (fun hm => hgood.2.2.1 (mem_pyRstrip hm))
            (fun hm => hgood.2.2.2 (mem_pyRstrip hm)) w1 w2 w3 hx
          rw [← h2]
          refine ⟨hqwf.2, ?_⟩
          intro p hpeq
          rw [← Option.some.inj (h1.trans hpeq)]
          exact ⟨hgood.1, hgood.2.1, hqwf.1.1, hqwf.1.2⟩
      · rw [if_neg he1] at h
        by_cases he2 : encodingOf prop = "base64".toList
        · rw [if_pos he2] at h
          cases hx : b64Go lines1 n1 prop.value with
          | error e =>
            rw [hx] at h
            exact absurd h (by simp [Except.map])
          | ok vr =>
            obtain ⟨w1, w2, w3⟩ := vr
            rw [hx] at h
            simp only [Except.map, Except.ok.injEq, Prod.mk.injEq] at h
            obtain ⟨h1, h2⟩ := h
            have hbwf := b64Go_wf lines1 n1 prop.value hwf1
              (fun hm => hgood.2.2.1 (mem_pyStrip hm))
              (fun hm => hgood.2.2.2 (mem_pyStrip hm)) w1 w2 w3 hx
            rw [← h2]
            refine ⟨hbwf.2, ?_⟩
            intro p hpeq
            rw [← Option.some.inj (h1.trans hpeq)]
            exact ⟨hgood.1, hgood.2.1, hbwf.1.1, hbwf.1.2⟩
        · rw [if_neg he2] at h
          simp only [Except.ok.injEq, Prod.mk.injEq] at h
          obtain ⟨h1, h2⟩ := h
          have hfwf := foldedGo_wf lines1 n1 prop.value version hwf1
            hgood.2.2.1 hgood.2.2.2
          rw [← h2]
          refine ⟨hfwf.2, ?_⟩
          intro p hpeq
          rw [← Option.some.inj (h1.trans hpeq)]
          exact ⟨hgood.1, hgood.2.1, hfwf.1.1, hfwf.1.2⟩

/-! Shape preservation of `VCard.add_property`. -/


theorem addPropList_keys_spec (p : VCardProperty) :
    ∀ l : List (List Char × List VCardProperty),
      (addPropList p l).map Prod.fst =
        if p.name ∈ l.map Prod.fst then l.map Prod.fst else l.map Prod.fst ++ [p.name]
  | [] => by simp [addPropList]
  | (n, ps) :: rest => by
    rw [addPropList]
    by_cases hn : n = p.name
    · rw [if_pos hn]
      simp [hn]
    · rw [if_neg hn]
      have ih := addPropList_keys_spec p rest
      by_cases hm : p.name ∈ rest.map Prod.fst
      · rw [if_pos hm] at ih
        simp only [List.map_cons, ih]
        rw [if_pos (List.mem_cons_of_mem _ hm)]
      · rw [if_neg hm] at ih
        simp only [List.map_cons, ih]
        have : ¬ p.name ∈ n :: rest.map Prod.fst := by
          intro hx
          rcases List.mem_cons.mp hx with hx | hx
          · exact hn hx.symm
          · exact hm hx
        rw [if_neg this]
        simp

theorem addPropList_mem (p : VCardProperty) :
    ∀ (l : List (List Char × List VCardProperty)) (e : List Char × List VCardProperty),
      e ∈ addPropList p l →
      e ∈ l ∨ (e.1 = p.name ∧ e.2 = ((assocLookup l p.name).getD []) ++ [p])
  | [], e, h => by
    rw [addPropList] at h
    rcases List.mem_singleton.mp h with rfl
    right
    exact ⟨rfl, by simp [assocLookup]⟩
  | (n, ps) :: rest, e, h => by
    rw [addPropList] at h
    by_cases hn : n = p.name
    · rw [if_pos hn] at h
      rcases List.mem_cons.mp h with rfl | hm
      · right
        refine ⟨hn, ?_⟩
        simp [assocLookup, hn]
      · exact Or.inl (List.mem_cons.mpr (Or.inr hm))
    · rw [if_neg hn] at h
      rcases List.mem_cons.mp h with rfl | hm
      · exact Or.inl (List.mem_cons_self _ _)
      · rcases addPropList_mem p rest e hm with hx | ⟨hx1, hx2⟩
        · exact Or.inl (List.mem_cons_of_mem _ hx)
        · right
          refine ⟨hx1, ?_⟩
          rw [hx2]
          simp [assocLookup, hn]

theorem add_property_goodVC (vc : VCard) (p : VCardProperty) (hvc : GoodVC vc)
    (hp : GoodProp p) (hne : p.name ≠ "end".toList) (hna : p.name ≠ "agent".toList)
    (hnv : p.value ≠ "vcard".toList) : GoodVC (vc.add_property p) := by
  obtain ⟨hnd, hmem⟩ := hvc
  constructor
  · show ((addPropList p vc.properties).map Prod.fst).Nodup
    rw [addPropList_keys_spec]
    by_cases hm : p.name ∈ vc.properties.map Prod.fst
    · rw [if_pos hm]
      exact hnd
    · rw [if_neg hm]
      refine List.Nodup.append hnd (List.nodup_singleton _) ?_
      simp only [List.disjoint_singleton]
      exact hm
  · intro e he
    rcases addPropList_mem p vc.properties e he with he | ⟨he1, he2⟩
    · exact hmem e he
    · rw [he1]
      refine ⟨hne, hna, by rw [he2]; simp, ?_⟩
      intro q hq
      rw [he2] at hq
      rcases List.mem_append.mp hq with hq | hq
      · cases hx : assocLookup vc.properties p.name with
        | none =>
          rw [hx] at hq
          exact absurd hq (by simp)
        | some ps =>
          rw [hx] at hq
          have hent := hmem (p.name, ps) (assocLookup_mem _ _ _ hx)
          exact hent.2.2.2 q hq
      · rcases List.mem_singleton.mp hq with rfl
        exact ⟨rfl, hnv, hp⟩

theorem goodVC_empty : GoodVC {} :=
  ⟨List.nodup_nil, fun e he => absurd he (List.not_mem_nil e)⟩

/-- Shape invariant of the mutual reading loop: on a well-formed stream,
every successfully produced record satisfies `GoodVC` and the remaining
stream stays well-formed. -/
theorem readF_good : ∀ fuel : Nat,
    (∀ r : Reader, WfLines r.lines → ∀ ov r2, readVCardF fuel r = .ok (ov, r2) →
      WfLines r2.lines ∧ ∀ vc, ov = some vc → GoodVC vc) ∧
    (∀ (r : Reader) (vcard : VCard), WfLines r.lines → GoodVC vcard →
      ∀ vc r2, readBodyF fuel r vcard = .ok (vc, r2) → WfLines r2.lines ∧ GoodVC vc)
  | 0 => by
    constructor
    · intro r hwf ov r2 h
      exact absurd h (by simp [readVCardF])
    · intro r vcard hwf hvc vc r2 h
      exact absurd h (by simp [readBodyF])
  | fuel + 1 => by
    have ih := readF_good fuel
    constructor
    · intro r hwf ov r2 h
      rcases hq : read_vcard_property r (.str "2.1".toList) with e | ⟨op, r1⟩
      · simp only [readVCardF, hq] at h
        exact absurd h (by simp)
      · have hrpw := read_vcard_property_wf r _ hwf op r1 hq
        cases op with
        | none =>
          simp only [readVCardF, hq, Except.ok.injEq, Prod.mk.injEq] at h
          obtain ⟨h1, h2⟩ := h
          rw [← h2]
          refine ⟨hrpw.1, ?_⟩
          intro vc hv
          rw [← h1] at hv
          exact absurd hv (by simp)
        | some prop =>
          simp only [readVCardF, hq] at h
          by_cases hbv : prop.name = "begin".toList ∧ prop.value = "vcard".toList
          · rw [if_pos hbv] at h
            rcases hb : readBodyF fuel r1 {} with e | ⟨vc1, r2x⟩
            · rw [hb] at h
              exact absurd h (by simp [Except.map])
            · rw [hb] at h
              simp only [Except.map, Except.ok.injEq, Prod.mk.injEq] at h
              obtain ⟨h1, h2⟩ := h
              have hbody := ih.2 r1 {} hrpw.1 goodVC_empty vc1 r2x hb
              rw [← h2]
              refine ⟨hbody.1, ?_⟩
              intro vc hv
              rw [← h1] at hv
              rw [← Option.some.inj hv]
              exact hbody.2
          · rw [if_neg hbv] at h
            exact absurd h (by simp)
    · intro r vcard hwf hvc vc r2 h
      rcases hv : vcGetVersion vcard with _ | version
      · simp only [readBodyF, hv] at h
        exact absurd h (by simp)
      · rcases hq : read_vcard_property r version with e | ⟨op, r1⟩
        · simp only [readBodyF, hv, hq] at h
          exact absurd h (by simp)
        · have hrpw := read_vcard_property_wf r _ hwf op r1 hq
          cases op with
          | none =>
            simp only [readBodyF, hv, hq] at h
            exact absurd h (by simp)
          | some prop =>
            simp only [readBodyF, hv, hq] at h
            have hgp := hrpw.2 prop rfl
            by_cases hend : prop.name = "end".toList ∨ prop.value = "vcard".toList
            · rw [if_pos hend] at h
              simp only [Except.ok.injEq, Prod.mk.injEq] at h
              obtain ⟨h1, h2⟩ := h
              rw [← h1, ← h2]
              exact ⟨hrpw.1, hvc⟩
            · rw [if_neg hend] at h
              by_cases hag : prop.name = "agent".toList
              · rw [if_pos hag] at h
                by_cases h21 : pyValEqStr version "2.1".toList
                · rw [if_pos h21] at h
                  rcases hb : readVCardF fuel r1 with e | ⟨ov1, r2x⟩
                  · rw [hb] at h
                    exact absurd h (by simp)
                  · rw [hb] at h
                    have hvcf := ih.1 r1 hrpw.1 ov1 r2x hb
                    exact ih.2 r2x vcard hvcf.1 hvc vc r2 h
                · rw [if_neg h21] at h
                  exact ih.2 r1 vcard hrpw.1 hvc vc r2 h
              · rw [if_neg hag] at h
                rw [not_or] at hend
                exact ih.2 r1 (vcard.add_property prop) hrpw.1
                  (add_property_goodVC vcard prop hvc hgp hend.1 hag hend.2) vc r2 h

/-! Utilities for parsing a serialized property line. -/

theorem indexAnyAux_append_free (cs : List Char) :
    ∀ (u v : List Char), (∀ c ∈ u, c ∉ cs) →
      indexAnyAux cs (u ++ v) = (indexAnyAux cs v).map (· + u.length)
  | [], v, _ => by
    simp only [List.nil_append, List.length_nil]
    cases indexAnyAux cs v <;> simp
  | c :: u, v, hfree => by
    have ih := indexAnyAux_append_free cs u v (fun x hx => hfree x (List.mem_cons_of_mem _ hx))
    simp only [List.cons_append, indexAnyAux, List.append_eq]
    rw [if_neg (by simpa using hfree c (List.mem_cons_self _ _)), ih]
    cases indexAnyAux cs v with
    | none => simp
    | some m =>
      simp only [Option.map_some', List.length_cons]
      exact congrArg some (by omega)

theorem indexAnyAux_cons_hit (cs : List Char) (c : Char) (v : List Char) (h : c ∈ cs) :
    indexAnyAux cs (c :: v) = some 0 := by
  simp [indexAnyAux, h]

theorem getD_append_length : ∀ (u : List Char) (c : Char) (w : List Char),
    (u ++ c :: w).getD u.length ' ' = c
  | [], c, w => rfl
  | a :: u, c, w => getD_append_length u c w

theorem pySplitChar_no_sep (sep : Char) :
    ∀ s : List Char, sep ∉ s → pySplitChar sep s = [s]
  | [], _ => rfl
  | c :: cs, h => by
    have ih := pySplitChar_no_sep sep cs (fun hm => h (List.mem_cons_of_mem _ hm))
    have hc : ¬ c = sep := fun he => h (by rw [he]; exact List.mem_cons_self _ _)
    simp only [pySplitChar, ih, if_neg hc]

theorem pySplitChar_append_sep (sep : Char) :
    ∀ (u w : List Char), sep ∉ u →
      pySplitChar sep (u ++ sep :: w) = u :: pySplitChar sep w
  | [], w, _ => by
    rw [List.nil_append]
    cases hs : pySplitChar sep w with
    | nil => exact absurd hs (pySplitChar_ne_nil sep w)
    | cons r rs =>
      simp only [pySplitChar, hs]
      rw [if_true]
  | c :: u, w, hfree => by
    have ih := pySplitChar_append_sep sep u w (fun hm => hfree (List.mem_cons_of_mem _ hm))
    have hc : ¬ c = sep := fun he => hfree (by rw [he]; exact List.mem_cons_self _ _)
    cases hs : pySplitChar sep w with
    | nil => exact absurd hs (pySplitChar_ne_nil sep w)
    | cons r rs =>
      rw [hs] at ih
      rw [List.cons_append]
      simp only [pySplitChar, ih, if_neg hc, hs]

theorem pySplitChar_semiflatten (sep : Char) :
    ∀ (f0 : List Char) (frags : List (List Char)), sep ∉ f0 → (∀ f ∈ frags, sep ∉ f) →
      pySplitChar sep (f0 ++ (frags.map (sep :: ·)).flatten) = f0 :: frags
  | f0, [], h0, _ => by
    simp only [List.map_nil, List.flatten_nil, List.append_nil]
    exact pySplitChar_no_sep sep f0 h0
  | f0, f1 :: rest, h0, hfree => by
    have ih := pySplitChar_semiflatten sep f1 rest (hfree f1 (List.mem_cons_self _ _))
      (fun f hf => hfree f (List.mem_cons_of_mem _ hf))
    simp only [List.map_cons, List.flatten_cons, List.cons_append]
    rw [pySplitChar_append_sep sep f0 _ h0, ih]

theorem pySplitOnce_append_sep (sep : Char) :
    ∀ (u w : List Char), sep ∉ u →
      pySplitOnce sep (u ++ sep :: w) = (u, some w)
  | [], w, _ => by
    rw [List.nil_append]
    simp only [pySplitOnce]
    rw [if_true]
  | c :: u, w, hfree => by
    have ih := pySplitOnce_append_sep sep u w (fun hm => hfree (List.mem_cons_of_mem _ hm))
    have hc : ¬ c = sep := fun he => hfree (by rw [he]; exact List.mem_cons_self _ _)
    rw [List.cons_append]
    simp only [pySplitOnce, ih, if_neg hc]

theorem foldl_congr_mem {α β : Type} :
    ∀ (l : List β) (f g : α → β → α) (a : α),
      (∀ x ∈ l, ∀ acc, f acc x = g acc x) → l.foldl f a = l.foldl g a
  | [], _, _, _, _ => rfl
  | x :: l, f, g, a, h => by
    rw [List.foldl_cons, List.foldl_cons, h x (List.mem_cons_self _ _) a]
    exact foldl_congr_mem l f g _ (fun y hy => h y (List.mem_cons_of_mem _ hy))

/-! Re-accumulating sorted parameter fragments. -/

theorem addParamList_new :
    ∀ (acc : List (List Char × List (List Char))) (k v : List Char),
      k ∉ acc.map Prod.fst → addParamList k v acc = acc ++ [(k, [v])]
  | [], k, v, _ => rfl
  | (k1, vs) :: acc, k, v, hk => by
    have hk1 : ¬ k1 = k := by
      intro he
      exact hk (by rw [List.map_cons, he]; exact List.mem_cons_self _ _)
    have ih := addParamList_new acc k v (fun hm => hk (List.mem_cons_of_mem _ hm))
    simp only [addParamList, if_neg hk1, ih, List.cons_append]

theorem addParamList_skip :
    ∀ (acc : List (List Char × List (List Char))) (k v : List Char) (cur : List (List Char)),
      k ∉ acc.map Prod.fst →
      addParamList k v (acc ++ [(k, cur)]) =
        acc ++ [(k, if v ∈ cur then cur else cur ++ [v])]
  | [], k, v, cur, _ => by
    simp only [List.nil_append, addParamList]
    rw [if_true]
  | (k1, vs) :: acc, k, v, cur, hk => by
    have hk1 : ¬ k1 = k := by
      intro he
      exact hk (by rw [List.map_cons, he]; exact List.mem_cons_self _ _)
    have ih := addParamList_skip acc k v cur (fun hm => hk (List.mem_cons_of_mem _ hm))
    simp only [List.cons_append, addParamList, List.append_eq, if_neg hk1, ih]

theorem addParamList_fold_vals :
    ∀ (vs : List (List Char)) (acc : List (List Char × List (List Char)))
      (k : List Char) (cur : List (List Char)),
      k ∉ acc.map Prod.fst → (∀ v ∈ vs, v ∉ cur) → vs.Nodup →
      List.foldl (fun l v => addParamList k v l) (acc ++ [(k, cur)]) vs =
        acc ++ [(k, cur ++ vs)]
  | [], acc, k, cur, _, _, _ => by simp
  | v :: vs, acc, k, cur, hk, hnotin, hnd => by
    rw [List.foldl_cons, addParamList_skip acc k v cur hk,
      if_neg (hnotin v (List.mem_cons_self _ _))]
    have hnotin2 : ∀ u ∈ vs, u ∉ cur ++ [v] := by
      intro u hu hmem
      rcases List.mem_append.mp hmem with hm | hm
      · exact hnotin u (List.mem_cons_of_mem _ hu) hm
      · rcases List.mem_singleton.mp hm with rfl
        exact (List.nodup_cons.mp hnd).1 hu
    have ih := addParamList_fold_vals vs acc k (cur ++ [v]) hk hnotin2
      (List.nodup_cons.mp hnd).2
    rw [ih, List.append_assoc]
    simp

theorem addParamList_fold_group (k : List Char) (vs : List (List Char))
    (acc : List (List Char × List (List Char)))
    (hk : k ∉ acc.map Prod.fst) (hne : vs ≠ []) (hnd : vs.Nodup) :
    List.foldl (fun l v => addParamList k v l) acc vs = acc ++ [(k, vs)] := by
  cases vs with
  | nil => exact absurd rfl hne
  | cons v vs =>
    rw [List.foldl_cons, addParamList_new acc k v hk]
    have hnotin : ∀ u ∈ vs, u ∉ [v] := by
      intro u hu hm
      rcases List.mem_singleton.mp hm with rfl
      exact (List.nodup_cons.mp hnd).1 hu
    rw [addParamList_fold_vals vs acc k [v] hk hnotin (List.nodup_cons.mp hnd).2]
    simp

theorem addParamList_fold_groups :
    ∀ (keys : List (List Char)) (valsOf : List Char → List (List Char))
      (acc : List (List Char × List (List Char))),
      keys.Nodup → (∀ k ∈ keys, k ∉ acc.map Prod.fst) →
      (∀ k ∈ keys, valsOf k ≠ [] ∧ (valsOf k).Nodup) →
      List.foldl (fun l kv => addParamList kv.1 kv.2 l) acc
        ((keys.map (fun k => (valsOf k).map (fun v => (k, v)))).flatten) =
      acc ++ keys.map (fun k => (k, valsOf k))
  | [], _, acc, _, _, _ => by simp
  | k :: keys, valsOf, acc, hnd, hfresh, hvals => by
    simp only [List.map_cons, List.flatten_cons, List.foldl_append]
    rw [List.foldl_map]
    have h1 : List.foldl (fun l v => addParamList k v l) acc (valsOf k) =
        acc ++ [(k, valsOf k)] := by
      have := addParamList_fold_group k (valsOf k) acc
        (hfresh k (List.mem_cons_self _ _))
        (hvals k (List.mem_cons_self _ _)).1 (hvals k (List.mem_cons_self _ _)).2
      simpa using this
    have hfresh2 : ∀ k2 ∈ keys, k2 ∉ (acc ++ [(k, valsOf k)]).map Prod.fst := by
      intro k2 hk2 hm
      rw [List.map_append] at hm
      rcases List.mem_append.mp hm with hm | hm
      · exact hfresh k2 (List.mem_cons_of_mem _ hk2) hm
      · simp only [List.map_cons, List.map_nil] at hm
        rcases List.mem_singleton.mp hm with rfl
        exact (List.nodup_cons.mp hnd).1 hk2
    have ih := addParamList_fold_groups keys valsOf (acc ++ [(k, valsOf k)])
      (List.nodup_cons.mp hnd).2 hfresh2
      (fun k2 hk2 => hvals k2 (List.mem_cons_of_mem _ hk2))
    rw [show (fun (l : List (List Char × List (List Char)))
        (kv : List Char × List Char) => addParamList kv.1 kv.2 l) =
        (fun l kv => addParamList kv.1 kv.2 l) from rfl]
    rw [h1, ih]
    simp

theorem paramOfFragment_frag (k v : List Char) (hk : GoodKey k) (hv : GoodVal v) :
    paramOfFragment (pyUpper k ++ '=' :: pyUpper v) = (k, v) := by
  have hkeq : '=' ∉ pyUpper k :=
    fun hm => hk.2.2.2 ((mem_pyUpper_nonletter (by decide) (by decide)).mp hm)
  simp only [paramOfFragment, pySplitOnce_append_sep '=' (pyUpper k) (pyUpper v) hkeq]
  rw [pyStrip_pyUpper, hk.2.1, pyLower_pyUpper k hk.1,
    pyStrip_pyUpper, hv.2.1, pyLower_pyUpper v hv.1]

theorem foldl_add_parameter_params :
    ∀ (segs : List (List Char)) (pr : VCardProperty),
      List.foldl (fun pr seg =>
        pr.add_parameter (paramOfFragment seg).1 (paramOfFragment seg).2) pr segs =
      { pr with parameters := List.foldl (fun l seg =>
          addParamList (paramOfFragment seg).1 (paramOfFragment seg).2 l) pr.parameters segs }
  | [], pr => rfl
  | seg :: segs, pr => by
    rw [List.foldl_cons, List.foldl_cons]
    exact foldl_add_parameter_params segs _

theorem flatten_semi {α : Type} (sep : Char) :
    ∀ (L : List α) (g : α → List (List Char)) (h : α → List Char → List Char),
      (L.map (fun x => ((g x).map (fun y => sep :: h x y)).flatten)).flatten =
      (((L.map (fun x => (g x).map (h x))).flatten).map (sep :: ·)).flatten
  | [], _, _ => rfl
  | x :: L, g, h => by
    simp only [List.map_cons, List.flatten_cons, List.map_append, List.flatten_append,
      List.map_map]
    rw [flatten_semi sep L g h]
    rfl

theorem flatten_map_pair {α β : Type} (hf : α → β → List Char) :
    ∀ (L : List α) (g : α → List β),
      ((L.map (fun x => (g x).map (fun y => (x, y)))).flatten).map
        (fun p : α × β => hf p.1 p.2) =
      (L.map (fun x => (g x).map (hf x))).flatten
  | [], _ => rfl
  | x :: L, g => by
    simp only [List.map_cons, List.flatten_cons, List.map_append, List.map_map]
    rw [flatten_map_pair hf L g]
    rfl

theorem mem_flatten_pair {α β : Type} :
    ∀ (L : List α) (g : α → List β) (p : α × β),
      p ∈ (L.map (fun x => (g x).map (fun y => (x, y)))).flatten →
      p.1 ∈ L ∧ p.2 ∈ g p.1
  | [], _, p, h => absurd h (by simp)
  | x :: L, g, p, h => by
    simp only [List.map_cons, List.flatten_cons, List.mem_append] at h
    rcases h with h | h
    · rw [List.mem_map] at h
      obtain ⟨y, hy, rfl⟩ := h
      exact ⟨List.mem_cons_self _ _, hy⟩
    · have ih := mem_flatten_pair L g p h
      exact ⟨List.mem_cons_of_mem _ ih.1, ih.2⟩

/-! Parsing a line presented in serialized shape. -/

theorem parse_decomp_noparams (nameU value : List Char)
    (hfreeN : ∀ c ∈ nameU, c ∉ ([';', ':'] : List Char)) :
    parse_vcard_property (nameU ++ ':' :: value) =
      some { name := pyLower (lastDotSegment nameU),
             value := if pyLower (lastDotSegment nameU) = "begin".toList ∨
                 pyLower (lastDotSegment nameU) = "end".toList then pyLower value
               else value } := by
  have hidx1 : _index_any (nameU ++ ':' :: value) [';', ':'] 0 = some nameU.length := by
    unfold _index_any
    rw [List.drop_zero]
    rw [indexAnyAux_append_free [';', ':'] nameU _ hfreeN]
    rw [indexAnyAux_cons_hit _ _ _ (by decide)]
    simp
  have hgd : (nameU ++ ':' :: value).getD nameU.length ' ' = ':' :=
    getD_append_length nameU ':' value
  have hdrop : (nameU ++ ':' :: value).drop (nameU.length + 1) = value := by
    rw [show nameU ++ ':' :: value = (nameU ++ [':']) ++ value by simp]
    exact List.drop_left' (by simp)
  have htake : (nameU ++ ':' :: value).take nameU.length = nameU := by
    exact List.take_left' rfl
  simp only [parse_vcard_property, hidx1]
  rw [if_neg (by rw [hgd]; decide)]
  rw [hdrop, htake]

theorem parse_decomp_params (nameU wptail value : List Char)
    (hfreeN : ∀ c ∈ nameU, c ∉ ([';', ':'] : List Char))
    (hfreeW : ':' ∉ wptail) :
    parse_vcard_property (nameU ++ ';' :: (wptail ++ ':' :: value)) =
      some { ((pySplitChar ';' wptail).filter (· ≠ [])).foldl
          (fun (pr : VCardProperty) seg =>
            pr.add_parameter (paramOfFragment seg).1 (paramOfFragment seg).2)
          ({ name := pyLower (lastDotSegment nameU) } : VCardProperty) with
        value := if pyLower (lastDotSegment nameU) = "begin".toList ∨
            pyLower (lastDotSegment nameU) = "end".toList then pyLower value
          else value } := by
  have hidx1 : _index_any (nameU ++ ';' :: (wptail ++ ':' :: value)) [';', ':'] 0 =
      some nameU.length := by
    unfold _index_any
    rw [List.drop_zero]
    rw [indexAnyAux_append_free [';', ':'] nameU _ hfreeN]
    rw [indexAnyAux_cons_hit _ _ _ (by decide)]
    simp
  have hgd : (nameU ++ ';' :: (wptail ++ ':' :: value)).getD nameU.length ' ' = ';' :=
    getD_append_length nameU ';' (wptail ++ ':' :: value)
  have hfreeW2 : ∀ c ∈ wptail, c ∉ ([':'] : List Char) := by
    intro c hc hm
    rcases List.mem_singleton.mp hm with rfl
    exact hfreeW hc
  have hidx2 : _index_any (nameU ++ ';' :: (wptail ++ ':' :: value)) [':']
      (nameU.length + 1) = some (nameU.length + 1 + wptail.length) := by
    unfold _index_any
    have hdrop : (nameU ++ ';' :: (wptail ++ ':' :: value)).drop (nameU.length + 1) =
        wptail ++ ':' :: value := by
      rw [show nameU ++ ';' :: (wptail ++ ':' :: value) =
          (nameU ++ [';']) ++ (wptail ++ ':' :: value) by simp]
      exact List.drop_left' (by simp)
    rw [hdrop]
    rw [indexAnyAux_append_free [':'] wptail _ hfreeW2]
    rw [indexAnyAux_cons_hit _ _ _ (by decide)]
    simp only [Option.map_some']
    exact congrArg some (by omega)
  have htake2 : (nameU ++ ';' :: (wptail ++ ':' :: value)).take
      (nameU.length + 1 + wptail.length) = (nameU ++ [';']) ++ wptail := by
    rw [show nameU ++ ';' :: (wptail ++ ':' :: value) =
        ((nameU ++ [';']) ++ wptail) ++ (':' :: value) by simp]
    exact List.take_left' (by simp; omega)
  have hdrop2 : ((nameU ++ [';']) ++ wptail).drop (nameU.length + 1) = wptail :=
    List.drop_left' (by simp)
  have hdropv : (nameU ++ ';' :: (wptail ++ ':' :: value)).drop
      (nameU.length + 1 + wptail.length + 1) = value := by
    rw [show nameU ++ ';' :: (wptail ++ ':' :: value) =
        (((nameU ++ [';']) ++ wptail) ++ [':']) ++ value by simp]
    exact List.drop_left' (by simp; omega)
  have htake1 : (nameU ++ ';' :: (wptail ++ ':' :: value)).take nameU.length = nameU :=
    List.take_left' rfl
  simp only [parse_vcard_property, hidx1]
  rw [if_pos hgd]
  simp only [hidx2]
  rw [htake2, hdrop2, hdropv, htake1]

theorem assocLookup_fst_mem {β : Type} :
    ∀ (l : List (List Char × β)) (k : List Char), k ∈ l.map Prod.fst →
      ∃ v, assocLookup l k = some v
  | [], k, h => absurd h (by simp)
  | (k1, v1) :: rest, k, h => by
    rw [assocLookup]
    by_cases hk : k1 = k
    · exact ⟨v1, by rw [if_pos hk]⟩
    · rw [if_neg hk]
      refine assocLookup_fst_mem rest k ?_
      rcases List.mem_cons.mp h with he | hm
      · exact absurd he.symm hk
      · exact hm

theorem key_mem_good (ps : List (List Char × List (List Char))) (hps : GoodParams ps)
    (k : List Char) (hk : k ∈ ps.map Prod.fst) : GoodKey k := by
  rw [List.mem_map] at hk
  obtain ⟨e, he, rfl⟩ := hk
  exact (hps.2 e he).1

theorem lookup_vals_good (ps : List (List Char × List (List Char))) (hps : GoodParams ps)
    (k : List Char) (hk : k ∈ ps.map Prod.fst) :
    (assocLookup ps k).getD [] ≠ [] ∧ ((assocLookup ps k).getD []).Nodup ∧
      ∀ v ∈ (assocLookup ps k).getD [], GoodVal v := by
  obtain ⟨vs, hvs⟩ := assocLookup_fst_mem ps k hk
  have he := hps.2 (k, vs) (assocLookup_mem ps k vs hvs)
  rw [hvs]
  exact ⟨he.2.1, he.2.2.1, he.2.2.2⟩

theorem upper_name_free (nm : List Char) (h1 : ';' ∉ nm) (h2 : ':' ∉ nm) :
    ∀ c ∈ pyUpper nm, c ∉ ([';', ':'] : List Char) := by
  intro c hc hm
  rcases List.mem_pair.mp hm with rfl | rfl
  · exact h1 ((mem_pyUpper_nonletter (by decide) (by decide)).mp hc)
  · exact h2 ((mem_pyUpper_nonletter (by decide) (by decide)).mp hc)

theorem lastDot_upper (nm : List Char) (h : GoodName nm) :
    pyLower (lastDotSegment (pyUpper nm)) = nm := by
  have hdot : '.' ∉ pyUpper nm :=
    fun hm => h.2.2 ((mem_pyUpper_nonletter (by decide) (by decide)).mp hm)
  unfold lastDotSegment
  rw [pySplitChar_no_sep '.' _ hdot]
  show pyLower (pyUpper nm) = nm
  exact pyLower_pyUpper nm h.1

theorem writeParams_mem (ps : List (List Char × List (List Char))) (x : Char)
    (hx : x ∈ writeParams ps) :
    x = ';' ∨ x = '=' ∨ (∃ e ∈ ps, x ∈ pyUpper e.1) ∨
      (∃ e ∈ ps, ∃ v ∈ e.2, x ∈ pyUpper v) := by
  unfold writeParams at hx
  rw [List.mem_flatten] at hx
  obtain ⟨b, hb, hxb⟩ := hx
  rw [List.mem_map] at hb
  obtain ⟨k, hk, rfl⟩ := hb
  rw [List.mem_flatten] at hxb
  obtain ⟨fr, hfr, hxfr⟩ := hxb
  rw [List.mem_map] at hfr
  obtain ⟨v, hv, rfl⟩ := hfr
  have hkmem : k ∈ ps.map Prod.fst := (List.perm_insertionSort _ _).subset hk
  have hvmem : v ∈ (assocLookup ps k).getD [] := (List.perm_insertionSort _ _).subset hv
  rcases List.mem_cons.mp hxfr with rfl | hxa
  · exact Or.inl rfl
  · rcases List.mem_append.mp hxa with hxk | hxv
    · refine Or.inr (Or.inr (Or.inl ?_))
      rw [List.mem_map] at hkmem
      obtain ⟨e, he, rfl⟩ := hkmem
      exact ⟨e, he, hxk⟩
    · rcases List.mem_cons.mp hxv with rfl | hxv2
      · exact Or.inr (Or.inl rfl)
      · refine Or.inr (Or.inr (Or.inr ?_))
        obtain ⟨vs, hvs⟩ := assocLookup_fst_mem ps k hkmem
        rw [hvs] at hvmem
        exact ⟨(k, vs), assocLookup_mem ps k vs hvs, v, hvmem, hxv2⟩

theorem writeParams_free (ps : List (List Char × List (List Char))) (hps : GoodParams ps) :
    ':' ∉ writeParams ps ∧ '\n' ∉ writeParams ps ∧ '\r' ∉ writeParams ps := by
  refine ⟨?_, ?_, ?_⟩ <;> intro hm
  · rcases writeParams_mem ps ':' hm with h | h | ⟨e, he, h⟩ | ⟨e, he, v, hv, h⟩
    · exact absurd h (by decide)
    · exact absurd h (by decide)
    · exact ((hps.2 e he).1.2.2.1).2.1
        ((mem_pyUpper_nonletter (by decide) (by decide)).mp h)
    · exact (((hps.2 e he).2.2.2 v hv).2.2).2.1
        ((mem_pyUpper_nonletter (by decide) (by decide)).mp h)
  · rcases writeParams_mem ps '\n' hm with h | h | ⟨e, he, h⟩ | ⟨e, he, v, hv, h⟩
    · exact absurd h (by decide)
    · exact absurd h (by decide)
    · exact ((hps.2 e he).1.2.2.1).2.2.1
        ((mem_pyUpper_nonletter (by decide) (by decide)).mp h)
    · exact (((hps.2 e he).2.2.2 v hv).2.2).2.2.1
        ((mem_pyUpper_nonletter (by decide) (by decide)).mp h)
  · rcases writeParams_mem ps '\r' hm with h | h | ⟨e, he, h⟩ | ⟨e, he, v, hv, h⟩
    · exact absurd h (by decide)
    · exact absurd h (by decide)
    · exact ((hps.2 e he).1.2.2.1).2.2.2
        ((mem_pyUpper_nonletter (by decide) (by decide)).mp h)
    · exact (((hps.2 e he).2.2.2 v hv).2.2).2.2.2
        ((mem_pyUpper_nonletter (by decide) (by decide)).mp h)

theorem foldl_addparam_frags :
    ∀ (pairs : List (List Char × List Char)) (acc : List (List Char × List (List Char))),
      (∀ kv ∈ pairs, GoodKey kv.1 ∧ GoodVal kv.2) →
      List.foldl (fun l seg => addParamList (paramOfFragment seg).1 (paramOfFragment seg).2 l)
        acc (pairs.map (fun kv => pyUpper kv.1 ++ '=' :: pyUpper kv.2)) =
      List.foldl (fun l kv => addParamList kv.1 kv.2 l) acc pairs
  | [], _, _ => rfl
  | kv :: pairs, acc, hgood => by
    rw [List.map_cons, List.foldl_cons, List.foldl_cons]
    rw [paramOfFragment_frag kv.1 kv.2 (hgood kv (List.mem_cons_self _ _)).1
      (hgood kv (List.mem_cons_self _ _)).2]
    exact foldl_addparam_frags pairs _ (fun x hx => hgood x (List.mem_cons_of_mem _ hx))

theorem frags_eq_pairs_map (K : List (List Char)) (valsOf : List Char → List (List Char)) :
    (K.map (fun k => (valsOf k).map (fun v => pyUpper k ++ '=' :: pyUpper v))).flatten =
    ((K.map (fun k => (valsOf k).map (fun v => (k, v)))).flatten).map
      (fun kv => pyUpper kv.1 ++ '=' :: pyUpper kv.2) := by
  induction K with
  | nil => rfl
  | cons k K ih =>
    simp only [List.map_cons, List.flatten_cons, List.map_append, List.map_map]
    rw [ih]
    rfl

theorem writeParams_nil : writeParams [] = [] := rfl

theorem parse_writeBody (p : VCardProperty) (hp : GoodProp p)
    (hbv : p.name = "begin".toList ∨ p.name = "end".toList → pyLower p.value = p.value) :
    parse_vcard_property (pyUpper p.name ++ (writeParams p.parameters ++ ':' :: p.value)) =
      some (roundProp p) := by
  have hfreeN : ∀ c ∈ pyUpper p.name, c ∉ ([';', ':'] : List Char) :=
    upper_name_free p.name hp.1.2.1.1 hp.1.2.1.2.1
  by_cases hpp : p.parameters = []
  · rw [hpp, writeParams_nil, List.nil_append]
    rw [parse_decomp_noparams (pyUpper p.name) p.value hfreeN]
    rw [lastDot_upper p.name hp.1]
    unfold roundProp sortedParams
    rw [hpp]
    by_cases hbe : p.name = "begin".toList ∨ p.name = "end".toList
    · rw [if_pos hbe, hbv hbe]
      rfl
    · rw [if_neg hbe]
      rfl
  · have hps : GoodParams p.parameters := hp.2.1
    have hKperm := List.perm_insertionSort (fun a b => pyStrLe a b = true)
      (p.parameters.map Prod.fst)
    have hKnd : ((p.parameters.map Prod.fst).insertionSort
        (fun a b => pyStrLe a b = true)).Nodup := (hKperm.nodup_iff).mpr hps.1
    have hgoodK : ∀ k ∈ (p.parameters.map Prod.fst).insertionSort
        (fun a b => pyStrLe a b = true), GoodKey k :=
      fun k hk => key_mem_good _ hps k (hKperm.subset hk)
    have hvalsK : ∀ k ∈ (p.parameters.map Prod.fst).insertionSort
        (fun a b => pyStrLe a b = true),
        ((assocLookup p.parameters k).getD []).insertionSort
          (fun a b => pyStrLe a b = true) ≠ [] ∧
        (((assocLookup p.parameters k).getD []).insertionSort
          (fun a b => pyStrLe a b = true)).Nodup ∧
        ∀ v ∈ ((assocLookup p.parameters k).getD []).insertionSort
          (fun a b => pyStrLe a b = true), GoodVal v := by
      intro k hk
      have hlv := lookup_vals_good _ hps k (hKperm.subset hk)
      have hvperm := List.perm_insertionSort (fun a b => pyStrLe a b = true)
        ((assocLookup p.parameters k).getD [])
      refine ⟨?_, (hvperm.nodup_iff).mpr hlv.2.1, fun v hv => hlv.2.2 v (hvperm.subset hv)⟩
      intro h0
      have hl := hvperm.length_eq
      rw [h0] at hl
      exact hlv.1 (List.length_eq_zero.mp hl.symm)
    have hwp : writeParams p.parameters =
        ((((p.parameters.map Prod.fst).insertionSort (fun a b => pyStrLe a b = true)).map
            (fun k => (((assocLookup p.parameters k).getD []).insertionSort
              (fun a b => pyStrLe a b = true)).map
                (fun v => pyUpper k ++ '=' :: pyUpper v))).flatten.map (';' :: ·)).flatten := by
      unfold writeParams
      exact flatten_semi ';' _ _ (fun k v => pyUpper k ++ '=' :: pyUpper v)
    have hfragshape : ∀ f ∈ (((p.parameters.map Prod.fst).insertionSort
        (fun a b => pyStrLe a b = true)).map
          (fun k => (((assocLookup p.parameters k).getD []).insertionSort
            (fun a b => pyStrLe a b = true)).map
              (fun v => pyUpper k ++ '=' :: pyUpper v))).flatten,
        ∃ k v, GoodKey k ∧ GoodVal v ∧ f = pyUpper k ++ '=' :: pyUpper v := by
      intro f hf
      rw [List.mem_flatten] at hf
      obtain ⟨b, hb, hfb⟩ := hf
      rw [List.mem_map] at hb
      obtain ⟨k, hk, rfl⟩ := hb
      rw [List.mem_map] at hfb
      obtain ⟨v, hv, rfl⟩ := hfb
      exact ⟨k, v, hgoodK k hk, (hvalsK k hk).2.2 v hv, rfl⟩
    have hfragsfree : ∀ f ∈ (((p.parameters.map Prod.fst).insertionSort
        (fun a b => pyStrLe a b = true)).map
          (fun k => (((assocLookup p.parameters k).getD []).insertionSort
            (fun a b => pyStrLe a b = true)).map
              (fun v => pyUpper k ++ '=' :: pyUpper v))).flatten, ';' ∉ f := by
      intro f hf hsemi
      obtain ⟨k, v, hk, hv, rfl⟩ := hfragshape f hf
      rcases List.mem_append.mp hsemi with hm | hm
      · exact hk.2.2.1.1 ((mem_pyUpper_nonletter (by decide) (by decide)).mp hm)
      · rcases List.mem_cons.mp hm with he | hm2
        · exact absurd he (by decide)
        · exact hv.2.2.1 ((mem_pyUpper_nonletter (by decide) (by decide)).mp hm2)
    have hfragsnonnil : ∀ f ∈ (((p.parameters.map Prod.fst).insertionSort
        (fun a b => pyStrLe a b = true)).map
          (fun k => (((assocLookup p.parameters k).getD []).insertionSort
            (fun a b => pyStrLe a b = true)).map
              (fun v => pyUpper k ++ '=' :: pyUpper v))).flatten, f ≠ [] := by
      intro f hf
      obtain ⟨k, v, _, _, rfl⟩ := hfragshape f hf
      exact List.ne_nil_of_mem (List.mem_append_right _ (List.mem_cons_self _ _))
    have hmapne : p.parameters.map Prod.fst ≠ [] :=
      fun h0 => hpp (List.map_eq_nil.mp h0)
    have hKne : (p.parameters.map Prod.fst).insertionSort
        (fun a b => pyStrLe a b = true) ≠ [] := by
      intro h0
      have hl := hKperm.length_eq
      rw [h0] at hl
      exact hmapne (List.length_eq_zero.mp hl.symm)
    have hfragsne : (((p.parameters.map Prod.fst).insertionSort
        (fun a b => pyStrLe a b = true)).map
          (fun k => (((assocLookup p.parameters k).getD []).insertionSort
            (fun a b => pyStrLe a b = true)).map
              (fun v => pyUpper k ++ '=' :: pyUpper v))).flatten ≠ [] := by
      obtain ⟨k0, K2, hK⟩ := List.exists_cons_of_ne_nil hKne
      intro h0
      rw [hK, List.map_cons, List.flatten_cons] at h0
      have hnil := List.append_eq_nil.mp h0
      refine (hvalsK k0 ?_).1 (List.map_eq_nil.mp hnil.1)
      rw [hK]
      exact List.mem_cons_self _ _
    obtain ⟨f0, frest, hfr⟩ := List.exists_cons_of_ne_nil hfragsne
    have hwptail : writeParams p.parameters =
        ';' :: (f0 ++ (frest.map (';' :: ·)).flatten) := by
      rw [hwp, hfr]
      simp
    have hfreeW : ':' ∉ f0 ++ (frest.map (';' :: ·)).flatten := by
      intro hm
      refine (writeParams_free p.parameters hps).1 ?_
      rw [hwptail]
      exact List.mem_cons_of_mem _ hm
    rw [hwptail, List.cons_append]
    rw [parse_decomp_params (pyUpper p.name) _ p.value hfreeN hfreeW]
    rw [lastDot_upper p.name hp.1]
    rw [pySplitChar_semiflatten ';' f0 frest
      (hfragsfree f0 (by rw [hfr]; exact List.mem_cons_self _ _))
      (fun f hf => hfragsfree f (by rw [hfr]; exact List.mem_cons_of_mem _ hf))]
    rw [List.filter_eq_self.mpr (fun a ha => by
      simpa using hfragsnonnil a (by rw [hfr]; exact ha))]
    rw [foldl_add_parameter_params]
    rw [← hfr, frags_eq_pairs_map]
    rw [foldl_addparam_frags _ _ (fun kv hkv => by
      have hm := mem_flatten_pair _ _ kv hkv
      exact ⟨hgoodK kv.1 hm.1, (hvalsK kv.1 hm.1).2.2 kv.2 hm.2⟩)]
    rw [addParamList_fold_groups _ _ [] hKnd (fun k _ => by simp)
      (fun k hk => ⟨(hvalsK k hk).1, (hvalsK k hk).2.1⟩)]
    unfold roundProp sortedParams
    by_cases hbe : p.name = "begin".toList ∨ p.name = "end".toList
    · rw [if_pos hbe, hbv hbe]
      rfl
    · rw [if_neg hbe]
      rfl

/-! Reading back a serialized property line. -/

theorem writePropertyLine_eq (p : VCardProperty) :
    writePropertyLine p =
      (pyUpper p.name ++ (writeParams p.parameters ++ ':' :: p.value)) ++ ['\n'] := by
  unfold writePropertyLine
  simp

theorem writeLineBody_free (p : VCardProperty) (hp : GoodProp p) :
    '\n' ∉ (pyUpper p.name ++ (writeParams p.parameters ++ ':' :: p.value)) ∧
    '\r' ∉ (pyUpper p.name ++ (writeParams p.parameters ++ ':' :: p.value)) := by
  constructor
  · intro hm
    rcases List.mem_append.mp hm with hm | hm
    · exact hp.1.2.1.2.2.1 ((mem_pyUpper_nonletter (by decide) (by decide)).mp hm)
    · rcases List.mem_append.mp hm with hm | hm
      · exact (writeParams_free p.parameters hp.2.1).2.1 hm
      · rcases List.mem_cons.mp hm with he | hm2
        · exact absurd he (by decide)
        · exact hp.2.2.1 hm2
  · intro hm
    rcases List.mem_append.mp hm with hm | hm
    · exact hp.1.2.1.2.2.2 ((mem_pyUpper_nonletter (by decide) (by decide)).mp hm)
    · rcases List.mem_append.mp hm with hm | hm
      · exact (writeParams_free p.parameters hp.2.1).2.2 hm
      · rcases List.mem_cons.mp hm with he | hm2
        · exact absurd he (by decide)
        · exact hp.2.2.2 hm2

theorem wfLine_writePropertyLine (p : VCardProperty) (hp : GoodProp p) :
    WfLine (writePropertyLine p) := by
  rw [writePropertyLine_eq]
  have hfree := writeLineBody_free p hp
  refine ⟨?_, _, rfl, hfree.1⟩
  intro hm
  rcases List.mem_append.mp hm with hm | hm
  · exact hfree.2 hm
  · rcases List.mem_singleton.mp hm with he
    exact absurd he (by decide)

theorem rstripCRLF_writePropertyLine (p : VCardProperty) (hp : GoodProp p) :
    rstripCRLF (writePropertyLine p) =
      pyUpper p.name ++ (writeParams p.parameters ++ ':' :: p.value) := by
  rw [writePropertyLine_eq]
  exact rstripCRLF_terminated (writeLineBody_free p hp).1 (writeLineBody_free p hp).2

theorem writeLineBody_ne_nil (p : VCardProperty) :
    pyUpper p.name ++ (writeParams p.parameters ++ ':' :: p.value) ≠ [] := by
  intro h0
  have := List.append_eq_nil.mp h0
  have := List.append_eq_nil.mp this.2
  exact absurd this.2 (by simp)

theorem flatten_head_semi :
    ∀ L : List (List Char), (∀ b ∈ L, b = [] ∨ ∃ t, b = ';' :: t) →
      L.flatten = [] ∨ ∃ t, L.flatten = ';' :: t
  | [], _ => Or.inl rfl
  | b :: L, h => by
    rcases h b (List.mem_cons_self _ _) with rfl | ⟨t, rfl⟩
    · rw [List.flatten_cons, List.nil_append]
      exact flatten_head_semi L (fun x hx => h x (List.mem_cons_of_mem _ hx))
    · exact Or.inr ⟨t ++ L.flatten, by simp⟩

theorem writeParams_head (ps : List (List Char × List (List Char))) :
    writeParams ps = [] ∨ ∃ t, writeParams ps = ';' :: t := by
  unfold writeParams
  refine flatten_head_semi _ ?_
  intro b hb
  rw [List.mem_map] at hb
  obtain ⟨k, _, rfl⟩ := hb
  refine flatten_head_semi _ ?_
  intro c hc
  rw [List.mem_map] at hc
  obtain ⟨v, _, rfl⟩ := hc
  exact Or.inr ⟨_, rfl⟩

theorem writeLine_not_cont (q : VCardProperty) (h : ¬ startsWithContMark q.name) :
    ¬ startsWithContMark (writePropertyLine q) := by
  rw [writePropertyLine_eq]
  cases hnm : q.name with
  | nil =>
    rcases writeParams_head q.parameters with hw | ⟨t, hw⟩
    · simp [startsWithContMark, hnm, hw, pyUpper]
    · simp [startsWithContMark, hnm, hw, pyUpper]
  | cons c nm =>
    rw [hnm] at h
    simp only [startsWithContMark, List.head?_cons, Option.some.injEq] at h
    have hc : pyUpperChar c ≠ '\t' ∧ pyUpperChar c ≠ ' ' := by
      constructor
      · intro he
        exact h (by rw [(pyUpperChar_eq_nonletter (by decide) (by decide)).mp he]; simp)
      · intro he
        exact h (by rw [(pyUpperChar_eq_nonletter (by decide) (by decide)).mp he]; simp)
    simp [startsWithContMark, hnm, pyUpper, hc.1, hc.2]

theorem assocLookup_map_keys {α : Type} (f : List Char → α) :
    ∀ (K : List (List Char)) (k : List Char),
      assocLookup (K.map (fun x => (x, f x))) k = if k ∈ K then some (f k) else none
  | [], k => by simp [assocLookup]
  | x :: K, k => by
    rw [List.map_cons, assocLookup]
    by_cases hx : x = k
    · rw [if_pos hx, hx, if_pos (List.mem_cons_self _ _)]
    · rw [if_neg hx, assocLookup_map_keys f K k]
      by_cases hk : k ∈ K
      · rw [if_pos hk, if_pos (List.mem_cons_of_mem _ hk)]
      · rw [if_neg hk, if_neg (by
          intro hm
          rcases List.mem_cons.mp hm with he | hm2
          · exact hx he.symm
          · exact hk hm2)]

theorem assocLookup_not_mem {β : Type} :
    ∀ (l : List (List Char × β)) (k : List Char), k ∉ l.map Prod.fst →
      assocLookup l k = none
  | [], _, _ => rfl
  | (k1, v1) :: rest, k, h => by
    rw [assocLookup]
    rw [if_neg (fun he => h (by rw [List.map_cons, he]; exact List.mem_cons_self _ _))]
    exact assocLookup_not_mem rest k (fun hm => h (List.mem_cons_of_mem _ hm))

theorem assocLookup_sortedParams (ps : List (List Char × List (List Char))) (k : List Char) :
    assocLookup (sortedParams ps) k =
      (assocLookup ps k).map
        (fun vs => vs.insertionSort (fun a b => pyStrLe a b = true)) := by
  unfold sortedParams
  rw [assocLookup_map_keys]
  have hperm := List.perm_insertionSort (fun a b => pyStrLe a b = true) (ps.map Prod.fst)
  by_cases hk : k ∈ (ps.map Prod.fst).insertionSort (fun a b => pyStrLe a b = true)
  · rw [if_pos hk]
    obtain ⟨vs, hvs⟩ := assocLookup_fst_mem ps k (hperm.subset hk)
    rw [hvs]
    rfl
  · rw [if_neg hk]
    rw [assocLookup_not_mem ps k (fun hm => hk (hperm.mem_iff.mpr hm))]
    rfl

theorem encodingOf_roundProp_ne (p : VCardProperty)
    (henc : ∀ v ∈ (assocLookup p.parameters "encoding".toList).getD [],
      v ≠ "quoted-printable".toList ∧ v ≠ "base64".toList) :
    encodingOf (roundProp p) ≠ "quoted-printable".toList ∧
    encodingOf (roundProp p) ≠ "base64".toList := by
  unfold encodingOf roundProp
  simp only []
  rw [assocLookup_sortedParams]
  cases hx : assocLookup p.parameters "encoding".toList with
  | none =>
    constructor <;> simp [Option.map_none']
    <;> decide
  | some vs =>
    rw [hx] at henc
    simp only [Option.map_some', Option.getD_some]
    have hperm := List.perm_insertionSort (fun a b => pyStrLe a b = true) vs
    cases hs : vs.insertionSort (fun a b => pyStrLe a b = true) with
    | nil =>
      constructor <;> simp [List.headD] <;> decide
    | cons a t =>
      have ha : a ∈ vs := hperm.subset (by rw [hs]; exact List.mem_cons_self _ _)
      simp only [List.headD_cons]
      exact henc a ha

theorem add_property_nonnil (vc : VCard) (p : VCardProperty)
    (h : ∀ e ∈ vc.properties, e.2 ≠ []) :
    ∀ e ∈ (vc.add_property p).properties, e.2 ≠ [] := by
  intro e he
  rcases addPropList_mem p vc.properties e he with he2 | ⟨_, he2⟩
  · exact h e he2
  · rw [he2]
    simp

theorem vcGetVersion_isSome (vc : VCard) (h : ∀ e ∈ vc.properties, e.2 ≠ []) :
    ∃ ver, vcGetVersion vc = some ver := by
  unfold vcGetVersion
  cases hx : assocLookup vc.properties "version".toList with
  | none => exact ⟨_, rfl⟩
  | some vs =>
    cases vs with
    | nil =>
      have := h ("version".toList, []) (assocLookup_mem _ _ _ hx)
      exact absurd rfl this
    | cons q qs => exact ⟨_, rfl⟩

theorem read_vcard_property_writeLine (q : VCardProperty) (rest : List (List Char))
    (n : Nat) (ver : PyVal) (hq : GoodProp q)
    (hbv : q.name = "begin".toList ∨ q.name = "end".toList → pyLower q.value = q.value)
    (henc : ∀ v ∈ (assocLookup q.parameters "encoding".toList).getD [],
      v ≠ "quoted-printable".toList ∧ v ≠ "base64".toList)
    (hnext : rest = [] ∨ ∃ l rest2, rest = l :: rest2 ∧ (l = [] ∨ ¬ startsWithContMark l)) :
    read_vcard_property ⟨writePropertyLine q :: rest, n⟩ ver =
      .ok (some (roundProp q), ⟨rest, n + 1⟩) := by
  have hrnb : readNonblankLine (writePropertyLine q :: rest) n =
      (some (pyUpper q.name ++ (writeParams q.parameters ++ ':' :: q.value)), rest, n + 1) := by
    rw [readNonblankLine_take _ _ _ (by
        rw [writePropertyLine_eq]
        intro h0
        exact absurd (List.append_eq_nil.mp h0).2 (by simp))
      (by
        rw [rstripCRLF_writePropertyLine q hq]
        exact writeLineBody_ne_nil q)]
    rw [rstripCRLF_writePropertyLine q hq]
  have hparse := parse_writeBody q hq hbv
  have hennq := encodingOf_roundProp_ne q henc
  have hfold : foldedGo rest (n + 1) (roundProp q).value ver =
      ((roundProp q).value, rest, n + 1) := by
    rcases hnext with rfl | ⟨l, rest2, rfl, hstop⟩
    · exact foldedGo_nil (n + 1) _ ver
    · exact foldedGo_stop l rest2 (n + 1) _ ver hstop
  simp only [read_vcard_property, hrnb, hparse, if_neg hennq.1, if_neg hennq.2, hfold]

theorem read_begin_line (rest : List (List Char)) (n : Nat) (ver : PyVal)
    (hnext : rest = [] ∨ ∃ l rest2, rest = l :: rest2 ∧ (l = [] ∨ ¬ startsWithContMark l)) :
    read_vcard_property ⟨"BEGIN:VCARD\n".toList :: rest, n⟩ ver =
      .ok (some { name := "begin".toList, value := "vcard".toList }, ⟨rest, n + 1⟩) := by
  have hrnb : readNonblankLine ("BEGIN:VCARD\n".toList :: rest) n =
      (some "BEGIN:VCARD".toList, rest, n + 1) := by
    rw [readNonblankLine_take _ _ _ (by decide) (by decide),
      show rstripCRLF "BEGIN:VCARD\n".toList = "BEGIN:VCARD".toList from by decide]
  have hparse : parse_vcard_property "BEGIN:VCARD".toList =
      some { name := "begin".toList, value := "vcard".toList } := by decide
  have hfold : foldedGo rest (n + 1) "vcard".toList ver =
      ("vcard".toList, rest, n + 1) := by
    rcases hnext with rfl | ⟨l, rest2, rfl, hstop⟩
    · exact foldedGo_nil (n + 1) _ ver
    · exact foldedGo_stop l rest2 (n + 1) _ ver hstop
  simp only [read_vcard_property, hrnb, hparse,
    if_neg (show ¬ encodingOf { name := "begin".toList, value := "vcard".toList } =
      "quoted-printable".toList by decide),
    if_neg (show ¬ encodingOf { name := "begin".toList, value := "vcard".toList } =
      "base64".toList by decide), hfold]

theorem readBodyF_end (fuel : Nat) (n : Nat) (acc : VCard)
    (hver : ∃ v, vcGetVersion acc = some v) :
    readBodyF (fuel + 1) ⟨["END:VCARD\n".toList], n⟩ acc = .ok (acc, ⟨[], n + 1⟩) := by
  obtain ⟨ver, hv⟩ := hver
  have hrnb : readNonblankLine ["END:VCARD\n".toList] n =
      (some "END:VCARD".toList, [], n + 1) := by
    rw [readNonblankLine_take _ _ _ (by decide) (by decide),
      show rstripCRLF "END:VCARD\n".toList = "END:VCARD".toList from by decide]
  have hparse : parse_vcard_property "END:VCARD".toList =
      some { name := "end".toList, value := "vcard".toList } := by decide
  have hread : read_vcard_property ⟨["END:VCARD\n".toList], n⟩ ver =
      .ok (some { name := "end".toList, value := "vcard".toList }, ⟨[], n + 1⟩) := by
    simp only [read_vcard_property, hrnb, hparse,
      if_neg (show ¬ encodingOf { name := "end".toList, value := "vcard".toList } =
        "quoted-printable".toList by decide),
      if_neg (show ¬ encodingOf { name := "end".toList, value := "vcard".toList } =
        "base64".toList by decide), foldedGo_nil]
  simp only [readBodyF, hv, hread]
  simp

theorem readBodyF_succ (fuel : Nat) (r : Reader) (vcard : VCard) :
    readBodyF (fuel + 1) r vcard =
      match vcGetVersion vcard with
      | none => .error .indexError
      | some version =>
        match read_vcard_property r version with
        | .error e => .error e
        | .ok (none, _) => .error .attributeError
        | .ok (some prop, r1) =>
          if prop.name = "end".toList ∨ prop.value = "vcard".toList then .ok (vcard, r1)
          else if prop.name = "agent".toList then
            if pyValEqStr version "2.1".toList then
              match readVCardF fuel r1 with
              | .error e => .error e
              | .ok (_, r2) => readBodyF fuel r2 vcard
            else readBodyF fuel r1 vcard
          else readBodyF fuel r1 (vcard.add_property prop) := by
  simp only [readBodyF]

theorem readVCardF_succ (fuel : Nat) (r : Reader) :
    readVCardF (fuel + 1) r =
      match read_vcard_property r (.str "2.1".toList) with
      | .error e => .error e
      | .ok (none, r1) => .ok (none, r1)
      | .ok (some prop, r1) =>
        if prop.name = "begin".toList ∧ prop.value = "vcard".toList then
          (readBodyF fuel r1 {}).map (fun vr => (some vr.1, vr.2))
        else .error (.unexpectedProperty prop.name) := by
  simp only [readVCardF]

theorem readBodyF_sim :
    ∀ (props : List VCardProperty) (acc : VCard) (n : Nat),
      (∀ e ∈ acc.properties, e.2 ≠ []) →
      (∀ q ∈ props, RoundtrippableProp q) →
      readBodyF (props.length + 2)
          ⟨props.map writePropertyLine ++ ["END:VCARD\n".toList], n⟩ acc =
        .ok (props.foldl (fun vc q => vc.add_property (roundProp q)) acc,
          ⟨[], n + (props.length + 1)⟩)
  | [], acc, n, hnn, _ => by
    simp only [List.map_nil, List.nil_append, List.length_nil, List.foldl_nil]
    exact readBodyF_end 1 n acc (vcGetVersion_isSome acc hnn)
  | q :: props, acc, n, hnn, hrt => by
    obtain ⟨hq, hne, hna, hnv, hnc, hbv, henc⟩ := hrt q (List.mem_cons_self _ _)
    obtain ⟨ver, hv⟩ := vcGetVersion_isSome acc hnn
    have hnext : props.map writePropertyLine ++ ["END:VCARD\n".toList] = [] ∨
        ∃ l rest2, props.map writePropertyLine ++ ["END:VCARD\n".toList] = l :: rest2 ∧
          (l = [] ∨ ¬ startsWithContMark l) := by
      right
      cases props with
      | nil =>
        exact ⟨"END:VCARD\n".toList, [], by simp, Or.inr (by decide)⟩
      | cons q2 props2 =>
        refine ⟨writePropertyLine q2, props2.map writePropertyLine ++ ["END:VCARD\n".toList],
          by simp, Or.inr ?_⟩
        exact writeLine_not_cont q2 (hrt q2 (List.mem_cons_of_mem _ (List.mem_cons_self _ _))).2.2.2.2.1
    have hread := read_vcard_property_writeLine q
      (props.map writePropertyLine ++ ["END:VCARD\n".toList]) n ver hq hbv henc hnext
    have hstep : ¬ ((roundProp q).name = "end".toList ∨ (roundProp q).value = "vcard".toList) := by
      rw [not_or]
      exact ⟨hne, hnv⟩
    have hagent : ¬ (roundProp q).name = "agent".toList := hna
    have ih := readBodyF_sim props (acc.add_property (roundProp q)) (n + 1)
      (add_property_nonnil acc (roundProp q) hnn)
      (fun x hx => hrt x (List.mem_cons_of_mem _ hx))
    simp only [List.map_cons, List.cons_append, List.length_cons]
    rw [show props.length + 1 + 2 = (props.length + 2) + 1 from rfl]
    rw [readBodyF_succ]
    simp only [hv, hread]
    rw [if_neg hstep, if_neg hagent]
    rw [ih]
    rw [List.foldl_cons]
    rw [show n + 1 + (props.length + 1) = n + (props.length + 1 + 1) from by omega]

/-! Accumulating grouped properties with `add_property`. -/

theorem addPropList_new2 :
    ∀ (acc : List (List Char × List VCardProperty)) (p : VCardProperty),
      p.name ∉ acc.map Prod.fst → addPropList p acc = acc ++ [(p.name, [p])]
  | [], p, _ => rfl
  | (k1, vs) :: acc, p, hk => by
    have hk1 : ¬ k1 = p.name := by
      intro he
      exact hk (by rw [List.map_cons, he]; exact List.mem_cons_self _ _)
    have ih := addPropList_new2 acc p (fun hm => hk (List.mem_cons_of_mem _ hm))
    simp only [addPropList, if_neg hk1, ih, List.cons_append]

theorem addPropList_skip2 :
    ∀ (acc : List (List Char × List VCardProperty)) (p : VCardProperty)
      (cur : List VCardProperty),
      p.name ∉ acc.map Prod.fst →
      addPropList p (acc ++ [(p.name, cur)]) = acc ++ [(p.name, cur ++ [p])]
  | [], p, cur, _ => by
    simp only [List.nil_append, addPropList]
    rw [if_true]
  | (k1, vs) :: acc, p, cur, hk => by
    have hk1 : ¬ k1 = p.name := by
      intro he
      exact hk (by rw [List.map_cons, he]; exact List.mem_cons_self _ _)
    have ih := addPropList_skip2 acc p cur (fun hm => hk (List.mem_cons_of_mem _ hm))
    simp only [List.cons_append, addPropList, List.append_eq, if_neg hk1, ih]

theorem addPropList_fold_vals :
    ∀ (qs : List VCardProperty) (acc : List (List Char × List VCardProperty))
      (k : List Char) (cur : List VCardProperty),
      k ∉ acc.map Prod.fst → (∀ q ∈ qs, q.name = k) →
      List.foldl (fun l q => addPropList q l) (acc ++ [(k, cur)]) qs =
        acc ++ [(k, cur ++ qs)]
  | [], acc, k, cur, _, _ => by simp
  | q :: qs, acc, k, cur, hk, hnames => by
    have hqn := hnames q (List.mem_cons_self _ _)
    rw [List.foldl_cons]
    rw [show acc ++ [(k, cur)] = acc ++ [(q.name, cur)] from by rw [hqn]]
    rw [addPropList_skip2 acc q cur (by rw [hqn]; exact hk)]
    rw [show acc ++ [(q.name, cur ++ [q])] = acc ++ [(k, cur ++ [q])] from by rw [hqn]]
    have ih := addPropList_fold_vals qs acc k (cur ++ [q]) hk
      (fun x hx => hnames x (List.mem_cons_of_mem _ hx))
    rw [ih, List.append_assoc]
    simp

theorem addPropList_fold_group (k : List Char) (qs : List VCardProperty)
    (acc : List (List Char × List VCardProperty))
    (hk : k ∉ acc.map Prod.fst) (hne : qs ≠ []) (hnames : ∀ q ∈ qs, q.name = k) :
    List.foldl (fun l q => addPropList q l) acc qs = acc ++ [(k, qs)] := by
  cases qs with
  | nil => exact absurd rfl hne
  | cons q qs =>
    have hqn := hnames q (List.mem_cons_self _ _)
    rw [List.foldl_cons]
    rw [addPropList_new2 acc q (by rw [hqn]; exact hk)]
    rw [show acc ++ [(q.name, [q])] = acc ++ [(k, [q])] from by rw [hqn]]
    rw [addPropList_fold_vals qs acc k [q] hk
      (fun x hx => hnames x (List.mem_cons_of_mem _ hx))]
    simp

theorem addPropList_fold_groups :
    ∀ (keys : List (List Char)) (valsOf : List Char → List VCardProperty)
      (acc : List (List Char × List VCardProperty)),
      keys.Nodup → (∀ k ∈ keys, k ∉ acc.map Prod.fst) →
      (∀ k ∈ keys, valsOf k ≠ [] ∧ ∀ q ∈ valsOf k, q.name = k) →
      List.foldl (fun l q => addPropList q l) acc
        ((keys.map (fun k => valsOf k)).flatten) =
      acc ++ keys.map (fun k => (k, valsOf k))
  | [], _, acc, _, _, _ => by simp
  | k :: keys, valsOf, acc, hnd, hfresh, hvals => by
    simp only [List.map_cons, List.flatten_cons, List.foldl_append]
    rw [addPropList_fold_group k (valsOf k) acc (hfresh k (List.mem_cons_self _ _))
      (hvals k (List.mem_cons_self _ _)).1 (hvals k (List.mem_cons_self _ _)).2]
    have hfresh2 : ∀ k2 ∈ keys, k2 ∉ (acc ++ [(k, valsOf k)]).map Prod.fst := by
      intro k2 hk2 hm
      rw [List.map_append] at hm
      rcases List.mem_append.mp hm with hm | hm
      · exact hfresh k2 (List.mem_cons_of_mem _ hk2) hm
      · simp only [List.map_cons, List.map_nil] at hm
        rcases List.mem_singleton.mp hm with rfl
        exact (List.nodup_cons.mp hnd).1 hk2
    rw [addPropList_fold_groups keys valsOf (acc ++ [(k, valsOf k)])
      (List.nodup_cons.mp hnd).2 hfresh2
      (fun k2 hk2 => hvals k2 (List.mem_cons_of_mem _ hk2))]
    simp

theorem foldl_add_property_props :
    ∀ (qs : List VCardProperty) (vc : VCard),
      List.foldl (fun vc q => vc.add_property q) vc qs =
      { properties := List.foldl (fun l q => addPropList q l) vc.properties qs }
  | [], vc => rfl
  | q :: qs, vc => by
    rw [List.foldl_cons, List.foldl_cons]
    exact foldl_add_property_props qs _

/-! Splitting the flat written stream back into physical lines. -/

theorem splitLinesAux_line :
    ∀ (u : List Char) (rest acc : List Char), '\n' ∉ u →
      splitLinesAux (u ++ '\n' :: rest) acc =
        ((acc.reverse ++ u) ++ ['\n']) :: splitLinesAux rest []
  | [], rest, acc, _ => by
    simp only [List.nil_append, splitLinesAux, List.append_nil]
    rw [if_true]
  | c :: u, rest, acc, h => by
    have hc : ¬ c = '\n' := fun he => h (by rw [he]; exact List.mem_cons_self _ _)
    rw [List.cons_append]
    simp only [splitLinesAux]
    rw [if_neg hc]
    rw [splitLinesAux_line u rest (c :: acc) (fun hm => h (List.mem_cons_of_mem _ hm))]
    simp

theorem splitLines_flatten :
    ∀ ls : List (List Char), (∀ l ∈ ls, ∃ u, l = u ++ ['\n'] ∧ '\n' ∉ u) →
      splitLines ls.flatten = ls
  | [], _ => rfl
  | l :: ls, h => by
    obtain ⟨u, rfl, hu⟩ := h l (List.mem_cons_self _ _)
    rw [List.flatten_cons]
    unfold splitLines
    rw [show (u ++ ['\n']) ++ ls.flatten = u ++ '\n' :: ls.flatten from by simp]
    rw [splitLinesAux_line u ls.flatten [] hu]
    simp only [List.reverse_nil, List.nil_append]
    rw [show splitLinesAux ls.flatten [] = splitLines ls.flatten from rfl]
    rw [splitLines_flatten ls (fun x hx => h x (List.mem_cons_of_mem _ hx))]

theorem flatten_map_map {α β : Type} (f : β → List Char) :
    ∀ (L : List α) (g : α → List β),
      (L.map (fun x => ((g x).map f).flatten)).flatten =
      (((L.map g).flatten).map f).flatten
  | [], _ => rfl
  | x :: L, g => by
    simp only [List.map_cons, List.flatten_cons, List.map_append, List.flatten_append]
    rw [flatten_map_map f L g]

theorem map_flatten' {α β : Type} (f : α → β) :
    ∀ L : List (List α), L.flatten.map f = (L.map (List.map f)).flatten
  | [] => rfl
  | x :: L => by
    simp only [List.flatten_cons, List.map_append, List.map_cons]
    rw [map_flatten' f L]

theorem write_vcard_lines (vc : VCard) :
    write_vcard vc =
      ("BEGIN:VCARD\n".toList ::
        ((writtenProps vc).map writePropertyLine ++ ["END:VCARD\n".toList])).flatten := by
  unfold write_vcard writtenProps
  rw [flatten_map_map writePropertyLine]
  simp

theorem splitLines_write_vcard (vc : VCard) (hgood : GoodVC vc)
    (hmem : ∀ q ∈ writtenProps vc, GoodProp q) :
    splitLines (write_vcard vc) =
      "BEGIN:VCARD\n".toList ::
        ((writtenProps vc).map writePropertyLine ++ ["END:VCARD\n".toList]) := by
  rw [write_vcard_lines vc]
  refine splitLines_flatten _ ?_
  intro l hl
  rcases List.mem_cons.mp hl with rfl | hl2
  · exact ⟨"BEGIN:VCARD".toList, by decide, by decide⟩
  · rcases List.mem_append.mp hl2 with hl3 | hl3
    · rw [List.mem_map] at hl3
      obtain ⟨q, hq, rfl⟩ := hl3
      have hp := hmem q hq
      rw [writePropertyLine_eq]
      exact ⟨_, rfl, (writeLineBody_free q hp).1⟩
    · rcases List.mem_singleton.mp hl3 with rfl
      exact ⟨"END:VCARD".toList, by decide, by decide⟩

theorem writtenProps_mem (vc : VCard) (q : VCardProperty) (hq : q ∈ writtenProps vc) :
    ∃ e ∈ vc.properties, q ∈ e.2 := by
  unfold writtenProps at hq
  rw [List.mem_flatten] at hq
  obtain ⟨b, hb, hqb⟩ := hq
  rw [List.mem_map] at hb
  obtain ⟨nm, hnm, rfl⟩ := hb
  have hnm2 : nm ∈ vc.properties.map Prod.fst :=
    (List.perm_insertionSort _ _).subset hnm
  obtain ⟨vs, hvs⟩ := assocLookup_fst_mem vc.properties nm hnm2
  rw [hvs] at hqb
  exact ⟨(nm, vs), assocLookup_mem _ _ _ hvs, hqb⟩

theorem read_write_sim (vc : VCard) (hgood : GoodVC vc)
    (hextra : ∀ e ∈ vc.properties, ∀ q ∈ e.2,
      ¬ startsWithContMark q.name ∧
      (q.name = "begin".toList → pyLower q.value = q.value) ∧
      ∀ v ∈ (assocLookup q.parameters "encoding".toList).getD [],
        v ≠ "quoted-printable".toList ∧ v ≠ "base64".toList) :
    read_vcard (mkReader (splitLines (write_vcard vc))) =
      .ok (some { properties := ((_sorted_properties (vc.properties.map Prod.fst)).map
                (fun nm => (nm, ((assocLookup vc.properties nm).getD []).map roundProp))) },
        ⟨[], (writtenProps vc).length + 2⟩) := by
  have hmemgood : ∀ q ∈ writtenProps vc, GoodProp q := by
    intro q hq
    obtain ⟨e, he, hqe⟩ := writtenProps_mem vc q hq
    exact ((hgood.2 e he).2.2.2 q hqe).2.2
  have hrt : ∀ q ∈ writtenProps vc, RoundtrippableProp q := by
    intro q hq
    obtain ⟨e, he, hqe⟩ := writtenProps_mem vc q hq
    have hG := hgood.2 e he
    have hQ := hG.2.2.2 q hqe
    have hE := hextra e he q hqe
    refine ⟨hQ.2.2, ?_, ?_, hQ.2.1, hE.1, ?_, hE.2.2⟩
    · rw [hQ.1]
      exact hG.1
    · rw [hQ.1]
      exact hG.2.1
    · intro hbe
      rcases hbe with h | h
      · exact hE.2.1 h
      · exact absurd h (by rw [hQ.1]; exact hG.1)
  have hsl := splitLines_write_vcard vc hgood hmemgood
  have hnext : (writtenProps vc).map writePropertyLine ++ ["END:VCARD\n".toList] = [] ∨
      ∃ l rest2, (writtenProps vc).map writePropertyLine ++ ["END:VCARD\n".toList] =
        l :: rest2 ∧ (l = [] ∨ ¬ startsWithContMark l) := by
    right
    cases hwps : writtenProps vc with
    | nil => exact ⟨"END:VCARD\n".toList, [], by simp, Or.inr (by decide)⟩
    | cons q2 props2 =>
      refine ⟨writePropertyLine q2,
        props2.map writePropertyLine ++ ["END:VCARD\n".toList], by simp, Or.inr ?_⟩
      exact writeLine_not_cont q2
        (hrt q2 (by rw [hwps]; exact List.mem_cons_self _ _)).2.2.2.2.1
  have hbegin := read_begin_line
    ((writtenProps vc).map writePropertyLine ++ ["END:VCARD\n".toList]) 0
    (.str "2.1".toList) hnext
  have hbody := readBodyF_sim (writtenProps vc) {} 1
    (by intro e he; exact absurd he (List.not_mem_nil e)) hrt
  unfold read_vcard mkReader
  simp only []
  rw [hsl]
  rw [show ("BEGIN:VCARD\n".toList ::
      ((writtenProps vc).map writePropertyLine ++ ["END:VCARD\n".toList])).length + 1 =
    ((writtenProps vc).length + 2) + 1 from by simp]
  rw [readVCardF_succ]
  simp only [hbegin]
  rw [if_pos ⟨trivial, trivial⟩]
  simp only [Nat.zero_add]
  rw [hbody]
  simp only [Except.map]
  have hnd : (_sorted_properties (vc.properties.map Prod.fst)).Nodup :=
    ((List.perm_insertionSort _ _).nodup_iff).mpr hgood.1
  have hvals : ∀ nm ∈ _sorted_properties (vc.properties.map Prod.fst),
      ((assocLookup vc.properties nm).getD []).map roundProp ≠ [] ∧
      ∀ q ∈ ((assocLookup vc.properties nm).getD []).map roundProp, q.name = nm := by
    intro nm hnm
    have hnm2 : nm ∈ vc.properties.map Prod.fst :=
      (List.perm_insertionSort _ _).subset hnm
    obtain ⟨vs, hvs⟩ := assocLookup_fst_mem vc.properties nm hnm2
    have hG := hgood.2 (nm, vs) (assocLookup_mem _ _ _ hvs)
    rw [hvs]
    constructor
    · intro h0
      exact hG.2.2.1 (List.map_eq_nil.mp h0)
    · intro q hq
      rw [List.mem_map] at hq
      obtain ⟨q0, hq0, rfl⟩ := hq
      exact (hG.2.2.2 q0 hq0).1
  have h3 : (writtenProps vc).map roundProp =
      ((_sorted_properties (vc.properties.map Prod.fst)).map
        (fun nm => ((assocLookup vc.properties nm).getD []).map roundProp)).flatten := by
    unfold writtenProps
    rw [map_flatten' roundProp, List.map_map]
    rfl
  have h1 := List.foldl_map roundProp
    (fun (vc : VCard) (q : VCardProperty) => vc.add_property q) (writtenProps vc)
    ({} : VCard)
  have hfold : List.foldl (fun (a : VCard) (q : VCardProperty) =>
        a.add_property (roundProp q)) {} (writtenProps vc) =
      { properties := ((_sorted_properties (vc.properties.map Prod.fst)).map
            (fun nm => (nm, ((assocLookup vc.properties nm).getD []).map roundProp))) } := by
    rw [← h1, foldl_add_property_props, h3]
    rw [addPropList_fold_groups _ _ _ hnd (fun k _ hm => absurd hm (by simp)) hvals]
    simp
  rw [hfold]
  rw [show 1 + ((writtenProps vc).length + 1) = (writtenProps vc).length + 2 from by omega]

theorem roundProp_contentEq (q : VCardProperty) : propContentEq (roundProp q) q := by
  refine ⟨rfl, rfl, ?_⟩
  intro k
  show ((assocLookup (sortedParams q.parameters) k).getD []).Perm _
  rw [assocLookup_sortedParams]
  cases hx : assocLookup q.parameters k with
  | none => exact List.Perm.refl _
  | some vs =>
    simp only [Option.map_some', Option.getD_some]
    exact List.perm_insertionSort _ vs

/-- C1 (amended): for every record produced by `read_vcard` from a
well-formed stream (carriage-return-free physical lines each terminated
by one newline) in which no property carries a `quoted-printable` or
`base64` encoding parameter value, no property name starts with a tab
or space, and every `begin`-named property has a case-fixed value,
serializing the record with `write_vcard` and re-reading the serialized
output yields a record whose per-name property lists are equal in
content for every property name: same property name, same value, and
the same parameter-name-to-value-set mapping (parameter value lists
re-read as sorted permutations of the originals).  The name set of the
re-read record is a permutation of the original name set. -/
theorem c1_amended_roundtrip
    (lines : List (List Char)) (vc : VCard) (r1 : Reader)
    (hwf : WfLines lines)
    (hread : read_vcard (mkReader lines) = .ok (some vc, r1))
    (hextra : ∀ e ∈ vc.properties, ∀ q ∈ e.2,
      ¬ startsWithContMark q.name ∧
      (q.name = "begin".toList → pyLower q.value = q.value) ∧
      ∀ v ∈ (assocLookup q.parameters "encoding".toList).getD [],
        v ≠ "quoted-printable".toList ∧ v ≠ "base64".toList) :
    ∃ vc2 r2, read_vcard (mkReader (splitLines (write_vcard vc))) = .ok (some vc2, r2) ∧
      (vc2.properties.map Prod.fst).Perm (vc.properties.map Prod.fst) ∧
      ∀ nm, List.Forall₂ propContentEq
        ((assocLookup vc2.properties nm).getD [])
        ((assocLookup vc.properties nm).getD []) := by
  have hgoodvc : GoodVC vc :=
    ((readF_good ((mkReader lines).lines.length + 1)).1 (mkReader lines) hwf
      (some vc) r1 hread).2 vc rfl
  refine ⟨_, _, read_write_sim vc hgoodvc hextra, ?_, ?_⟩
  · show (((_sorted_properties (vc.properties.map Prod.fst)).map
        (fun nm => (nm, ((assocLookup vc.properties nm).getD []).map roundProp))).map
        Prod.fst).Perm _
    rw [List.map_map]
    rw [show (Prod.fst ∘ fun nm =>
        (nm, ((assocLookup vc.properties nm).getD []).map roundProp)) =
      (fun nm => nm) from rfl]
    rw [List.map_id']
    exact List.perm_insertionSort _ _
  · intro nm
    show List.Forall₂ propContentEq
      ((assocLookup ((_sorted_properties (vc.properties.map Prod.fst)).map
        (fun nm => (nm, ((assocLookup vc.properties nm).getD []).map roundProp))) nm).getD []) _
    rw [assocLookup_map_keys]
    by_cases hnm : nm ∈ _sorted_properties (vc.properties.map Prod.fst)
    · rw [if_pos hnm]
      simp only [Option.getD_some]
      rw [List.forall₂_map_left_iff]
      rw [List.forall₂_same]
      intro q _
      exact roundProp_contentEq q
    · rw [if_neg hnm]
      have hnm2 : nm ∉ vc.properties.map Prod.fst :=
        fun hm => hnm ((List.perm_insertionSort _ _).mem_iff.mpr hm)
      rw [assocLookup_not_mem vc.properties nm hnm2]
      exact List.Forall₂.nil

/-- Witness for the amended C1 theorem: a concrete two-property record
read from a well-formed stream round-trips through `write_vcard` with
content-equal per-name property lists. -/
theorem c1_amended_roundtrip_witness :
    WfLines ["BEGIN:VCARD\n".toList, "VERSION:2.1\n".toList,
      "N;CHARSET=UTF-8:Smith;John\n".toList, "END:VCARD\n".toList] ∧
    read_vcard (mkReader ["BEGIN:VCARD\n".toList, "VERSION:2.1\n".toList,
        "N;CHARSET=UTF-8:Smith;John\n".toList, "END:VCARD\n".toList]) =
      .ok (some c1WitnessVC, ⟨[], 4⟩) ∧
    (∃ vc2 r2, read_vcard (mkReader (splitLines (write_vcard c1WitnessVC))) =
        .ok (some vc2, r2) ∧
      (vc2.properties.map Prod.fst).Perm (c1WitnessVC.properties.map Prod.fst) ∧
      ∀ nm, List.Forall₂ propContentEq
        ((assocLookup vc2.properties nm).getD [])
        ((assocLookup c1WitnessVC.properties nm).getD [])) := by
  have hwf : WfLines ["BEGIN:VCARD\n".toList, "VERSION:2.1\n".toList,
      "N;CHARSET=UTF-8:Smith;John\n".toList, "END:VCARD\n".toList] := by
    intro l hl
    simp only [List.mem_cons, List.not_mem_nil, or_false] at hl
    rcases hl with rfl | rfl | rfl | rfl
    · exact ⟨by decide, "BEGIN:VCARD".toList, by decide, by decide⟩
    · exact ⟨by decide, "VERSION:2.1".toList, by decide, by decide⟩
    · exact ⟨by decide, "N;CHARSET=UTF-8:Smith;John".toList, by decide, by decide⟩
    · exact ⟨by decide, "END:VCARD".toList, by decide, by decide⟩
  refine ⟨hwf, by decide, ?_⟩
  exact c1_amended_roundtrip _ c1WitnessVC ⟨[], 4⟩ hwf (by decide) (by decide)
